import Mathlib

/-!
# wasmati: graph store and query engine

A shallow embedding of the code property graph of `src/graph.h` and of the
query operators of `src/query.cc`.

* A `Node*` / `Edge*` is a handle: the index of the object in the object
  memory `Mem`, in allocation order.  A pointer that may be null is an
  `Option` of a handle.
* `std::set<Node*>` and `std::set<Edge*>` are duplicate-free lists kept in
  ascending handle order (`setInsert`); iterating a set walks that list.
* `std::vector` and `std::list` are lists.
* An assertion failure is the absence of a result (`none`).
-/

namespace Wasmati

/-! ## Data model (graph.h) -/

/-- The edge kinds, `enum class EdgeType`. -/
inductive EdgeType where
  | AST
  | CFG
  | PDG
deriving DecidableEq, Repr

/-- The node kinds, `enum class NodeType`. -/
inductive NodeType where
  | Module
  | Function
  | VarNode
  | FunctionSignature
  | Instructions
  | Instruction
  | Parameters
  | Locals
  | Results
  | Return
  | Else
  | Trap
  | Start
deriving DecidableEq, Repr

/-- Handle of an allocated node (a non-null `Node*`). -/
abbrev NodeRef := Nat

/-- Handle of an allocated edge (a non-null `Edge*`). -/
abbrev EdgeRef := Nat

/-- The expression kinds, `enum class ExprType` of the IR: the members that
`graph.h` names. -/
inductive ExprType where
  | Binary
  | Block
  | Br
  | BrIf
  | BrTable
  | Call
  | CallIndirect
  | Compare
  | Const
  | Convert
  | Drop
  | GlobalGet
  | GlobalSet
  | If
  | Load
  | LocalGet
  | LocalSet
  | LocalTee
  | Loop
  | MemoryGrow
  | MemorySize
  | Nop
  | Return
  | Select
  | Store
  | Unary
  | Unreachable
deriving DecidableEq, Repr

/-- The fields of `class Node`: `_id`, `_type`, `_inEdges`, `_outEdges`; the
field `_isImport` of the subclass `Function` and the field `_instType` of the
subclass `Instruction`, which no other node has. -/
structure Node where
  id : Nat
  type : NodeType
  inEdges : List EdgeRef
  outEdges : List EdgeRef
  isImport : Bool := false
  instType : ExprType := ExprType.Nop
deriving DecidableEq, Repr

/-- The fields of `struct Edge`: `_src`, `_dest`, `_type`. -/
structure Edge where
  src : NodeRef
  dest : NodeRef
  type : EdgeType
deriving DecidableEq, Repr

/-- The object memory: the static counter `Node::idCount`, the allocated
nodes and the allocated edges, each in allocation order. -/
structure Mem where
  idCount : Nat
  nodes : List Node
  edges : List Edge
deriving DecidableEq, Repr

/-- The memory before any allocation. -/
def Mem.empty : Mem := { idCount := 0, nodes := [], edges := [] }

/-- The accessor `node->outEdges()`. -/
def Mem.outEdges (m : Mem) (n : NodeRef) : List EdgeRef :=
  match m.nodes[n]? with
  | some x => x.outEdges
  | none => []

/-- The accessor `node->inEdges()`. -/
def Mem.inEdges (m : Mem) (n : NodeRef) : List EdgeRef :=
  match m.nodes[n]? with
  | some x => x.inEdges
  | none => []

/-- The accessor `e->src()`. -/
def Mem.src (m : Mem) (e : EdgeRef) : NodeRef :=
  match m.edges[e]? with
  | some x => x.src
  | none => 0

/-- The accessor `e->dest()`. -/
def Mem.dest (m : Mem) (e : EdgeRef) : NodeRef :=
  match m.edges[e]? with
  | some x => x.dest
  | none => 0

/-- The accessor `e->type()`. -/
def Mem.edgeType (m : Mem) (e : EdgeRef) : Option EdgeType :=
  match m.edges[e]? with
  | some x => some x.type
  | none => none

/-- The constructor `Node(NodeType type) : _id(idCount++), _type(type)`: the
new node takes the current counter as its id, the counter (an `Index`,
32 bits) is incremented, both adjacency vectors start empty. -/
def Mem.newNode (m : Mem) (t : NodeType) : Mem × NodeRef :=
  ({ m with idCount := (m.idCount + 1) % 2 ^ 32,
            nodes := m.nodes ++ [{ id := m.idCount, type := t, inEdges := [], outEdges := [] }] },
   m.nodes.length)

/-- The method `Node::addOutEdge`: `_outEdges.push_back(e)`. -/
def Mem.addOutEdge (m : Mem) (n : NodeRef) (e : EdgeRef) : Mem :=
  { m with nodes := m.nodes.modify (fun x => { x with outEdges := x.outEdges ++ [e] }) n }

/-- The method `Node::addInEdge`: `_inEdges.push_back(e)`. -/
def Mem.addInEdge (m : Mem) (n : NodeRef) (e : EdgeRef) : Mem :=
  { m with nodes := m.nodes.modify (fun x => { x with inEdges := x.inEdges ++ [e] }) n }

/-- The constructor `Edge(Node* src, Node* dest, EdgeType type)`: asserts that
both pointers are non-null, then registers the new edge with
`src->addOutEdge(this)` and `dest->addInEdge(this)`.  A non-null pointer
designates an allocated node (dereferencing anything else is undefined, so
no result is given for it). -/
def Mem.newEdge (m : Mem) (src dest : Option NodeRef) (t : EdgeType) : Option (Mem × EdgeRef) :=
  match src, dest with
  | some s, some d =>
    if s < m.nodes.length ∧ d < m.nodes.length then
      let e := m.edges.length
      let m1 : Mem := { m with edges := m.edges ++ [{ src := s, dest := d, type := t }] }
      some ((m1.addOutEdge s e).addInEdge d e, e)
    else none
  | _, _ => none

/-- The fields of `class Graph` that the store operations use: `_nodes`,
`_trap`, `_start`, `_module`. -/
structure Graph where
  nodes : List (Option NodeRef)
  trap : Option NodeRef
  start : Option NodeRef
  module : Option NodeRef
deriving DecidableEq, Repr

/-- A program state: the object memory and the graph store. -/
structure State where
  mem : Mem
  graph : Graph
deriving DecidableEq, Repr

/-- The state of a freshly constructed store: no node, no singleton, no
module registered. -/
def State.init : State :=
  { mem := Mem.empty, graph := { nodes := [], trap := none, start := none, module := none } }

/-- The method `Graph::insertNode`: `_nodes.push_back(node)`. -/
def Graph.insertNode (g : Graph) (node : Option NodeRef) : Graph :=
  { g with nodes := g.nodes ++ [node] }

/-- The method `Graph::getTrap`: creates and inserts the Trap node when
`_trap` is null, then returns `_trap`. -/
def State.getTrap (s : State) : State × Option NodeRef :=
  match s.graph.trap with
  | none =>
    let r := s.mem.newNode NodeType.Trap
    let g := { s.graph with trap := some r.2 }
    ({ mem := r.1, graph := g.insertNode g.trap }, some r.2)
  | some t => (s, some t)

/-- The method `Graph::getStart`: creates and inserts the Start node when
`_start` is null, then returns `_start`. -/
def State.getStart (s : State) : State × Option NodeRef :=
  match s.graph.start with
  | none =>
    let r := s.mem.newNode NodeType.Start
    let g := { s.graph with start := some r.2 }
    ({ mem := r.1, graph := g.insertNode g.start }, some r.2)
  | some t => (s, some t)

/-- The method `Graph::setModule`: asserts a non-null argument and stores it. -/
def State.setModule (s : State) (module : Option NodeRef) : Option State :=
  match module with
  | none => none
  | some r => some { s with graph := { s.graph with module := some r } }

/-- The method `Graph::getModule`: asserts that `_module` is set and returns it. -/
def State.getModule (s : State) : Option NodeRef :=
  s.graph.module

/-- The operations a client performs on the node and edge objects and on
the store. -/
inductive Op where
  | newNode (t : NodeType)
  | insertNode (node : Option NodeRef)
  | newEdge (src dest : Option NodeRef) (t : EdgeType)
  | getTrap
  | getStart
  | setModule (module : Option NodeRef)
  | getModule
deriving DecidableEq, Repr

/-- A pointer argument is null or designates an allocated node. -/
def Mem.validPtr (m : Mem) (p : Option NodeRef) : Bool :=
  match p with
  | none => true
  | some r => decide (r < m.nodes.length)

/-- One operation; `none` when an assertion of the operation fails. -/
def State.step (s : State) : Op → Option State
  | Op.newNode t => some { s with mem := (s.mem.newNode t).1 }
  | Op.insertNode node =>
    if s.mem.validPtr node then some { s with graph := s.graph.insertNode node } else none
  | Op.newEdge src dest t =>
    match s.mem.newEdge src dest t with
    | some r => some { s with mem := r.1 }
    | none => none
  | Op.getTrap => some s.getTrap.1
  | Op.getStart => some s.getStart.1
  | Op.setModule module =>
    if s.mem.validPtr module then s.setModule module else none
  | Op.getModule =>
    match s.getModule with
    | some _ => some s
    | none => none

/-- A sequence of operations, from left to right. -/
def State.run (s : State) : List Op → Option State
  | [] => some s
  | op :: ops =>
    match s.step op with
    | some s1 => s1.run ops
    | none => none

/-! ## Sets of handles -/

/-- The set of node handles `NodeSet = std::set<Node*>`. -/
abbrev NodeSet := List NodeRef

/-- The set of edge handles `EdgeSet = std::set<Edge*>`. -/
abbrev EdgeSet := List EdgeRef

/-- The method `std::set::insert` of one element: the element is placed at
its position in ascending order, and nothing changes when it is already
there. -/
def setInsert (a : Nat) : List Nat → List Nat
  | [] => [a]
  | b :: t => if a < b then a :: b :: t else if a = b then b :: t else b :: setInsert a t

/-- Insertion of a range, `s.insert(first, last)`. -/
def setUnion (s : List Nat) (l : List Nat) : List Nat :=
  l.foldl (fun r a => setInsert a r) s

/-- Construction of a set from a range or from a vector. -/
def toSet (l : List Nat) : List Nat := setUnion [] l

/-- The method `std::set::count`. -/
def setCount (s : List Nat) (a : Nat) : Nat := if a ∈ s then 1 else 0

/-! ## Query engine (query.cc) -/

/-- A predicate on an edge, `EdgeCondition`. -/
abbrev EdgeCondition := EdgeRef → Bool

/-- A predicate on a node, `NodeCondition`; it also stands for the
evaluation `eval(node)` of the other predicate types of `predicates.def`. -/
abbrev NodeCondition := NodeRef → Bool

namespace Query

/-- The edge condition `ALL_EDGES`. -/
def ALL_EDGES : EdgeCondition := fun _ => true

/-- The edge condition `AST_EDGES`. -/
def AST_EDGES (m : Mem) : EdgeCondition := fun e => m.edgeType e == some EdgeType.AST

/-- The edge condition `CFG_EDGES`. -/
def CFG_EDGES (m : Mem) : EdgeCondition := fun e => m.edgeType e == some EdgeType.CFG

/-- The edge condition `PDG_EDGES`. -/
def PDG_EDGES (m : Mem) : EdgeCondition := fun e => m.edgeType e == some EdgeType.PDG

/-- The function `Query::filterEdges`. -/
def filterEdges (edges : EdgeSet) (edgeCondition : EdgeCondition) : EdgeSet :=
  edges.foldl (fun result e => if edgeCondition e then setInsert e result else result) []

/-- The function `Query::children`; the adjacency vector is passed to
`filterEdges` as an `EdgeSet`. -/
def children (m : Mem) (nodes : NodeSet) (edgeCondition : EdgeCondition) : NodeSet :=
  nodes.foldl (fun result node =>
    (filterEdges (toSet (m.outEdges node)) edgeCondition).foldl
      (fun r e => setInsert (m.dest e) r) result) []

/-- The function `Query::parents`. -/
def parents (m : Mem) (nodes : NodeSet) (edgeCondition : EdgeCondition) : NodeSet :=
  nodes.foldl (fun result node =>
    (filterEdges (toSet (m.inEdges node)) edgeCondition).foldl
      (fun r e => setInsert (m.src e) r) result) []

/-- The function `Query::filter`. -/
def filter (nodes : NodeSet) (pred : NodeCondition) : NodeSet :=
  nodes.foldl (fun result node => if pred node then setInsert node result else result) []

/-- Modelled from the spec: the list-valued template `map<T>` of `query.h`
on an edge set, which is not among the sources; it applies the function to
the elements in iteration order and collects the values in that order. -/
def mapEdges (edges : EdgeSet) (func : EdgeRef → NodeRef) : List NodeRef :=
  edges.map func

/-- Modelled from the spec: the list-valued template `map<T>` of `query.h`
on a node set with a list-valued function, which is not among the sources;
it appends the lists of the elements in iteration order. -/
def mapNodes (nodes : NodeSet) (func : NodeRef → List NodeRef) : List NodeRef :=
  nodes.foldl (fun result node => result ++ func node) []

/-- The lambda `mapFunction` of `Query::BFS`: the neighbours of a node along
the edges that satisfy the condition. -/
def mapFunction (m : Mem) (edgeCondition : EdgeCondition) (reverse : Bool)
    (node : NodeRef) : List NodeRef :=
  let edges := if reverse then m.inEdges node else m.outEdges node
  mapEdges (filterEdges (toSet edges) edgeCondition)
    (fun e => if reverse then m.src e else m.dest e)

/-- The `while` loop of `Query::BFS`, one iteration per unit of fuel; `none`
when the fuel runs out before the loop ends. -/
def bfsLoop (m : Mem) (pred : NodeCondition) (edgeCondition : EdgeCondition)
    (limit : Nat) (reverse : Bool) :
    Nat → List NodeRef → NodeSet → NodeSet → Option NodeSet
  | 0, _, _, _ => none
  | _ + 1, [], _, result => some result
  | fuel + 1, node :: queue, visited, result =>
    if setCount visited node == 1 then
      bfsLoop m pred edgeCondition limit reverse fuel queue visited result
    else
      let visited1 := setInsert node visited
      let result1 := if pred node then setInsert node result else result
      if result1.length == limit then some result1
      else
        bfsLoop m pred edgeCondition limit reverse fuel
          (queue ++ mapNodes [node] (mapFunction m edgeCondition reverse)) visited1 result1

/-- The number of queue entries that the nodes outside `visited` can still
contribute. -/
def pending (m : Mem) (edgeCondition : EdgeCondition) (reverse : Bool)
    (visited : NodeSet) : Nat :=
  (((List.range m.nodes.length).filter (fun n => decide (n ∉ visited))).map
    (fun n => (mapFunction m edgeCondition reverse n).length)).sum

/-- The function `Query::BFS`.  The loop is given as many iterations as the
initial queue and the adjacency of the whole graph can cause. -/
def BFS (m : Mem) (nodes : NodeSet) (pred : NodeCondition) (edgeCondition : EdgeCondition)
    (limit : Nat) (reverse : Bool) : Option NodeSet :=
  if nodes.length == 0 || limit == 0 then some []
  else
    let queue := mapNodes nodes (mapFunction m edgeCondition reverse)
    bfsLoop m pred edgeCondition limit reverse
      (queue.length + pending m edgeCondition reverse [] + 1) queue [] []

/-- The function `Query::BFSincludes`.  In the second branch
`filtering.size() < limit`, so the difference does not wrap. -/
def BFSincludes (m : Mem) (nodes : NodeSet) (pred : NodeCondition)
    (edgeCondition : EdgeCondition) (limit : Nat) (reverse : Bool) : Option NodeSet :=
  let filtering := filter nodes pred
  if filtering.length ≥ limit then some (toSet (filtering.take limit))
  else
    match BFS m nodes pred edgeCondition (limit - filtering.length) reverse with
    | some result => some (setUnion result filtering)
    | none => none

end Query

/-! ## Notions used to state the properties -/

/-- One traversal step as the code takes it: `v` is the far end of an edge
of the adjacency vector of `u` (the out-edges, or the in-edges when
`reverse`) that satisfies the edge condition. -/
def Mem.Step (m : Mem) (edgeCondition : EdgeCondition) (reverse : Bool)
    (u v : NodeRef) : Prop :=
  ∃ e, e ∈ (if reverse then m.inEdges u else m.outEdges u) ∧ edgeCondition e = true ∧
    (if reverse then m.src e else m.dest e) = v

/-- One edge of the graph that satisfies the edge condition, followed from
its source to its destination, or from its destination to its source when
`reverse`. -/
def Mem.Follows (m : Mem) (edgeCondition : EdgeCondition) (reverse : Bool)
    (u v : NodeRef) : Prop :=
  ∃ e, e < m.edges.length ∧ edgeCondition e = true ∧
    (if reverse then m.dest e = u ∧ m.src e = v else m.src e = u ∧ m.dest e = v)

/-- The adjacency vectors and the edges agree: an edge is in the out-edges
of its source and in the in-edges of its destination, and nowhere else, and
both ends of an edge are allocated nodes. -/
def Mem.wf (m : Mem) : Prop :=
  (∀ n, n < m.nodes.length → ∀ e ∈ m.outEdges n, e < m.edges.length ∧ m.src e = n) ∧
  (∀ n, n < m.nodes.length → ∀ e ∈ m.inEdges n, e < m.edges.length ∧ m.dest e = n) ∧
  (∀ e, e < m.edges.length →
    m.src e < m.nodes.length ∧ m.dest e < m.nodes.length ∧
    e ∈ m.outEdges (m.src e) ∧ e ∈ m.inEdges (m.dest e))

instance (m : Mem) : Decidable m.wf := by
  unfold Mem.wf
  infer_instance

/-- Both ends of every edge are in the node list of the store. -/
def State.EndpointsResident (s : State) : Prop :=
  ∀ e ∈ s.mem.edges, some e.src ∈ s.graph.nodes ∧ some e.dest ∈ s.graph.nodes

instance (s : State) : Decidable s.EndpointsResident := by
  unfold State.EndpointsResident
  infer_instance

/-- Every edge creation of the sequence is given two nodes that are, at that
moment, in the node list of the store. -/
def State.edgesWithinStore (s : State) : List Op → Bool
  | [] => true
  | op :: ops =>
    (match op with
     | Op.newEdge src dest _ => decide (src ∈ s.graph.nodes ∧ dest ∈ s.graph.nodes)
     | _ => true) &&
    (match s.step op with
     | some s1 => s1.edgesWithinStore ops
     | none => true)

/-! ## Example graphs -/

/-- A module with two functions; the second one holds an instruction that
has a control-flow edge to itself and one back to its function. -/
def sampleOps : List Op :=
  [Op.newNode NodeType.Module, Op.insertNode (some 0),
   Op.newNode NodeType.Function, Op.insertNode (some 1),
   Op.newNode NodeType.Function, Op.insertNode (some 2),
   Op.newNode NodeType.Instruction, Op.insertNode (some 3),
   Op.newEdge (some 0) (some 1) EdgeType.AST,
   Op.newEdge (some 0) (some 2) EdgeType.AST,
   Op.newEdge (some 2) (some 3) EdgeType.AST,
   Op.newEdge (some 3) (some 3) EdgeType.CFG,
   Op.newEdge (some 3) (some 2) EdgeType.CFG]

/-- The state that `sampleOps` builds. -/
def sampleState : State :=
  { mem :=
      { idCount := 4,
        nodes :=
          [{ id := 0, type := NodeType.Module, inEdges := [], outEdges := [0, 1] },
           { id := 1, type := NodeType.Function, inEdges := [0], outEdges := [] },
           { id := 2, type := NodeType.Function, inEdges := [1, 4], outEdges := [2] },
           { id := 3, type := NodeType.Instruction, inEdges := [2, 3], outEdges := [3, 4] }],
        edges :=
          [{ src := 0, dest := 1, type := EdgeType.AST },
           { src := 0, dest := 2, type := EdgeType.AST },
           { src := 2, dest := 3, type := EdgeType.AST },
           { src := 3, dest := 3, type := EdgeType.CFG },
           { src := 3, dest := 2, type := EdgeType.CFG }] },
    graph := { nodes := [some 0, some 1, some 2, some 3], trap := none, start := none,
               module := none } }

/-- One instruction with a control-flow edge to itself. -/
def selfLoopOps : List Op :=
  [Op.newNode NodeType.Instruction, Op.insertNode (some 0),
   Op.newEdge (some 0) (some 0) EdgeType.CFG]

/-- The state that `selfLoopOps` builds. -/
def selfLoopState : State :=
  { mem :=
      { idCount := 1,
        nodes := [{ id := 0, type := NodeType.Instruction, inEdges := [0], outEdges := [0] }],
        edges := [{ src := 0, dest := 0, type := EdgeType.CFG }] },
    graph := { nodes := [some 0], trap := none, start := none, module := none } }

/-- Two nodes are allocated, only the second is inserted into the store, and
an edge is created from the first to the second. -/
def strayEdgeOps : List Op :=
  [Op.newNode NodeType.Instruction, Op.newNode NodeType.Instruction, Op.insertNode (some 1),
   Op.newEdge (some 0) (some 1) EdgeType.AST]

/-- The state that `strayEdgeOps` builds. -/
def strayEdgeState : State :=
  { mem :=
      { idCount := 2,
        nodes := [{ id := 0, type := NodeType.Instruction, inEdges := [], outEdges := [0] },
                  { id := 1, type := NodeType.Instruction, inEdges := [0], outEdges := [] }],
        edges := [{ src := 0, dest := 1, type := EdgeType.AST }] },
    graph := { nodes := [some 1], trap := none, start := none, module := none } }

/-! ## Further accessors of graph.h -/

/-- The accessor `node->getId()`. -/
def Mem.getId (m : Mem) (n : NodeRef) : Option Nat :=
  match m.nodes[n]? with
  | some x => some x.id
  | none => none

/-- The accessor `node->type()`. -/
def Mem.nodeType (m : Mem) (n : NodeRef) : Option NodeType :=
  match m.nodes[n]? with
  | some x => some x.type
  | none => none

/-- The virtual method `node->isImport()`: the override of `Function` returns
the flag, the implementation of `Node` that every other class inherits is
`assert(false)`. -/
def Mem.isImport (m : Mem) (n : NodeRef) : Option Bool :=
  match m.nodes[n]? with
  | some x => if x.type = NodeType.Function then some x.isImport else none
  | none => none

/-- Modelled from the spec: the method `Node::inEdges(EdgeType)`, declared in
`graph.h` and defined outside the sources; the in-edges of the given kind, in
insertion order. -/
def Mem.inEdgesOfType (m : Mem) (n : NodeRef) (type : EdgeType) : List EdgeRef :=
  (m.inEdges n).filter (fun e => m.edgeType e == some type)

/-- Modelled from the spec: the method `Node::outEdges(EdgeType)`, declared in
`graph.h` and defined outside the sources; the out-edges of the given kind,
in insertion order. -/
def Mem.outEdgesOfType (m : Mem) (n : NodeRef) (type : EdgeType) : List EdgeRef :=
  (m.outEdges n).filter (fun e => m.edgeType e == some type)

/-- The method `Node::getInEdge`: `edges = inEdges(type)`, then
`assert(i < edges.size())`, then `edges[i]`. -/
def Mem.getInEdge (m : Mem) (n : NodeRef) (i : Nat) (type : EdgeType) : Option EdgeRef :=
  let edges := m.inEdgesOfType n type
  if i < edges.length then some (edges.getD i 0) else none

/-- Modelled from the spec: the method `Node::getOutEdge`, declared in
`graph.h` and defined outside the sources; the positional lookup among the
out-edges of the given kind, which fails when the index is out of range. -/
def Mem.getOutEdge (m : Mem) (n : NodeRef) (i : Nat) (type : EdgeType) : Option EdgeRef :=
  let edges := m.outEdgesOfType n type
  if i < edges.length then some (edges.getD i 0) else none

/-- Modelled from the spec: the method `Node::getChild`, declared in `graph.h`
and defined outside the sources; the destination of the out-edge of the
given kind at the given position. -/
def Mem.getChild (m : Mem) (node : NodeRef) (n : Nat) (type : EdgeType) : Option NodeRef :=
  match m.getOutEdge node n type with
  | some e => some (m.dest e)
  | none => none

/-- The method `Graph::getModule` on the store alone. -/
def Graph.getModule (g : Graph) : Option NodeRef :=
  g.module

namespace Query

/-- The node condition `ALL_INSTS`. -/
def ALL_INSTS (m : Mem) : NodeCondition := fun node => m.nodeType node == some NodeType.Instruction

/-- The node condition `ALL_NODES`. -/
def ALL_NODES : NodeCondition := fun _ => true

/-- The function `Query::module`; the argument is the static `_graph`, null
when no graph is bound. -/
def module (graph : Option Graph) : Option NodeSet :=
  match graph with
  | none => none
  | some g =>
    match g.getModule with
    | some r => some [r]
    | none => none

/-- The function `Query::functions`. -/
def functions (graph : Option Graph) (m : Mem) (nodeCondition : NodeCondition) :
    Option NodeSet :=
  match module graph with
  | some r => some (filter (children m r (AST_EDGES m)) nodeCondition)
  | none => none

/-- The first loop of `Query::instructions`: the Instructions container (AST
child 1) of every function that is not imported. -/
def funcInstsNode (m : Mem) : NodeSet → NodeSet → Option NodeSet
  | [], acc => some acc
  | node :: rest, acc =>
    if m.nodeType node = some NodeType.Function then
      match m.isImport node with
      | some true => funcInstsNode m rest acc
      | some false =>
        match m.getChild node 1 EdgeType.AST with
        | some c => funcInstsNode m rest (setInsert c acc)
        | none => none
      | none => none
    else none

/-- The function `Query::instructions`; `limit` is the default limit of
`BFS`, declared in `query.h`. -/
def instructions (m : Mem) (nodes : NodeSet) (nodeCondition : NodeCondition) (limit : Nat) :
    Option NodeSet :=
  match funcInstsNode m nodes [] with
  | some seeds =>
    BFS m seeds (fun node => m.nodeType node == some NodeType.Instruction && nodeCondition node)
      (AST_EDGES m) limit false
  | none => none

/-- The loop of `Query::parameters`.  The argument `nodeCondition` of the
function does not occur in its body. -/
def parametersLoop (m : Mem) : NodeSet → NodeSet → Option NodeSet
  | [], params => some params
  | node :: rest, params =>
    if m.nodeType node = some NodeType.Function then
      match m.getChild node 0 EdgeType.AST with
      | some sig =>
        let paramsNode := filter (children m [sig] (AST_EDGES m))
          (fun n => m.nodeType n == some NodeType.Parameters)
        if paramsNode.length ≤ 1 then
          if paramsNode.length == 1 then
            parametersLoop m rest (setUnion params (children m paramsNode (AST_EDGES m)))
          else parametersLoop m rest params
        else none
      | none => none
    else none

/-- The function `Query::parameters`. -/
def parameters (m : Mem) (nodes : NodeSet) (_nodeCondition : NodeCondition) : Option NodeSet :=
  parametersLoop m nodes []

end Query

/-! ## Example module graph -/

/-- A module with a defined function (one parameter, one local, the body
`nop`) and an imported function.  Node 0 is the Module, 1 the defined
Function, 2 its FunctionSignature, 3 its Instructions, 4 Parameters, 5 the
parameter, 6 Locals, 7 the local, 8 the `nop`, 9 the imported Function, 10 its
FunctionSignature, 11 its Instructions. -/
def moduleMem : Mem :=
  { idCount := 12,
    nodes :=
      [{ id := 0, type := NodeType.Module, inEdges := [], outEdges := [0, 9] },
       { id := 1, type := NodeType.Function, inEdges := [0], outEdges := [1, 2] },
       { id := 2, type := NodeType.FunctionSignature, inEdges := [1], outEdges := [3, 4] },
       { id := 3, type := NodeType.Instructions, inEdges := [2], outEdges := [7, 8] },
       { id := 4, type := NodeType.Parameters, inEdges := [3], outEdges := [5] },
       { id := 5, type := NodeType.VarNode, inEdges := [5], outEdges := [] },
       { id := 6, type := NodeType.Locals, inEdges := [4], outEdges := [6] },
       { id := 7, type := NodeType.VarNode, inEdges := [6], outEdges := [] },
       { id := 8, type := NodeType.Instruction, inEdges := [7, 8], outEdges := [] },
       { id := 9, type := NodeType.Function, inEdges := [9], outEdges := [10, 11],
         isImport := true },
       { id := 10, type := NodeType.FunctionSignature, inEdges := [10], outEdges := [] },
       { id := 11, type := NodeType.Instructions, inEdges := [11], outEdges := [] }],
    edges :=
      [{ src := 0, dest := 1, type := EdgeType.AST },
       { src := 1, dest := 2, type := EdgeType.AST },
       { src := 1, dest := 3, type := EdgeType.AST },
       { src := 2, dest := 4, type := EdgeType.AST },
       { src := 2, dest := 6, type := EdgeType.AST },
       { src := 4, dest := 5, type := EdgeType.AST },
       { src := 6, dest := 7, type := EdgeType.AST },
       { src := 3, dest := 8, type := EdgeType.AST },
       { src := 3, dest := 8, type := EdgeType.CFG },
       { src := 0, dest := 9, type := EdgeType.AST },
       { src := 9, dest := 10, type := EdgeType.AST },
       { src := 9, dest := 11, type := EdgeType.AST }] }

/-- The store of the example module: every node inserted, node 0 registered
as the Module. -/
def moduleGraph : Graph :=
  { nodes := [some 0, some 1, some 2, some 3, some 4, some 5, some 6, some 7, some 8, some 9,
              some 10, some 11],
    trap := none, start := none, module := some 0 }

/-! ## The AST projection -/

/-- The AST projection of the graph: `v` is the destination of an AST edge
whose source is `u`. -/
def Mem.AstChild (m : Mem) (u v : NodeRef) : Prop :=
  m.Follows (Query.AST_EDGES m) false u v

/-- The AST projection has no cycle: no node reaches itself along one or more
AST edges. -/
def Mem.AstAcyclic (m : Mem) : Prop :=
  ∀ x, ¬ Relation.TransGen m.AstChild x x

/-- One node with an AST edge to itself. -/
def astLoopOps : List Op :=
  [Op.newNode NodeType.Instruction, Op.insertNode (some 0),
   Op.newEdge (some 0) (some 0) EdgeType.AST]

/-- The state that `astLoopOps` builds. -/
def astLoopState : State :=
  { mem :=
      { idCount := 1,
        nodes := [{ id := 0, type := NodeType.Instruction, inEdges := [0], outEdges := [0] }],
        edges := [{ src := 0, dest := 0, type := EdgeType.AST }] },
    graph := { nodes := [some 0], trap := none, start := none, module := none } }

/-- Two nodes in the store and no edge. -/
def twoNodesState : State :=
  { mem :=
      { idCount := 2,
        nodes := [{ id := 0, type := NodeType.Instructions, inEdges := [], outEdges := [] },
                  { id := 1, type := NodeType.Instruction, inEdges := [], outEdges := [] }],
        edges := [] },
    graph := { nodes := [some 0, some 1], trap := none, start := none, module := none } }

/-- The state `twoNodesState` after the creation of an AST edge from node 0
to node 1. -/
def twoNodesLinked : State :=
  { mem :=
      { idCount := 2,
        nodes := [{ id := 0, type := NodeType.Instructions, inEdges := [], outEdges := [0] },
                  { id := 1, type := NodeType.Instruction, inEdges := [0], outEdges := [] }],
        edges := [{ src := 0, dest := 1, type := EdgeType.AST }] },
    graph := { nodes := [some 0, some 1], trap := none, start := none, module := none } }

/-- The counter and the ids follow the order of creation, modulo `2 ^ 32`. -/
def Mem.IdsInOrder (m : Mem) : Prop :=
  m.idCount = m.nodes.length % 2 ^ 32 ∧
  ∀ i, i < m.nodes.length → m.getId i = some (i % 2 ^ 32)

/-! ## The node classes of graph.h -/

/-- Modelled from the spec: the source location of the IR (`Location`, whose
declaration is outside the sources): file, line and column. -/
structure Location where
  file : String := ""
  line : Nat := 0
  column : Nat := 0
deriving DecidableEq, Repr

/-- Modelled from the spec: the value types of the IR (`Type`, whose
declaration is outside the sources). -/
inductive ValType where
  | I32
  | I64
  | F32
  | F64
  | V128
deriving DecidableEq, Repr

/-- Modelled from the spec: a typed constant of the IR (`Const`, whose
declaration is outside the sources): its type and its bit pattern. -/
structure Const where
  type : ValType
  bits : Nat
deriving DecidableEq, Repr

/-- Modelled from the spec: an opcode of the IR, by its number. -/
abbrev Opcode := Nat

/-- The instances of the template `SimpleNode` that `graph.h` declares:
`FunctionSignature`, `Instructions`, `Parameters`, `Locals`, `Results`, `Else`,
`Trap`, `Start`. -/
inductive SimpleKind where
  | FunctionSignature
  | Instructions
  | Parameters
  | Locals
  | Results
  | Else
  | Trap
  | Start
deriving DecidableEq, Repr

/-- The `NodeType` argument of an instance of `SimpleNode`. -/
def SimpleKind.type : SimpleKind → NodeType
  | FunctionSignature => NodeType.FunctionSignature
  | Instructions => NodeType.Instructions
  | Parameters => NodeType.Parameters
  | Locals => NodeType.Locals
  | Results => NodeType.Results
  | Else => NodeType.Else
  | Trap => NodeType.Trap
  | Start => NodeType.Start

/-- The concrete node classes of `graph.h`, each with the fields it declares
and inherits (apart from those of `Node`).  A class template over `ExprType`
takes its argument as a field. -/
inductive NodeClass where
  | Module (name : String)
  | Function (name : String) (index nargs nlocals nresults : Nat) (isImport : Bool)
  | VarNode (varType : ValType) (name : String)
  | SimpleNode (kind : SimpleKind)
  | BaseInstruction (exprType : ExprType) (loc : Location)
  | ConstInst (loc : Location) (value : Const)
  | OpcodeInst (exprType : ExprType) (loc : Location) (opcode : Opcode)
  | LoadStoreBase (exprType : ExprType) (loc : Location) (opcode : Opcode) (offset : Nat)
  | LabeledInst (exprType : ExprType) (loc : Location) (label : String)
  | CallBase (exprType : ExprType) (loc : Location) (label : String) (nargs nresults : Nat)
  | BlockBase (exprType : ExprType) (loc : Location) (label : String) (nresults : Nat)
  | BeginBlockInst (loc : Location) (label : String) (block : Option NodeRef)
  | IfInst (loc : Location) (nresults : Nat) (hasElse : Bool)
deriving DecidableEq, Repr

namespace NodeClass

/-- The tag `_type` that the constructor chain passes to `Node(NodeType)`:
`BaseNode<t>` passes `t`, and every instruction class derives from
`BaseNode<NodeType::Instruction>`. -/
def type : NodeClass → NodeType
  | Module _ => NodeType.Module
  | Function _ _ _ _ _ _ => NodeType.Function
  | VarNode _ _ => NodeType.VarNode
  | SimpleNode k => k.type
  | _ => NodeType.Instruction

/-- The virtual method `instType()`: `Instruction` overrides it, the
implementation of `Node` is `assert(false)`.  `ConstInst` is
`BaseInstruction<ExprType::Const>`, `BeginBlockInst` is
`LabeledInst<ExprType::Block>`, `IfInst` is `BaseInstruction<ExprType::If>`. -/
def instType : NodeClass → Option ExprType
  | BaseInstruction e _ => some e
  | ConstInst _ _ => some ExprType.Const
  | OpcodeInst e _ _ => some e
  | LoadStoreBase e _ _ _ => some e
  | LabeledInst e _ _ => some e
  | CallBase e _ _ _ _ => some e
  | BlockBase e _ _ _ => some e
  | BeginBlockInst _ _ _ => some ExprType.Block
  | IfInst _ _ _ => some ExprType.If
  | _ => none

/-- The virtual method `location()`: overridden by `Instruction`. -/
def location : NodeClass → Option Location
  | BaseInstruction _ l => some l
  | ConstInst l _ => some l
  | OpcodeInst _ l _ => some l
  | LoadStoreBase _ l _ _ => some l
  | LabeledInst _ l _ => some l
  | CallBase _ l _ _ _ => some l
  | BlockBase _ l _ _ => some l
  | BeginBlockInst l _ _ => some l
  | IfInst l _ _ => some l
  | _ => none

/-- The virtual method `name()`: overridden by `Module`, `Function`, `VarNode`. -/
def name : NodeClass → Option String
  | Module n => some n
  | Function n _ _ _ _ _ => some n
  | VarNode _ n => some n
  | _ => none

/-- The virtual method `index()`: overridden by `Function`. -/
def index : NodeClass → Option Nat
  | Function _ i _ _ _ _ => some i
  | _ => none

/-- The virtual method `nargs()`: overridden by `Function` and `CallBase`. -/
def nargs : NodeClass → Option Nat
  | Function _ _ n _ _ _ => some n
  | CallBase _ _ _ n _ => some n
  | _ => none

/-- The virtual method `nlocals()`: overridden by `Function`. -/
def nlocals : NodeClass → Option Nat
  | Function _ _ _ n _ _ => some n
  | _ => none

/-- The virtual method `nresults()`: overridden by `Function`, `CallBase`,
`BlockBase` and `IfInst`; every other class inherits `assert(false)`. -/
def nresults : NodeClass → Option Nat
  | Function _ _ _ _ n _ => some n
  | CallBase _ _ _ _ n => some n
  | BlockBase _ _ _ n => some n
  | IfInst _ n _ => some n
  | _ => none

/-- The virtual method `isImport()`: overridden by `Function`. -/
def isImport : NodeClass → Option Bool
  | Function _ _ _ _ _ b => some b
  | _ => none

/-- The virtual method `varType()`: overridden by `VarNode`. -/
def varType : NodeClass → Option ValType
  | VarNode t _ => some t
  | _ => none

/-- The virtual method `opcode()`: overridden by `OpcodeInst`, which
`LoadStoreBase` extends. -/
def opcode : NodeClass → Option Opcode
  | OpcodeInst _ _ o => some o
  | LoadStoreBase _ _ o _ => some o
  | _ => none

/-- The virtual method `value()`: overridden by `ConstInst`. -/
def value : NodeClass → Option Const
  | ConstInst _ v => some v
  | _ => none

/-- The virtual method `label()`: defined by `LabeledInst`, which `CallBase`,
`BlockBase` and `BeginBlockInst` extend. -/
def label : NodeClass → Option String
  | LabeledInst _ _ l => some l
  | CallBase _ _ l _ _ => some l
  | BlockBase _ _ l _ => some l
  | BeginBlockInst _ l _ => some l
  | _ => none

/-- The virtual method `hasElse()`: overridden by `IfInst`. -/
def hasElse : NodeClass → Option Bool
  | IfInst _ _ b => some b
  | _ => none

/-- The virtual method `offset()`: overridden by `LoadStoreBase`. -/
def offset : NodeClass → Option Nat
  | LoadStoreBase _ _ _ o => some o
  | _ => none

/-- The virtual method `block()`: overridden by `BeginBlockInst`; the value
is the stored pointer, which may be null. -/
def block : NodeClass → Option (Option NodeRef)
  | BeginBlockInst _ _ b => some b
  | _ => none

/-- The test `Instruction::classof`, that of `BaseNode<NodeType::Instruction>`:
`node->_type == t`. -/
def isInstruction (c : NodeClass) : Bool :=
  decide (c.type = NodeType.Instruction)

/-- The test `BaseInstruction<exprType>::classof`:
`Instruction::classof(node) && (node->instType() == exprType)`; `none` when
the call of `instType()` is an assertion failure. -/
def classofInst (exprType : ExprType) (c : NodeClass) : Option Bool :=
  if c.isInstruction then
    match c.instType with
    | some e => some (decide (e = exprType))
    | none => none
  else some false

end NodeClass

/-- Modelled from the spec: the declaration of a block of the IR, as far as
`graph.h` reads it: the result types of its signature. -/
structure BlockDeclaration where
  resultTypes : List ValType
deriving DecidableEq, Repr

/-- Modelled from the spec: the method `GetNumResults` of a declaration, the
number of declared results. -/
def BlockDeclaration.GetNumResults (d : BlockDeclaration) : Nat :=
  d.resultTypes.length

/-- Modelled from the spec: an expression of the IR, as far as the
constructors of `graph.h` read one that stands in a list. -/
structure Expr where
  kind : ExprType
  loc : Location
deriving DecidableEq, Repr

/-- Modelled from the spec: the `Block` of the IR: label, declaration,
expression list and end location. -/
structure Block where
  label : String
  decl : BlockDeclaration
  exprs : List Expr
  endLoc : Location
deriving DecidableEq, Repr

/-- Modelled from the spec: a block or loop expression, `BlockExprBase`. -/
structure BlockExprBase where
  loc : Location
  block : Block
deriving DecidableEq, Repr

/-- Modelled from the spec: an expression with a variable, `VarExpr`; the
field is the name of the variable. -/
structure VarExpr where
  loc : Location
  varName : String
deriving DecidableEq, Repr

/-- Modelled from the spec: the if expression of the IR, `IfExpr`: the true
branch is a `Block`, the false branch an expression list. -/
structure IfExpr where
  loc : Location
  true_ : Block
  false_ : List Expr
deriving DecidableEq, Repr

/-- The constructor `BlockBase(const BlockExprBase<T>* expr)`. -/
def BlockBase.ofExpr (exprType : ExprType) (expr : BlockExprBase) : NodeClass :=
  NodeClass.BlockBase exprType expr.loc expr.block.label expr.block.decl.GetNumResults

/-- The constructor `BlockBase(const Block& block)`. -/
def BlockBase.ofBlock (exprType : ExprType) (block : Block) : NodeClass :=
  NodeClass.BlockBase exprType block.endLoc block.label block.decl.GetNumResults

/-- The class `BlockInst`, `BlockBase<ExprType::Block>`, built from an
expression. -/
def BlockInst.ofExpr (expr : BlockExprBase) : NodeClass :=
  BlockBase.ofExpr ExprType.Block expr

/-- The class `LoopInst`, `BlockBase<ExprType::Loop>`, built from an
expression. -/
def LoopInst.ofExpr (expr : BlockExprBase) : NodeClass :=
  BlockBase.ofExpr ExprType.Loop expr

/-- The constructor `BeginBlockInst(const VarExpr<ExprType::Block>* expr,
BlockInst* block)`. -/
def BeginBlockInst.ofExpr (expr : VarExpr) (block : Option NodeRef) : NodeClass :=
  NodeClass.BeginBlockInst expr.loc expr.varName block

/-- The constructor `BeginBlockInst(std::string label, BlockInst* block,
const Location loc)`. -/
def BeginBlockInst.ofLabel (label : String) (block : Option NodeRef) (loc : Location) :
    NodeClass :=
  NodeClass.BeginBlockInst loc label block

/-- The constructor `IfInst(const IfExpr* expr)`. -/
def IfInst.ofExpr (expr : IfExpr) : NodeClass :=
  NodeClass.IfInst expr.loc expr.true_.decl.GetNumResults (!expr.false_.isEmpty)

/-- The accessor `node->instType()` on the object memory: the field of an
Instruction node; on any other node the inherited `assert(false)`. -/
def Mem.instType (m : Mem) (n : NodeRef) : Option ExprType :=
  match m.nodes[n]? with
  | some x => if x.type = NodeType.Instruction then some x.instType else none
  | none => none

/-- The node that the constructor of a class leaves in memory: `Node(type)`
sets id, tag and empty adjacency, the class adds its fields. -/
def Mem.newObject (m : Mem) (c : NodeClass) : Mem × NodeRef :=
  ({ m with idCount := (m.idCount + 1) % 2 ^ 32,
            nodes := m.nodes ++
              [{ id := m.idCount, type := c.type, inEdges := [], outEdges := [],
                 isImport := c.isImport.getD false,
                 instType := c.instType.getD ExprType.Nop }] },
   m.nodes.length)

/-- An if expression without else branch whose true branch declares one
result. -/
def ifWithoutElse : IfExpr :=
  { loc := {},
    true_ := { label := "", decl := { resultTypes := [ValType.I32] }, exprs := [], endLoc := {} },
    false_ := [] }

/-- The same if expression with one `nop` in the else branch. -/
def ifWithElse : IfExpr :=
  { loc := {},
    true_ := { label := "", decl := { resultTypes := [ValType.I32] }, exprs := [], endLoc := {} },
    false_ := [{ kind := ExprType.Nop, loc := {} }] }

/-! ## Traversal with a node predicate that can fail -/

/-- How a call ends when the evaluation of its node predicate can hit an
assertion. -/
inductive Outcome where
  | done (result : NodeSet)
  | assertFailed
  | outOfFuel
deriving DecidableEq, Repr

namespace Query

/-- The `while` loop of `Query::BFS` with the evaluation `eval(node)` of the
predicate as a call that may fail: `none` is an assertion failure inside the
predicate, which ends the whole call. -/
def bfsLoopEval (m : Mem) (eval : NodeRef → Option Bool) (edgeCondition : EdgeCondition)
    (limit : Nat) (reverse : Bool) :
    Nat → List NodeRef → NodeSet → NodeSet → Outcome
  | 0, _, _, _ => Outcome.outOfFuel
  | _ + 1, [], _, result => Outcome.done result
  | fuel + 1, node :: queue, visited, result =>
    if setCount visited node == 1 then
      bfsLoopEval m eval edgeCondition limit reverse fuel queue visited result
    else
      let visited1 := setInsert node visited
      match eval node with
      | none => Outcome.assertFailed
      | some b =>
        let result1 := if b then setInsert node result else result
        if result1.length == limit then Outcome.done result1
        else
          bfsLoopEval m eval edgeCondition limit reverse fuel
            (queue ++ mapNodes [node] (mapFunction m edgeCondition reverse)) visited1 result1

/-- The function `Query::BFS` with a predicate that may fail. -/
def BFSeval (m : Mem) (nodes : NodeSet) (eval : NodeRef → Option Bool)
    (edgeCondition : EdgeCondition) (limit : Nat) (reverse : Bool) : Outcome :=
  if nodes.length == 0 || limit == 0 then Outcome.done []
  else
    let queue := mapNodes nodes (mapFunction m edgeCondition reverse)
    bfsLoopEval m eval edgeCondition limit reverse
      (queue.length + pending m edgeCondition reverse [] + 1) queue [] []

end Query

/-- An `unreachable` instruction (node 0) with a control-flow edge to the
Trap node (node 1). -/
def trapMem : Mem :=
  { idCount := 2,
    nodes :=
      [{ id := 0, type := NodeType.Instruction, inEdges := [], outEdges := [0],
         instType := ExprType.Unreachable },
       { id := 1, type := NodeType.Trap, inEdges := [0], outEdges := [] }],
    edges := [{ src := 0, dest := 1, type := EdgeType.CFG }] }

namespace Query

/-- The function `Query::function`.  Modelled from the spec: the stream
operations of `query.h`, which are not among the sources: `NodeStream(node)`
holds the set of the one node, `BFSincludes` applies `Query::BFSincludes`,
`findFirst().get()` yields the first node of the resulting set and fails
when the set is empty. -/
def function (m : Mem) (node : NodeRef) : Option NodeRef :=
  match m.nodeType node with
  | none => none
  | some t =>
    if t = NodeType.Module then none
    else
      match BFSincludes m [node] (fun n => m.nodeType n == some NodeType.Function)
          (AST_EDGES m) 1 true with
      | some r => r.head?
      | none => none

end Query

/-! ## The order of the traversal -/

namespace Query

/-- The nodes in the order in which the loop of `Query::BFS` visits them when
no limit stops it, each with the level of the queue entry that brought it:
the entries of the initial queue have level 1, the neighbours enqueued for a
node of level `l` have level `l + 1`.  The loop is that of `bfsLoop` without
the result and the limit. -/
def levelOrder (m : Mem) (edgeCondition : EdgeCondition) (reverse : Bool) :
    Nat → List (NodeRef × Nat) → NodeSet → List (NodeRef × Nat)
  | 0, _, _ => []
  | _ + 1, [], _ => []
  | fuel + 1, (node, l) :: queue, visited =>
    if node ∈ visited then levelOrder m edgeCondition reverse fuel queue visited
    else
      (node, l) :: levelOrder m edgeCondition reverse fuel
        (queue ++ (mapFunction m edgeCondition reverse node).map (fun x => (x, l + 1)))
        (setInsert node visited)

/-- The visiting order of a call of BFS on the seeds `nodes`, with the fuel
that `BFS` gives its loop. -/
def visitOrder (m : Mem) (nodes : NodeSet) (edgeCondition : EdgeCondition) (reverse : Bool) :
    List (NodeRef × Nat) :=
  levelOrder m edgeCondition reverse
    ((mapNodes nodes (mapFunction m edgeCondition reverse)).length
      + pending m edgeCondition reverse [] + 1)
    ((mapNodes nodes (mapFunction m edgeCondition reverse)).map (fun x => (x, 1))) []

/-- The loop of `Query::BFS` with a log of the nodes whose neighbours it
enqueues (the calls of `mapFunction` in the loop), in order. -/
def bfsLoopLog (m : Mem) (pred : NodeCondition) (edgeCondition : EdgeCondition)
    (limit : Nat) (reverse : Bool) :
    Nat → List NodeRef → NodeSet → NodeSet → List NodeRef → Option (NodeSet × List NodeRef)
  | 0, _, _, _, _ => none
  | _ + 1, [], _, result, log => some (result, log)
  | fuel + 1, node :: queue, visited, result, log =>
    if setCount visited node == 1 then
      bfsLoopLog m pred edgeCondition limit reverse fuel queue visited result log
    else
      let visited1 := setInsert node visited
      let result1 := if pred node then setInsert node result else result
      if result1.length == limit then some (result1, log)
      else
        bfsLoopLog m pred edgeCondition limit reverse fuel
          (queue ++ mapNodes [node] (mapFunction m edgeCondition reverse)) visited1 result1
          (log ++ [node])

/-- The function `Query::BFS` with two logs of the nodes whose neighbours it
enqueues: the seeds, for the initial queue, and the nodes expanded by the
loop. -/
def BFSlog (m : Mem) (nodes : NodeSet) (pred : NodeCondition) (edgeCondition : EdgeCondition)
    (limit : Nat) (reverse : Bool) : Option (NodeSet × List NodeRef × List NodeRef) :=
  if nodes.length == 0 || limit == 0 then some ([], [], [])
  else
    let queue := mapNodes nodes (mapFunction m edgeCondition reverse)
    match bfsLoopLog m pred edgeCondition limit reverse
        (queue.length + pending m edgeCondition reverse [] + 1) queue [] [] [] with
    | some (r, log) => some (r, nodes, log)
    | none => none

end Query

/-- Three instructions: the first has an edge to itself and an edge to the
second, the second has an edge to the third. -/
def loopAndExitOps : List Op :=
  [Op.newNode NodeType.Instruction, Op.insertNode (some 0),
   Op.newNode NodeType.Instruction, Op.insertNode (some 1),
   Op.newNode NodeType.Instruction, Op.insertNode (some 2),
   Op.newEdge (some 0) (some 0) EdgeType.CFG,
   Op.newEdge (some 0) (some 1) EdgeType.CFG,
   Op.newEdge (some 1) (some 2) EdgeType.CFG]

/-- The state that `loopAndExitOps` builds. -/
def loopAndExitState : State :=
  { mem :=
      { idCount := 3,
        nodes := [{ id := 0, type := NodeType.Instruction, inEdges := [0], outEdges := [0, 1] },
                  { id := 1, type := NodeType.Instruction, inEdges := [1], outEdges := [2] },
                  { id := 2, type := NodeType.Instruction, inEdges := [2], outEdges := [] }],
        edges := [{ src := 0, dest := 0, type := EdgeType.CFG },
                  { src := 0, dest := 1, type := EdgeType.CFG },
                  { src := 1, dest := 2, type := EdgeType.CFG }] },
    graph := { nodes := [some 0, some 1, some 2], trap := none, start := none,
               module := none } }

/-- A path of exactly `n` steps of the relation `R` leads from a seed to
`x`. -/
def ReachedIn (R : NodeRef → NodeRef → Prop) (seeds : NodeSet) : Nat → NodeRef → Prop
  | 0, x => x ∈ seeds
  | n + 1, x => ∃ p, ReachedIn R seeds n p ∧ R p x

/-- The distance of `x` from the seed set is `d`: the least number of
followed edges, one or more, of a path from a seed to `x`. -/
def Mem.Distance (m : Mem) (edgeCondition : EdgeCondition) (reverse : Bool) (seeds : NodeSet)
    (x : NodeRef) (d : Nat) : Prop :=
  1 ≤ d ∧ ReachedIn (m.Follows edgeCondition reverse) seeds d x ∧
    ∀ n, 1 ≤ n → ReachedIn (m.Follows edgeCondition reverse) seeds n x → d ≤ n

/-- The invariant of the traversal at the head of an iteration: `q` is the
queue with the level of each entry, `v` the visited set, `hist` the nodes
visited so far with the level at which each was visited. -/
structure Query.LevelInv (m : Mem) (edgeCondition : EdgeCondition) (reverse : Bool)
    (seeds : NodeSet) (q : List (NodeRef × Nat)) (v : NodeSet)
    (hist : List (NodeRef × Nat)) : Prop where
  /-- The levels of the queue do not decrease. -/
  sorted : q.Pairwise (fun a b => a.2 ≤ b.2)
  /-- Two levels of the queue differ by one at most. -/
  near : ∀ a ∈ q, ∀ b ∈ q, b.2 ≤ a.2 + 1
  /-- Every entry of the queue was reached by a path of as many steps as its level. -/
  reached : ∀ a ∈ q, 1 ≤ a.2 ∧ ReachedIn (m.Step edgeCondition reverse) seeds a.2 a.1
  /-- Every neighbour of a seed is visited or waits at level one. -/
  fromSeeds : ∀ s ∈ seeds, ∀ w, m.Step edgeCondition reverse s w → w ∈ v ∨ (w, 1) ∈ q
  /-- Every neighbour of a visited node is visited or waits one level further. -/
  fromSeen : ∀ a ∈ hist, ∀ w, m.Step edgeCondition reverse a.1 w → w ∈ v ∨ (w, a.2 + 1) ∈ q
  /-- No shorter path leads to a visited node than the level of its visit. -/
  least : ∀ a ∈ hist, ∀ n, 1 ≤ n → ReachedIn (m.Step edgeCondition reverse) seeds n a.1 → a.2 ≤ n
  /-- The visited set is recorded in the history. -/
  seen : ∀ y ∈ v, ∃ l, (y, l) ∈ hist

/-! ## The edge classes of graph.h -/

/-- The sub-kinds of a PDG edge, `enum class PDGType`. -/
inductive PDGType where
  | Local
  | Global
  | Function
  | Control
  | Const
deriving DecidableEq, Repr

/-- The concrete edge classes of `graph.h`, each with the fields it declares
and inherits (apart from `_src`, `_dest` and `_type` of `Edge`): `CFGEdge`
has `_label`, `PDGEdge` has `_label` and `_pdgType`, `PDGEdgeConst` extends
`PDGEdge` with `_const`. -/
inductive EdgeClass where
  | ASTEdge
  | CFGEdge (label : String)
  | PDGEdge (label : String) (pdgType : PDGType)
  | PDGEdgeConst (label : String) (pdgType : PDGType) (const : Const)
deriving DecidableEq, Repr

namespace EdgeClass

/-- The tag `_type` that the constructor chain passes to
`Edge(src, dest, type)`. -/
def type : EdgeClass → EdgeType
  | ASTEdge => EdgeType.AST
  | CFGEdge _ => EdgeType.CFG
  | PDGEdge _ _ => EdgeType.PDG
  | PDGEdgeConst _ _ _ => EdgeType.PDG

/-- The virtual method `pdgType()`: overridden by `PDGEdge`, the
implementation of `Edge` is `assert(false)`. -/
def pdgType : EdgeClass → Option PDGType
  | PDGEdge _ t => some t
  | PDGEdgeConst _ t _ => some t
  | _ => none

/-- The virtual method `label()`: defined by `CFGEdge` and by `PDGEdge`, the
implementation of `Edge` is `assert(false)`. -/
def label : EdgeClass → Option String
  | CFGEdge l => some l
  | PDGEdge l _ => some l
  | PDGEdgeConst l _ _ => some l
  | _ => none

/-- The virtual method `value()`: overridden by `PDGEdgeConst`, the
implementation of `Edge` is `assert(false)`. -/
def value : EdgeClass → Option Const
  | PDGEdgeConst _ _ c => some c
  | _ => none

end EdgeClass

/-- Modelled from the spec: the member `u32` of the constant (`Const` is
declared outside the sources), the low 32 bits of its bit pattern. -/
def Const.u32 (c : Const) : Nat := c.bits % 2 ^ 32

/-- Modelled from the spec: the member `u64` of the constant, the low 64 bits
of its bit pattern. -/
def Const.u64 (c : Const) : Nat := c.bits % 2 ^ 64

/-- Modelled from the spec: the member `f32_bits` of the constant. -/
def Const.f32_bits (c : Const) : Nat := c.bits % 2 ^ 32

/-- Modelled from the spec: the member `f64_bits` of the constant. -/
def Const.f64_bits (c : Const) : Nat := c.bits % 2 ^ 64

/-- Modelled from the spec: the opcode name `Opcode::I32Const_Opcode.GetName()`
(the opcode table is outside the sources). -/
def Opcode.I32Const_Name : String := "i32.const"

/-- Modelled from the spec: the opcode name `Opcode::I64Const_Opcode.GetName()`. -/
def Opcode.I64Const_Name : String := "i64.const"

/-- Modelled from the spec: the opcode name `Opcode::F32Const_Opcode.GetName()`. -/
def Opcode.F32Const_Name : String := "f32.const"

/-- Modelled from the spec: the opcode name `Opcode::F64Const_Opcode.GetName()`. -/
def Opcode.F64Const_Name : String := "f64.const"

/-- The conversion `static_cast<int32_t>` of a 32-bit unsigned value: the
value itself below `2 ^ 31`, else the value less `2 ^ 32`. -/
def toInt32 (u : Nat) : Int :=
  if u % 2 ^ 32 < 2 ^ 31 then ((u % 2 ^ 32 : Nat) : Int) else ((u % 2 ^ 32 : Nat) : Int) - 2 ^ 32

/-- The conversion `static_cast<int64_t>` of a 64-bit unsigned value. -/
def toInt64 (u : Nat) : Int :=
  if u % 2 ^ 64 < 2 ^ 63 then ((u % 2 ^ 64 : Nat) : Int) else ((u % 2 ^ 64 : Nat) : Int) - 2 ^ 64

/-- The texts that `std::to_string` gives for a `float` and for a `double`,
each as a function of the bit pattern; the floating-point formatting is left
open. -/
structure FloatText where
  f32 : Nat → String
  f64 : Nat → String

/-- The static method `ConstInst::writeConst`: the opcode name, a blank and
the value in decimal, by the type of the constant; `none` is the
`assert(false)` of the `V128` case.  `std::to_string` of a signed integer is
its decimal text, with a leading minus sign when negative. -/
def ConstInst.writeConst (fmt : FloatText) (_const : Const) : Option String :=
  match _const.type with
  | ValType.I32 => some (Opcode.I32Const_Name ++ (" " ++ toString (toInt32 _const.u32)))
  | ValType.I64 => some (Opcode.I64Const_Name ++ (" " ++ toString (toInt64 _const.u64)))
  | ValType.F32 => some (Opcode.F32Const_Name ++ (" " ++ fmt.f32 _const.f32_bits))
  | ValType.F64 => some (Opcode.F64Const_Name ++ (" " ++ fmt.f64 _const.f64_bits))
  | ValType.V128 => none

/-- The constructor `PDGEdgeConst(Node* src, Node* dest, const Const& const_)`:
the label `ConstInst::writeConst(const_)` is computed first, as an argument
of the base constructor `PDGEdge(src, dest, label, PDGType::Const)`, which
runs the constructor of `Edge` with the tag `EdgeType::PDG` and stores the
label and the sub-kind; then the constant is stored.  The result is the
memory with the edge registered, the handle of the edge and the fields of
the object. -/
def Mem.newPDGEdgeConst (fmt : FloatText) (m : Mem) (src dest : Option NodeRef)
    (const_ : Const) : Option (Mem × EdgeRef × EdgeClass) :=
  match ConstInst.writeConst fmt const_ with
  | none => none
  | some label =>
    match m.newEdge src dest EdgeType.PDG with
    | some (m1, e) => some (m1, e, EdgeClass.PDGEdgeConst label PDGType.Const const_)
    | none => none

/-- A formatting of the floating-point values, for the examples: the bit
pattern in decimal. -/
def bitsText : FloatText := { f32 := fun b => toString b, f64 := fun b => toString b }

/-- The 32-bit constant with every bit set. -/
def allOnes32 : Const := { type := ValType.I32, bits := 4294967295 }

/-- The 64-bit constant with every bit set. -/
def allOnes64 : Const := { type := ValType.I64, bits := 18446744073709551615 }

end Wasmati

namespace Wasmati

/-! ## Sets of handles: basic facts -/

theorem mem_setInsert (a x : Nat) (s : List Nat) : x ∈ setInsert a s ↔ x = a ∨ x ∈ s := by
  induction s with
  | nil => simp [setInsert]
  | cons b t ih =>
    unfold setInsert
    split_ifs with h1 h2
    · simp
    · subst h2; simp
    · simp only [List.mem_cons, ih]; tauto

theorem length_setInsert_le (a : Nat) (s : List Nat) :
    (setInsert a s).length ≤ s.length + 1 := by
  induction s with
  | nil => simp [setInsert]
  | cons b t ih =>
    unfold setInsert
    split_ifs with h1 h2
    · simp
    · simp
    · simp only [List.length_cons]; omega

theorem length_setInsert_of_not_mem (a : Nat) (s : List Nat) (h : a ∉ s) :
    (setInsert a s).length = s.length + 1 := by
  induction s with
  | nil => simp [setInsert]
  | cons b t ih =>
    simp only [List.mem_cons, not_or] at h
    unfold setInsert
    split_ifs with h1 h2
    · simp
    · exact absurd h2 h.1
    · simp only [List.length_cons, ih h.2]

theorem sorted_setInsert (a : Nat) (s : List Nat) (h : s.Sorted (· < ·)) :
    (setInsert a s).Sorted (· < ·) := by
  induction s with
  | nil => simp [setInsert]
  | cons b t ih =>
    have ht : t.Sorted (· < ·) := h.of_cons
    have hb : ∀ y ∈ t, b < y := fun y hy => List.rel_of_sorted_cons h y hy
    unfold setInsert
    split_ifs with h1 h2
    · refine List.sorted_cons.mpr ⟨?_, h⟩
      intro y hy
      rcases List.mem_cons.mp hy with rfl | hy
      · exact h1
      · exact lt_trans h1 (hb y hy)
    · exact h
    · refine List.sorted_cons.mpr ⟨?_, ih ht⟩
      intro y hy
      rcases (mem_setInsert a y t).mp hy with rfl | hy
      · omega
      · exact hb y hy

theorem setInsert_of_mem_sorted (a : Nat) (s : List Nat) (h : s.Sorted (· < ·)) (ha : a ∈ s) :
    setInsert a s = s := by
  induction s with
  | nil => simp at ha
  | cons b t ih =>
    have ht : t.Sorted (· < ·) := h.of_cons
    have hb : ∀ y ∈ t, b < y := fun y hy => List.rel_of_sorted_cons h y hy
    unfold setInsert
    rcases List.mem_cons.mp ha with rfl | hat
    · simp
    · have := hb a hat
      have h1 : ¬ a < b := by omega
      have h2 : ¬ a = b := by omega
      simp [h1, h2, ih ht hat]

/-- Two sets with the same elements are the same list. -/
theorem sorted_ext (s t : List Nat) (hs : s.Sorted (· < ·)) (ht : t.Sorted (· < ·))
    (h : ∀ x, x ∈ s ↔ x ∈ t) : s = t :=
  List.eq_of_perm_of_sorted ((List.perm_ext_iff_of_nodup hs.nodup ht.nodup).mpr h) hs ht

/-- Membership after a loop that inserts the image of the selected elements. -/
theorem mem_foldl_insert (p : Nat → Bool) (f : Nat → Nat) (l : List Nat) (init : List Nat)
    (x : Nat) :
    x ∈ l.foldl (fun r a => if p a then setInsert (f a) r else r) init ↔
      x ∈ init ∨ ∃ a ∈ l, p a = true ∧ f a = x := by
  induction l generalizing init with
  | nil => simp
  | cons b t ih =>
    simp only [List.foldl_cons, ih, List.mem_cons, exists_eq_or_imp]
    by_cases hb : p b = true
    · simp only [hb, if_true, mem_setInsert, true_and]
      constructor
      · rintro ((h | h) | h)
        · exact Or.inr (Or.inl h.symm)
        · exact Or.inl h
        · exact Or.inr (Or.inr h)
      · rintro (h | h | h)
        · exact Or.inl (Or.inr h)
        · exact Or.inl (Or.inl h.symm)
        · exact Or.inr h
    · simp [hb]

theorem sorted_foldl_insert (p : Nat → Bool) (f : Nat → Nat) (l : List Nat) (init : List Nat)
    (h : init.Sorted (· < ·)) :
    (l.foldl (fun r a => if p a then setInsert (f a) r else r) init).Sorted (· < ·) := by
  induction l generalizing init with
  | nil => simpa using h
  | cons b t ih =>
    simp only [List.foldl_cons]
    apply ih
    split_ifs
    · exact sorted_setInsert _ _ h
    · exact h

theorem length_foldl_insert_le (p : Nat → Bool) (f : Nat → Nat) (l : List Nat) (init : List Nat) :
    (l.foldl (fun r a => if p a then setInsert (f a) r else r) init).length
      ≤ init.length + l.length := by
  induction l generalizing init with
  | nil => simp
  | cons b t ih =>
    simp only [List.foldl_cons, List.length_cons]
    refine le_trans (ih _) ?_
    split_ifs
    · have := length_setInsert_le (f b) init
      omega
    · omega

theorem setUnion_eq (s l : List Nat) :
    setUnion s l = l.foldl (fun r a => if (fun _ => true) a then setInsert (id a) r else r) s := by
  simp [setUnion]

theorem mem_setUnion (s l : List Nat) (x : Nat) : x ∈ setUnion s l ↔ x ∈ s ∨ x ∈ l := by
  rw [setUnion_eq, mem_foldl_insert]
  simp

theorem sorted_setUnion (s l : List Nat) (h : s.Sorted (· < ·)) :
    (setUnion s l).Sorted (· < ·) := by
  rw [setUnion_eq]
  exact sorted_foldl_insert _ _ _ _ h

theorem length_setUnion_le (s l : List Nat) : (setUnion s l).length ≤ s.length + l.length := by
  rw [setUnion_eq]
  exact length_foldl_insert_le _ _ _ _

theorem mem_toSet (l : List Nat) (x : Nat) : x ∈ toSet l ↔ x ∈ l := by
  simp [toSet, mem_setUnion]

theorem sorted_toSet (l : List Nat) : (toSet l).Sorted (· < ·) :=
  sorted_setUnion [] l List.sorted_nil

theorem length_toSet_le (l : List Nat) : (toSet l).length ≤ l.length := by
  have := length_setUnion_le [] l
  simpa [toSet] using this

theorem mem_foldl_insert_all (f : Nat → Nat) (l : List Nat) (init : List Nat) (x : Nat) :
    x ∈ l.foldl (fun r a => setInsert (f a) r) init ↔ x ∈ init ∨ ∃ a ∈ l, f a = x := by
  have := mem_foldl_insert (fun _ => true) f l init x
  simpa using this

theorem sorted_foldl_insert_all (f : Nat → Nat) (l : List Nat) (init : List Nat)
    (h : init.Sorted (· < ·)) : (l.foldl (fun r a => setInsert (f a) r) init).Sorted (· < ·) := by
  have := sorted_foldl_insert (fun _ => true) f l init h
  simpa using this

namespace Query

theorem mem_filterEdges (edges : EdgeSet) (ec : EdgeCondition) (e : EdgeRef) :
    e ∈ filterEdges edges ec ↔ e ∈ edges ∧ ec e = true := by
  have := mem_foldl_insert ec id edges [] e
  simp only [id, List.not_mem_nil, false_or] at this
  rw [filterEdges, this]
  constructor
  · rintro ⟨a, ha, hp, rfl⟩; exact ⟨ha, hp⟩
  · rintro ⟨ha, hp⟩; exact ⟨e, ha, hp, rfl⟩

theorem length_filterEdges_le (edges : EdgeSet) (ec : EdgeCondition) :
    (filterEdges edges ec).length ≤ edges.length := by
  have := length_foldl_insert_le ec id edges []
  simpa [filterEdges] using this

theorem mem_filter (nodes : NodeSet) (pred : NodeCondition) (x : NodeRef) :
    x ∈ filter nodes pred ↔ x ∈ nodes ∧ pred x = true := by
  have := mem_foldl_insert pred id nodes [] x
  simp only [id, List.not_mem_nil, false_or] at this
  rw [filter, this]
  constructor
  · rintro ⟨a, ha, hp, rfl⟩; exact ⟨ha, hp⟩
  · rintro ⟨ha, hp⟩; exact ⟨x, ha, hp, rfl⟩

theorem sorted_filter (nodes : NodeSet) (pred : NodeCondition) :
    (filter nodes pred).Sorted (· < ·) :=
  sorted_foldl_insert pred id nodes [] List.sorted_nil

theorem mapNodes_single (node : NodeRef) (f : NodeRef → List NodeRef) :
    mapNodes [node] f = f node := by
  simp [mapNodes]

theorem mem_mapNodes_aux (f : NodeRef → List NodeRef) (nodes : NodeSet) (init : List NodeRef)
    (x : NodeRef) :
    x ∈ nodes.foldl (fun result node => result ++ f node) init ↔
      x ∈ init ∨ ∃ n ∈ nodes, x ∈ f n := by
  induction nodes generalizing init with
  | nil => simp
  | cons b t ih =>
    simp only [List.foldl_cons, ih, List.mem_append, List.mem_cons, exists_eq_or_imp]
    tauto

theorem mem_mapNodes (f : NodeRef → List NodeRef) (nodes : NodeSet) (x : NodeRef) :
    x ∈ mapNodes nodes f ↔ ∃ n ∈ nodes, x ∈ f n := by
  simp [mapNodes, mem_mapNodes_aux]

theorem mem_mapFunction (m : Mem) (ec : EdgeCondition) (reverse : Bool) (u v : NodeRef) :
    v ∈ mapFunction m ec reverse u ↔ m.Step ec reverse u v := by
  simp only [mapFunction, mapEdges, List.mem_map, mem_filterEdges, mem_toSet, Mem.Step]
  constructor
  · rintro ⟨e, ⟨he, hc⟩, rfl⟩; exact ⟨e, he, hc, rfl⟩
  · rintro ⟨e, he, hc, rfl⟩; exact ⟨e, ⟨he, hc⟩, rfl⟩

theorem mapFunction_of_ge (m : Mem) (ec : EdgeCondition) (reverse : Bool) (u : NodeRef)
    (h : m.nodes.length ≤ u) : mapFunction m ec reverse u = [] := by
  have h1 : m.nodes[u]? = none := List.getElem?_eq_none h
  simp [mapFunction, Mem.inEdges, Mem.outEdges, h1, toSet, setUnion, filterEdges, mapEdges]

/-! ## The loop of BFS -/

/-- Invariant rule for the loop: `I` holds at the head of every iteration,
`Q` holds of the set returned, at the normal exit and at the early one. -/
theorem bfsLoop_inv (m : Mem) (pred : NodeCondition) (ec : EdgeCondition) (limit : Nat)
    (reverse : Bool) (I : List NodeRef → NodeSet → NodeSet → Prop) (Q : NodeSet → Prop)
    (hnil : ∀ v r, I [] v r → Q r)
    (hskip : ∀ node q v r, I (node :: q) v r → node ∈ v → I q v r)
    (hexp : ∀ node q v r, I (node :: q) v r → node ∉ v →
      ((if pred node then setInsert node r else r).length = limit →
        Q (if pred node then setInsert node r else r)) ∧
      ((if pred node then setInsert node r else r).length ≠ limit →
        I (q ++ mapFunction m ec reverse node) (setInsert node v)
          (if pred node then setInsert node r else r))) :
    ∀ fuel q v r out, I q v r → bfsLoop m pred ec limit reverse fuel q v r = some out →
      Q out := by
  intro fuel
  induction fuel with
  | zero => intro q v r out _ h; simp [bfsLoop] at h
  | succ fuel ih =>
    intro q v r out hI h
    cases q with
    | nil =>
      simp only [bfsLoop, Option.some.injEq] at h
      subst h
      exact hnil v _ hI
    | cons node q =>
      simp only [bfsLoop, setCount, mapNodes_single] at h
      by_cases hv : node ∈ v
      · simp only [hv, if_true, beq_self_eq_true] at h
        exact ih q v r out (hskip node q v r hI hv) h
      · simp only [hv, if_false] at h
        have hI1 := hexp node q v r hI hv
        by_cases hl : (if pred node = true then setInsert node r else r).length = limit
        · simp only [hl, beq_self_eq_true, if_true] at h
          simp only [Nat.reduceEqDiff, Nat.zero_ne_one, beq_iff_eq, if_false, Option.some.injEq] at h
          subst h
          exact hI1.1 hl
        · have hl1 : ((if pred node = true then setInsert node r else r).length == limit) = false := by
            simpa using hl
          simp only [hl1] at h
          simp only [Nat.reduceEqDiff, Nat.zero_ne_one, beq_iff_eq, if_false] at h
          exact ih _ _ _ out (hI1.2 hl) h

theorem pending_mono (f : Nat → Nat) (a : Nat) (v : List Nat) (l : List Nat) :
    ((l.filter (fun n => decide (n ∉ setInsert a v))).map f).sum
      ≤ ((l.filter (fun n => decide (n ∉ v))).map f).sum := by
  induction l with
  | nil => simp
  | cons b t ih =>
    by_cases hb : b ∈ v
    · have hb1 : b ∈ setInsert a v := (mem_setInsert a b v).mpr (Or.inr hb)
      simpa [List.filter_cons, hb, hb1] using ih
    · by_cases hb1 : b ∈ setInsert a v
      · simp only [List.filter_cons, hb, hb1, not_true_eq_false, decide_False, not_false_eq_true,
          decide_True, if_true, List.map_cons, List.sum_cons]
        simp only [Bool.false_eq_true, if_false]
        omega
      · simp only [List.filter_cons, hb, hb1, not_false_eq_true, decide_True, if_true,
          List.map_cons, List.sum_cons]
        omega

theorem pending_insert (f : Nat → Nat) (a : Nat) (v : List Nat) (l : List Nat) (ha : a ∉ v)
    (hl : a ∈ l ∨ f a = 0) :
    ((l.filter (fun n => decide (n ∉ setInsert a v))).map f).sum + f a
      ≤ ((l.filter (fun n => decide (n ∉ v))).map f).sum := by
  induction l with
  | nil =>
    rcases hl with h | h
    · simp at h
    · simp [h]
  | cons b t ih =>
    by_cases hba : b = a
    · subst hba
      have hb1 : b ∈ setInsert b v := (mem_setInsert b b v).mpr (Or.inl rfl)
      have := pending_mono f b v t
      simp only [List.filter_cons, ha, hb1, not_true_eq_false, decide_False, not_false_eq_true,
        decide_True, if_true, List.map_cons, List.sum_cons]
      simp only [Bool.false_eq_true, if_false]
      omega
    · have hl1 : a ∈ t ∨ f a = 0 := by
        rcases hl with h | h
        · rcases List.mem_cons.mp h with h | h
          · exact absurd h.symm hba
          · exact Or.inl h
        · exact Or.inr h
      have := ih hl1
      by_cases hb : b ∈ v
      · have hb1 : b ∈ setInsert a v := (mem_setInsert a b v).mpr (Or.inr hb)
        simpa [List.filter_cons, hb, hb1] using this
      · have hb1 : b ∉ setInsert a v := by
          rw [mem_setInsert]; push_neg; exact ⟨hba, hb⟩
        simp only [List.filter_cons, hb, hb1, not_false_eq_true, decide_True, if_true,
          List.map_cons, List.sum_cons]
        omega

theorem pending_step (m : Mem) (ec : EdgeCondition) (reverse : Bool) (node : NodeRef)
    (v : NodeSet) (hv : node ∉ v) :
    pending m ec reverse (setInsert node v) + (mapFunction m ec reverse node).length
      ≤ pending m ec reverse v := by
  unfold pending
  apply pending_insert (fun n => (mapFunction m ec reverse n).length) node v _ hv
  by_cases h : node < m.nodes.length
  · exact Or.inl (List.mem_range.mpr h)
  · right
    simp [mapFunction_of_ge m ec reverse node (Nat.le_of_not_lt h)]

/-- The loop ends within the fuel that the queue and the unvisited nodes
account for. -/
theorem bfsLoop_total (m : Mem) (pred : NodeCondition) (ec : EdgeCondition) (limit : Nat)
    (reverse : Bool) :
    ∀ fuel q v r, q.length + pending m ec reverse v < fuel →
      ∃ out, bfsLoop m pred ec limit reverse fuel q v r = some out := by
  intro fuel
  induction fuel with
  | zero => intro q v r h; omega
  | succ fuel ih =>
    intro q v r h
    cases q with
    | nil => exact ⟨r, by simp [bfsLoop]⟩
    | cons node q =>
      simp only [bfsLoop, setCount, mapNodes_single]
      by_cases hv : node ∈ v
      · simp only [hv, if_true, beq_self_eq_true]
        apply ih
        simp only [List.length_cons] at h
        omega
      · simp only [hv, if_false]
        by_cases hl : (if pred node = true then setInsert node r else r).length = limit
        · exact ⟨(if pred node = true then setInsert node r else r), by simp [hl]⟩
        · have hl1 : ((if pred node = true then setInsert node r else r).length == limit) = false := by
            simpa using hl
          simp only [hl1]
          simp only [Nat.reduceEqDiff, Nat.zero_ne_one, beq_iff_eq, if_false]
          apply ih
          have := pending_step m ec reverse node v hv
          simp only [List.length_cons, List.length_append] at h ⊢
          omega

/-! ## BFS as a whole -/

theorem BFS_total (m : Mem) (nodes : NodeSet) (pred : NodeCondition) (ec : EdgeCondition)
    (limit : Nat) (reverse : Bool) : ∃ r, BFS m nodes pred ec limit reverse = some r := by
  unfold BFS
  split_ifs with h
  · exact ⟨[], rfl⟩
  · exact bfsLoop_total m pred ec limit reverse _ _ _ _ (by omega)

theorem BFS_cases (m : Mem) (nodes : NodeSet) (pred : NodeCondition) (ec : EdgeCondition)
    (limit : Nat) (reverse : Bool) (r : NodeSet) (h : BFS m nodes pred ec limit reverse = some r) :
    ((nodes = [] ∨ limit = 0) ∧ r = []) ∨ (limit ≠ 0 ∧ ∃ fuel,
      bfsLoop m pred ec limit reverse fuel (mapNodes nodes (mapFunction m ec reverse)) [] []
        = some r) := by
  unfold BFS at h
  split_ifs at h with h1
  · left
    simp only [Bool.or_eq_true, beq_iff_eq, List.length_eq_zero] at h1
    exact ⟨h1, by simpa using h.symm⟩
  · right
    simp only [Bool.or_eq_true, beq_iff_eq, not_or] at h1
    exact ⟨h1.2, _, h⟩

theorem BFS_length_le (m : Mem) (nodes : NodeSet) (pred : NodeCondition) (ec : EdgeCondition)
    (limit : Nat) (reverse : Bool) (r : NodeSet) (h : BFS m nodes pred ec limit reverse = some r) :
    r.length ≤ limit := by
  rcases BFS_cases m nodes pred ec limit reverse r h with ⟨_, rfl⟩ | ⟨hl, fuel, hr⟩
  · simp
  · refine bfsLoop_inv m pred ec limit reverse (fun _ _ r => r.length < limit)
      (fun r => r.length ≤ limit) ?_ ?_ ?_ fuel _ [] [] r ?_ hr
    · intro v r h; exact Nat.le_of_lt h
    · intro node q v r h _; exact h
    · intro node q v r h _
      have hle : (if pred node = true then setInsert node r else r).length ≤ r.length + 1 := by
        split_ifs
        · exact length_setInsert_le node r
        · omega
      constructor
      · intro h1; omega
      · intro h1; omega
    · simp only [List.length_nil]; omega

theorem BFS_sound (m : Mem) (nodes : NodeSet) (pred : NodeCondition) (ec : EdgeCondition)
    (limit : Nat) (reverse : Bool) (r : NodeSet) (h : BFS m nodes pred ec limit reverse = some r) :
    ∀ x ∈ r, pred x = true ∧ ∃ s ∈ nodes, Relation.TransGen (m.Step ec reverse) s x := by
  rcases BFS_cases m nodes pred ec limit reverse r h with ⟨_, rfl⟩ | ⟨_, fuel, hr⟩
  · simp
  · refine bfsLoop_inv m pred ec limit reverse
      (fun q _ r =>
        (∀ x ∈ r, pred x = true ∧ ∃ s ∈ nodes, Relation.TransGen (m.Step ec reverse) s x) ∧
        (∀ x ∈ q, ∃ s ∈ nodes, Relation.TransGen (m.Step ec reverse) s x))
      (fun r => ∀ x ∈ r, pred x = true ∧ ∃ s ∈ nodes, Relation.TransGen (m.Step ec reverse) s x)
      ?_ ?_ ?_ fuel _ [] [] r ?_ hr
    · intro v r h; exact h.1
    · intro node q v r h _
      exact ⟨h.1, fun x hx => h.2 x (List.mem_cons_of_mem _ hx)⟩
    · intro node q v r h _
      have hnode := h.2 node (List.mem_cons_self _ _)
      have hres : ∀ x ∈ (if pred node = true then setInsert node r else r),
          pred x = true ∧ ∃ s ∈ nodes, Relation.TransGen (m.Step ec reverse) s x := by
        intro x hx
        split_ifs at hx with hp
        · rcases (mem_setInsert node x r).mp hx with rfl | hx
          · exact ⟨hp, hnode⟩
          · exact h.1 x hx
        · exact h.1 x hx
      refine ⟨fun _ => hres, fun _ => ⟨hres, ?_⟩⟩
      intro x hx
      rcases List.mem_append.mp hx with hx | hx
      · exact h.2 x (List.mem_cons_of_mem _ hx)
      · obtain ⟨s, hs, hp⟩ := hnode
        exact ⟨s, hs, Relation.TransGen.tail hp ((mem_mapFunction m ec reverse node x).mp hx)⟩
    · refine ⟨by simp, ?_⟩
      intro x hx
      obtain ⟨n, hn, hx⟩ := (mem_mapNodes _ _ _).mp hx
      exact ⟨n, hn, Relation.TransGen.single ((mem_mapFunction m ec reverse n x).mp hx)⟩

theorem length_le_of_sorted_lt (l : List Nat) (N : Nat) (hs : l.Sorted (· < ·))
    (hb : ∀ x ∈ l, x < N) : l.length ≤ N := by
  have h1 : l ⊆ List.range N := fun x hx => List.mem_range.mpr (hb x hx)
  have := (List.subperm_of_subset hs.nodup h1).length_le
  simpa using this

theorem BFS_complete (m : Mem) (nodes : NodeSet) (pred : NodeCondition) (ec : EdgeCondition)
    (limit : Nat) (reverse : Bool) (r : NodeSet)
    (hclosed : ∀ u v, m.Step ec reverse u v → v < m.nodes.length)
    (hlim : m.nodes.length < limit)
    (h : BFS m nodes pred ec limit reverse = some r) :
    ∀ x, pred x = true → (∃ s ∈ nodes, Relation.TransGen (m.Step ec reverse) s x) → x ∈ r := by
  rcases BFS_cases m nodes pred ec limit reverse r h with ⟨h1, _⟩ | ⟨_, fuel, hr⟩
  · rcases h1 with h1 | h1
    · subst h1; simp
    · omega
  · refine bfsLoop_inv m pred ec limit reverse
      (fun q v r =>
        (∀ x, x ∈ r ↔ x ∈ v ∧ pred x = true) ∧
        (∀ x ∈ v, x < m.nodes.length) ∧
        (∀ x ∈ q, x < m.nodes.length) ∧
        (∀ s ∈ nodes, ∀ y, m.Step ec reverse s y → y ∈ v ∨ y ∈ q) ∧
        (∀ x ∈ v, ∀ y, m.Step ec reverse x y → y ∈ v ∨ y ∈ q) ∧
        r.Sorted (· < ·))
      (fun r => ∀ x, pred x = true →
        (∃ s ∈ nodes, Relation.TransGen (m.Step ec reverse) s x) → x ∈ r)
      ?_ ?_ ?_ fuel _ [] [] r ?_ hr
    · rintro v r ⟨h1, _, _, h4, h5, _⟩ x hp ⟨s, hs, hpath⟩
      have key : ∀ y, Relation.TransGen (m.Step ec reverse) s y → y ∈ v := by
        intro y hy
        induction hy with
        | single hst => simpa using h4 s hs _ hst
        | tail _ hst ih => simpa using h5 _ ih _ hst
      exact (h1 x).mpr ⟨key x hpath, hp⟩
    · rintro node q v r ⟨h1, h2, h3, h4, h5, h6⟩ hv
      refine ⟨h1, h2, fun x hx => h3 x (List.mem_cons_of_mem _ hx), ?_, ?_, h6⟩
      · intro s hs y hst
        rcases h4 s hs y hst with h | h
        · exact Or.inl h
        · rcases List.mem_cons.mp h with rfl | h
          · exact Or.inl hv
          · exact Or.inr h
      · intro x hx y hst
        rcases h5 x hx y hst with h | h
        · exact Or.inl h
        · rcases List.mem_cons.mp h with rfl | h
          · exact Or.inl hv
          · exact Or.inr h
    · rintro node q v r ⟨h1, h2, h3, h4, h5, h6⟩ hv
      have hnode : node < m.nodes.length := h3 node (List.mem_cons_self _ _)
      have hr1 : ∀ x, x ∈ (if pred node = true then setInsert node r else r) ↔
          x ∈ setInsert node v ∧ pred x = true := by
        intro x
        by_cases hp : pred node = true
        · rw [if_pos hp]
          simp only [mem_setInsert, h1]
          constructor
          · rintro (rfl | ⟨hx, hpx⟩)
            · exact ⟨Or.inl rfl, hp⟩
            · exact ⟨Or.inr hx, hpx⟩
          · rintro ⟨rfl | hx, hpx⟩
            · exact Or.inl rfl
            · exact Or.inr ⟨hx, hpx⟩
        · rw [if_neg hp]
          simp only [mem_setInsert, h1]
          constructor
          · rintro ⟨hx, hpx⟩; exact ⟨Or.inr hx, hpx⟩
          · rintro ⟨rfl | hx, hpx⟩
            · exact absurd hpx hp
            · exact ⟨hx, hpx⟩
      have hv1 : ∀ x ∈ setInsert node v, x < m.nodes.length := by
        intro x hx
        rcases (mem_setInsert node x v).mp hx with rfl | hx
        · exact hnode
        · exact h2 x hx
      have hs1 : (if pred node = true then setInsert node r else r).Sorted (· < ·) := by
        split_ifs
        · exact sorted_setInsert node r h6
        · exact h6
      constructor
      · intro hlen
        have := length_le_of_sorted_lt _ m.nodes.length hs1
          (fun x hx => hv1 x ((hr1 x).mp hx).1)
        omega
      · intro _
        refine ⟨hr1, hv1, ?_, ?_, ?_, hs1⟩
        · intro x hx
          rcases List.mem_append.mp hx with hx | hx
          · exact h3 x (List.mem_cons_of_mem _ hx)
          · exact hclosed node x ((mem_mapFunction m ec reverse node x).mp hx)
        · intro s hs y hst
          rcases h4 s hs y hst with h | h
          · exact Or.inl ((mem_setInsert node y v).mpr (Or.inr h))
          · rcases List.mem_cons.mp h with rfl | h
            · exact Or.inl ((mem_setInsert y y v).mpr (Or.inl rfl))
            · exact Or.inr (List.mem_append_left _ h)
        · intro x hx y hst
          rcases (mem_setInsert node x v).mp hx with rfl | hx
          · exact Or.inr (List.mem_append_right _ ((mem_mapFunction m ec reverse x y).mpr hst))
          · rcases h5 x hx y hst with h | h
            · exact Or.inl ((mem_setInsert node y v).mpr (Or.inr h))
            · rcases List.mem_cons.mp h with rfl | h
              · exact Or.inl ((mem_setInsert y y v).mpr (Or.inl rfl))
              · exact Or.inr (List.mem_append_left _ h)
    · refine ⟨by simp, by simp, ?_, ?_, by simp, List.sorted_nil⟩
      · intro x hx
        obtain ⟨n, _, hx⟩ := (mem_mapNodes _ _ _).mp hx
        exact hclosed n x ((mem_mapFunction m ec reverse n x).mp hx)
      · intro s hs y hst
        exact Or.inr ((mem_mapNodes _ _ _).mpr ⟨s, hs, (mem_mapFunction m ec reverse s y).mpr hst⟩)

end Query

/-! ## The object memory: effect of the constructors -/

theorem Mem.outEdges_addOutEdge (m : Mem) (s e n : Nat) :
    (m.addOutEdge s e).outEdges n
      = if n = s ∧ s < m.nodes.length then m.outEdges n ++ [e] else m.outEdges n := by
  simp only [Mem.addOutEdge, Mem.outEdges, List.getElem?_modify]
  by_cases hn : n = s
  · subst hn
    by_cases hs : n < m.nodes.length
    · simp [hs, List.getElem?_eq_getElem hs]
    · simp [hs, List.getElem?_eq_none (Nat.le_of_not_lt hs)]
  · have : ¬ s = n := fun h => hn h.symm
    cases h : m.nodes[n]? <;> simp [hn, this]

theorem Mem.inEdges_addOutEdge (m : Mem) (s e n : Nat) :
    (m.addOutEdge s e).inEdges n = m.inEdges n := by
  simp only [Mem.addOutEdge, Mem.inEdges, List.getElem?_modify]
  cases h : m.nodes[n]? <;> by_cases hn : s = n <;> simp [hn]

theorem Mem.inEdges_addInEdge (m : Mem) (d e n : Nat) :
    (m.addInEdge d e).inEdges n
      = if n = d ∧ d < m.nodes.length then m.inEdges n ++ [e] else m.inEdges n := by
  simp only [Mem.addInEdge, Mem.inEdges, List.getElem?_modify]
  by_cases hn : n = d
  · subst hn
    by_cases hs : n < m.nodes.length
    · simp [hs, List.getElem?_eq_getElem hs]
    · simp [hs, List.getElem?_eq_none (Nat.le_of_not_lt hs)]
  · have : ¬ d = n := fun h => hn h.symm
    cases h : m.nodes[n]? <;> simp [hn, this]

theorem Mem.outEdges_addInEdge (m : Mem) (d e n : Nat) :
    (m.addInEdge d e).outEdges n = m.outEdges n := by
  simp only [Mem.addInEdge, Mem.outEdges, List.getElem?_modify]
  cases h : m.nodes[n]? <;> by_cases hn : d = n <;> simp [hn]

theorem Mem.length_addOutEdge (m : Mem) (s e : Nat) :
    (m.addOutEdge s e).nodes.length = m.nodes.length := by
  simp [Mem.addOutEdge]

/-- What the edge constructor does to the memory, field by field. -/
theorem Mem.newEdge_spec (m : Mem) (s d : NodeRef) (t : EdgeType)
    (hs : s < m.nodes.length) (hd : d < m.nodes.length) :
    ∃ m1, m.newEdge (some s) (some d) t = some (m1, m.edges.length) ∧
      m1.edges = m.edges ++ [{ src := s, dest := d, type := t }] ∧
      m1.nodes.length = m.nodes.length ∧
      m1.idCount = m.idCount ∧
      (∀ n, m1.outEdges n = if n = s then m.outEdges n ++ [m.edges.length] else m.outEdges n) ∧
      (∀ n, m1.inEdges n = if n = d then m.inEdges n ++ [m.edges.length] else m.inEdges n) := by
  refine ⟨(Mem.addOutEdge { m with edges := m.edges ++ [{ src := s, dest := d, type := t }] }
      s m.edges.length).addInEdge d m.edges.length, ?_, ?_, ?_, ?_, ?_, ?_⟩
  · simp only [Mem.newEdge, hs, hd, and_self, if_true]
  · simp [Mem.addInEdge, Mem.addOutEdge]
  · simp [Mem.addInEdge, Mem.addOutEdge]
  · simp [Mem.addInEdge, Mem.addOutEdge]
  · intro n
    rw [Mem.outEdges_addInEdge, Mem.outEdges_addOutEdge]
    simp [hs, Mem.outEdges]
  · intro n
    rw [Mem.inEdges_addInEdge, Mem.length_addOutEdge, Mem.inEdges_addOutEdge]
    simp [hd, Mem.inEdges]

theorem Mem.newEdge_some (m : Mem) (src dest : Option NodeRef) (t : EdgeType)
    (r : Mem × EdgeRef) (h : m.newEdge src dest t = some r) :
    ∃ s d, src = some s ∧ dest = some d ∧ s < m.nodes.length ∧ d < m.nodes.length := by
  cases src with
  | none => simp [Mem.newEdge] at h
  | some s =>
    cases dest with
    | none => simp [Mem.newEdge] at h
    | some d =>
      by_cases hv : s < m.nodes.length ∧ d < m.nodes.length
      · exact ⟨s, d, rfl, rfl, hv.1, hv.2⟩
      · simp [Mem.newEdge, hv] at h

theorem Mem.mem_outEdges_lt (m : Mem) (n e : Nat) (h : e ∈ m.outEdges n) : n < m.nodes.length := by
  by_contra hn
  simp [Mem.outEdges, List.getElem?_eq_none (Nat.le_of_not_lt hn)] at h

theorem Mem.mem_inEdges_lt (m : Mem) (n e : Nat) (h : e ∈ m.inEdges n) : n < m.nodes.length := by
  by_contra hn
  simp [Mem.inEdges, List.getElem?_eq_none (Nat.le_of_not_lt hn)] at h

theorem Mem.wf_empty : Mem.empty.wf := by decide

theorem Mem.outEdges_newNode (m : Mem) (t : NodeType) (n : Nat) :
    (m.newNode t).1.outEdges n = m.outEdges n := by
  simp only [Mem.newNode, Mem.outEdges]
  rcases Nat.lt_trichotomy n m.nodes.length with h | h | h
  · rw [List.getElem?_append_left h]
  · subst h; simp
  · rw [List.getElem?_eq_none (by simp; omega), List.getElem?_eq_none (by omega)]

theorem Mem.inEdges_newNode (m : Mem) (t : NodeType) (n : Nat) :
    (m.newNode t).1.inEdges n = m.inEdges n := by
  simp only [Mem.newNode, Mem.inEdges]
  rcases Nat.lt_trichotomy n m.nodes.length with h | h | h
  · rw [List.getElem?_append_left h]
  · subst h; simp
  · rw [List.getElem?_eq_none (by simp; omega), List.getElem?_eq_none (by omega)]

theorem Mem.wf_newNode (m : Mem) (t : NodeType) (h : m.wf) : (m.newNode t).1.wf := by
  obtain ⟨h1, h2, h3⟩ := h
  refine ⟨?_, ?_, ?_⟩
  · intro n _ e he
    rw [Mem.outEdges_newNode] at he
    exact h1 n (Mem.mem_outEdges_lt m n e he) e he
  · intro n _ e he
    rw [Mem.inEdges_newNode] at he
    exact h2 n (Mem.mem_inEdges_lt m n e he) e he
  · intro e he
    rw [Mem.outEdges_newNode, Mem.inEdges_newNode]
    have := h3 e he
    refine ⟨?_, ?_, this.2.2.1, this.2.2.2⟩
    · have h4 := this.1
      simp only [Mem.newNode, List.length_append, List.length_singleton]
      exact Nat.lt_succ_of_lt h4
    · have h4 := this.2.1
      simp only [Mem.newNode, List.length_append, List.length_singleton]
      exact Nat.lt_succ_of_lt h4

theorem Mem.src_of_edges_append (m m1 : Mem) (x : Edge) (h : m1.edges = m.edges ++ [x]) (e : Nat) :
    m1.src e = if e < m.edges.length then m.src e else if e = m.edges.length then x.src else 0 := by
  simp only [Mem.src, h]
  rcases Nat.lt_trichotomy e m.edges.length with he | he | he
  · rw [List.getElem?_append_left he]; simp [he]
  · subst he; simp
  · rw [List.getElem?_eq_none (by simp; omega)]
    have h1 : ¬ e < m.edges.length := by omega
    have h2 : ¬ e = m.edges.length := by omega
    simp [h1, h2]

theorem Mem.dest_of_edges_append (m m1 : Mem) (x : Edge) (h : m1.edges = m.edges ++ [x]) (e : Nat) :
    m1.dest e = if e < m.edges.length then m.dest e else if e = m.edges.length then x.dest else 0 := by
  simp only [Mem.dest, h]
  rcases Nat.lt_trichotomy e m.edges.length with he | he | he
  · rw [List.getElem?_append_left he]; simp [he]
  · subst he; simp
  · rw [List.getElem?_eq_none (by simp; omega)]
    have h1 : ¬ e < m.edges.length := by omega
    have h2 : ¬ e = m.edges.length := by omega
    simp [h1, h2]

theorem Mem.wf_newEdge (m : Mem) (src dest : Option NodeRef) (t : EdgeType) (r : Mem × EdgeRef)
    (hwf : m.wf) (h : m.newEdge src dest t = some r) : r.1.wf := by
  obtain ⟨s, d, rfl, rfl, hs, hd⟩ := Mem.newEdge_some m src dest t r h
  obtain ⟨m1, hm1, hedges, hlen, _, hout, hin⟩ := Mem.newEdge_spec m s d t hs hd
  rw [hm1] at h
  simp only [Option.some.injEq] at h
  subst h
  obtain ⟨h1, h2, h3⟩ := hwf
  have hsrc := Mem.src_of_edges_append m m1 _ hedges
  have hdest := Mem.dest_of_edges_append m m1 _ hedges
  have hE : m1.edges.length = m.edges.length + 1 := by simp [hedges]
  refine ⟨?_, ?_, ?_⟩
  · intro n hn e he
    rw [hlen] at hn
    rw [hout] at he
    rw [hE, hsrc]
    by_cases hns : n = s
    · rw [if_pos hns] at he
      rcases List.mem_append.mp he with he | he
      · have := h1 n hn e he
        simp only [this.1, if_true]
        exact ⟨Nat.lt_succ_of_lt this.1, this.2⟩
      · simp only [List.mem_singleton] at he
        subst he
        simp [hns]
    · rw [if_neg hns] at he
      have := h1 n hn e he
      simp only [this.1, if_true]
      exact ⟨Nat.lt_succ_of_lt this.1, this.2⟩
  · intro n hn e he
    rw [hlen] at hn
    rw [hin] at he
    rw [hE, hdest]
    by_cases hns : n = d
    · rw [if_pos hns] at he
      rcases List.mem_append.mp he with he | he
      · have := h2 n hn e he
        simp only [this.1, if_true]
        exact ⟨Nat.lt_succ_of_lt this.1, this.2⟩
      · simp only [List.mem_singleton] at he
        subst he
        simp [hns]
    · rw [if_neg hns] at he
      have := h2 n hn e he
      simp only [this.1, if_true]
      exact ⟨Nat.lt_succ_of_lt this.1, this.2⟩
  · intro e he
    rw [hE] at he
    rw [hlen, hsrc, hdest, hout, hin]
    by_cases hlt : e < m.edges.length
    · obtain ⟨a, b, c, d1⟩ := h3 e hlt
      simp only [hlt, if_true]
      refine ⟨a, b, ?_, ?_⟩
      · split_ifs
        · exact List.mem_append_left _ c
        · exact c
      · split_ifs
        · exact List.mem_append_left _ d1
        · exact d1
    · have he1 : e = m.edges.length := by omega
      subst he1
      simp [hs, hd]

theorem State.wf_step (s s1 : State) (op : Op) (hwf : s.mem.wf) (h : s.step op = some s1) :
    s1.mem.wf := by
  cases op with
  | newNode t =>
    simp only [State.step, Option.some.injEq] at h
    subst h
    exact Mem.wf_newNode _ t hwf
  | insertNode node =>
    simp only [State.step] at h
    split_ifs at h
    simp only [Option.some.injEq] at h
    subst h
    exact hwf
  | newEdge src dest t =>
    simp only [State.step] at h
    cases hr : s.mem.newEdge src dest t with
    | none => simp [hr] at h
    | some r =>
      simp only [hr, Option.some.injEq] at h
      subst h
      exact Mem.wf_newEdge _ src dest t r hwf hr
  | getTrap =>
    simp only [State.step, Option.some.injEq] at h
    subst h
    unfold State.getTrap
    cases s.graph.trap with
    | none => exact Mem.wf_newNode _ _ hwf
    | some t => exact hwf
  | getStart =>
    simp only [State.step, Option.some.injEq] at h
    subst h
    unfold State.getStart
    cases s.graph.start with
    | none => exact Mem.wf_newNode _ _ hwf
    | some t => exact hwf
  | setModule module =>
    simp only [State.step] at h
    split_ifs at h
    cases module with
    | none => simp [State.setModule] at h
    | some r =>
      simp only [State.setModule, Option.some.injEq] at h
      subst h
      exact hwf
  | getModule =>
    simp only [State.step] at h
    cases hm : s.getModule with
    | none => simp [hm] at h
    | some r =>
      simp only [hm, Option.some.injEq] at h
      subst h
      exact hwf

theorem State.wf_run (ops : List Op) : ∀ (s s1 : State), s.mem.wf → s.run ops = some s1 →
    s1.mem.wf := by
  induction ops with
  | nil =>
    intro s s1 hwf h
    simp only [State.run, Option.some.injEq] at h
    subst h
    exact hwf
  | cons op ops ih =>
    intro s s1 hwf h
    simp only [State.run] at h
    cases hs : s.step op with
    | none => simp [hs] at h
    | some s2 =>
      simp only [hs] at h
      exact ih s2 s1 (State.wf_step s s2 op hwf hs) h

theorem State.wf_of_run_init (ops : List Op) (s : State) (h : State.init.run ops = some s) :
    s.mem.wf :=
  State.wf_run ops State.init s Mem.wf_empty h

/-! ## Traversal steps and edges -/

theorem Mem.step_iff_follows (m : Mem) (hwf : m.wf) (ec : EdgeCondition) (reverse : Bool)
    (u v : NodeRef) : m.Step ec reverse u v ↔ m.Follows ec reverse u v := by
  obtain ⟨h1, h2, h3⟩ := hwf
  cases reverse with
  | false =>
    simp only [Mem.Step, Mem.Follows, Bool.false_eq_true, if_false]
    constructor
    · rintro ⟨e, he, hc, hd⟩
      have := h1 u (Mem.mem_outEdges_lt m u e he) e he
      exact ⟨e, this.1, hc, this.2, hd⟩
    · rintro ⟨e, he, hc, hs, hd⟩
      have := (h3 e he).2.2.1
      rw [hs] at this
      exact ⟨e, this, hc, hd⟩
  | true =>
    simp only [Mem.Step, Mem.Follows, if_true]
    constructor
    · rintro ⟨e, he, hc, hd⟩
      have := h2 u (Mem.mem_inEdges_lt m u e he) e he
      exact ⟨e, this.1, hc, this.2, hd⟩
    · rintro ⟨e, he, hc, hs, hd⟩
      have := (h3 e he).2.2.2
      rw [hs] at this
      exact ⟨e, this, hc, hd⟩

theorem Mem.follows_lt (m : Mem) (hwf : m.wf) (ec : EdgeCondition) (reverse : Bool)
    (u v : NodeRef) (h : m.Follows ec reverse u v) : v < m.nodes.length := by
  obtain ⟨e, he, _, hx⟩ := h
  have := hwf.2.2 e he
  cases reverse with
  | false =>
    simp only [Bool.false_eq_true, if_false] at hx
    rw [← hx.2]; exact this.2.1
  | true =>
    simp only [if_true] at hx
    rw [← hx.2]; exact this.1

theorem Mem.transGen_step_iff (m : Mem) (hwf : m.wf) (ec : EdgeCondition) (reverse : Bool)
    (u v : NodeRef) :
    Relation.TransGen (m.Step ec reverse) u v ↔ Relation.TransGen (m.Follows ec reverse) u v :=
  ⟨Relation.TransGen.mono fun a b h => (Mem.step_iff_follows m hwf ec reverse a b).mp h,
   Relation.TransGen.mono fun a b h => (Mem.step_iff_follows m hwf ec reverse a b).mpr h⟩

/-! ## The claims -/

/-- C1. On a well-formed graph and with a limit larger than the number of
nodes, BFS returns a set, and a node is in it exactly when it satisfies the
predicate and a path of one or more edges that satisfy the edge condition
leads to it from some seed (edges followed from source to destination, or
from destination to source when `reverse`). -/
theorem BFS_exact_of_large_limit (m : Mem) (hwf : m.wf) (seeds : NodeSet)
    (pred : NodeCondition) (ec : EdgeCondition) (limit : Nat) (reverse : Bool)
    (hlim : m.nodes.length < limit) :
    ∃ r, Query.BFS m seeds pred ec limit reverse = some r ∧
      ∀ n, n ∈ r ↔
        (pred n = true ∧ ∃ s ∈ seeds, Relation.TransGen (m.Follows ec reverse) s n) := by
  obtain ⟨r, hr⟩ := Query.BFS_total m seeds pred ec limit reverse
  refine ⟨r, hr, fun n => ⟨?_, ?_⟩⟩
  · intro hn
    obtain ⟨hp, s, hs, hpath⟩ := Query.BFS_sound m seeds pred ec limit reverse r hr n hn
    exact ⟨hp, s, hs, (Mem.transGen_step_iff m hwf ec reverse s n).mp hpath⟩
  · rintro ⟨hp, s, hs, hpath⟩
    refine Query.BFS_complete m seeds pred ec limit reverse r ?_ hlim hr n hp
      ⟨s, hs, (Mem.transGen_step_iff m hwf ec reverse s n).mpr hpath⟩
    intro u v huv
    exact Mem.follows_lt m hwf ec reverse u v ((Mem.step_iff_follows m hwf ec reverse u v).mp huv)

/-- Witness of C1: the sample graph, seed 0, every node and every edge
accepted, limit 5. -/
theorem BFS_exact_of_large_limit_witness :
    sampleState.mem.wf ∧ sampleState.mem.nodes.length < 5 ∧
    ∃ r, Query.BFS sampleState.mem [0] (fun _ => true) Query.ALL_EDGES 5 false = some r ∧
      ∀ n, n ∈ r ↔
        ((fun _ => true) n = true ∧
          ∃ s ∈ [0], Relation.TransGen (sampleState.mem.Follows Query.ALL_EDGES false) s n) :=
  ⟨by decide, by decide,
   BFS_exact_of_large_limit sampleState.mem (by decide) [0] (fun _ => true) Query.ALL_EDGES 5
     false (by decide)⟩

/-- C2, as stated, fails: on the graph of one instruction with an edge to
itself, BFS from that instruction returns the instruction, a seed. -/
theorem BFS_returns_seed_on_self_loop :
    State.init.run selfLoopOps = some selfLoopState ∧
    (0 ∈ ([0] : NodeSet)) ∧
    Query.BFS selfLoopState.mem [0] (fun _ => true) Query.ALL_EDGES 10 false = some [0] := by
  decide

/-- C2, amended. On a well-formed graph BFS returns a set, and a seed is in
it only if a path of one or more followed edges leads to that seed from some
seed (itself or another one). -/
theorem BFS_seed_only_if_reached (m : Mem) (hwf : m.wf) (seeds : NodeSet)
    (pred : NodeCondition) (ec : EdgeCondition) (limit : Nat) (reverse : Bool) :
    ∃ r, Query.BFS m seeds pred ec limit reverse = some r ∧
      ∀ s ∈ seeds, s ∈ r →
        ∃ t ∈ seeds, Relation.TransGen (m.Follows ec reverse) t s := by
  obtain ⟨r, hr⟩ := Query.BFS_total m seeds pred ec limit reverse
  refine ⟨r, hr, fun s _ hs => ?_⟩
  obtain ⟨_, t, ht, hpath⟩ := Query.BFS_sound m seeds pred ec limit reverse r hr s hs
  exact ⟨t, ht, (Mem.transGen_step_iff m hwf ec reverse t s).mp hpath⟩

/-- Witness of C2 amended: the sample graph with the seeds 0 and 3. -/
theorem BFS_seed_only_if_reached_witness :
    sampleState.mem.wf ∧
    ∃ r, Query.BFS sampleState.mem [0, 3] (fun _ => true) Query.ALL_EDGES 5 false = some r ∧
      ∀ s ∈ [0, 3], s ∈ r →
        ∃ t ∈ [0, 3], Relation.TransGen (sampleState.mem.Follows Query.ALL_EDGES false) t s :=
  ⟨by decide,
   BFS_seed_only_if_reached sampleState.mem (by decide) [0, 3] (fun _ => true) Query.ALL_EDGES 5
     false⟩

/-- C3. BFS returns a set, and the set has at most `k` elements, for every
limit `k`. -/
theorem BFS_size_at_most_limit (m : Mem) (seeds : NodeSet) (pred : NodeCondition)
    (ec : EdgeCondition) (k : Nat) (reverse : Bool) :
    ∃ r, Query.BFS m seeds pred ec k reverse = some r ∧ r.length ≤ k := by
  obtain ⟨r, hr⟩ := Query.BFS_total m seeds pred ec k reverse
  exact ⟨r, hr, Query.BFS_length_le m seeds pred ec k reverse r hr⟩

/-- C4. BFSincludes returns a set, and the set has at most `k` elements,
for every limit `k`, however many seeds satisfy the predicate. -/
theorem BFSincludes_size_at_most_limit (m : Mem) (seeds : NodeSet) (pred : NodeCondition)
    (ec : EdgeCondition) (k : Nat) (reverse : Bool) :
    ∃ r, Query.BFSincludes m seeds pred ec k reverse = some r ∧ r.length ≤ k := by
  unfold Query.BFSincludes
  by_cases hk : (Query.filter seeds pred).length ≥ k
  · refine ⟨toSet ((Query.filter seeds pred).take k), by simp only [hk, if_true], ?_⟩
    refine le_trans (length_toSet_le _) ?_
    simp
  · obtain ⟨r, hr⟩ :=
      Query.BFS_total m seeds pred ec (k - (Query.filter seeds pred).length) reverse
    have hlen := Query.BFS_length_le m seeds pred ec _ reverse r hr
    refine ⟨setUnion r (Query.filter seeds pred), by simp only [hk, if_false, hr], ?_⟩
    have := length_setUnion_le r (Query.filter seeds pred)
    omega

/-- C5. When the limit is at least the number of seeds that satisfy the
predicate, BFSincludes returns a set that contains every element of
`filter(seeds, pred)`. -/
theorem BFSincludes_contains_filtered_seeds (m : Mem) (seeds : NodeSet)
    (pred : NodeCondition) (ec : EdgeCondition) (limit : Nat) (reverse : Bool)
    (hlimit : (Query.filter seeds pred).length ≤ limit) :
    ∃ r, Query.BFSincludes m seeds pred ec limit reverse = some r ∧
      ∀ x ∈ Query.filter seeds pred, x ∈ r := by
  unfold Query.BFSincludes
  by_cases hk : (Query.filter seeds pred).length ≥ limit
  · refine ⟨toSet ((Query.filter seeds pred).take limit), by simp only [hk, if_true], ?_⟩
    intro x hx
    rw [mem_toSet, List.take_of_length_le hlimit]
    exact hx
  · obtain ⟨r, hr⟩ :=
      Query.BFS_total m seeds pred ec (limit - (Query.filter seeds pred).length) reverse
    refine ⟨setUnion r (Query.filter seeds pred), by simp only [hk, if_false, hr], ?_⟩
    intro x hx
    exact (mem_setUnion _ _ _).mpr (Or.inr hx)

/-- Witness of C5: the sample graph, seeds 0 and 3, limit 2. -/
theorem BFSincludes_contains_filtered_seeds_witness :
    (Query.filter [0, 3] (fun _ => true)).length ≤ 2 ∧
    ∃ r, Query.BFSincludes sampleState.mem [0, 3] (fun _ => true) Query.ALL_EDGES 2 false
        = some r ∧
      ∀ x ∈ Query.filter [0, 3] (fun _ => true), x ∈ r :=
  ⟨by decide,
   BFSincludes_contains_filtered_seeds sampleState.mem [0, 3] (fun _ => true) Query.ALL_EDGES 2
     false (by decide)⟩

/-- C6. With limit 0 both BFS and BFSincludes return the empty set. -/
theorem limit_zero_gives_empty (m : Mem) (seeds : NodeSet) (pred : NodeCondition)
    (ec : EdgeCondition) (reverse : Bool) :
    Query.BFS m seeds pred ec 0 reverse = some [] ∧
    Query.BFSincludes m seeds pred ec 0 reverse = some [] := by
  constructor
  · simp [Query.BFS]
  · simp [Query.BFSincludes, toSet, setUnion]

/-! ## children and parents -/

theorem Query.mem_children_aux (m : Mem) (ec : EdgeCondition) (nodes : NodeSet)
    (init : NodeSet) (x : NodeRef) :
    x ∈ nodes.foldl (fun result node =>
        (Query.filterEdges (toSet (m.outEdges node)) ec).foldl
          (fun r e => setInsert (m.dest e) r) result) init ↔
      x ∈ init ∨ ∃ n ∈ nodes, ∃ e ∈ m.outEdges n, ec e = true ∧ m.dest e = x := by
  induction nodes generalizing init with
  | nil => simp
  | cons b t ih =>
    simp only [List.foldl_cons, ih, mem_foldl_insert_all, Query.mem_filterEdges, mem_toSet,
      List.mem_cons, exists_eq_or_imp]
    constructor
    · rintro ((h | ⟨e, ⟨he, hc⟩, hd⟩) | h)
      · exact Or.inl h
      · exact Or.inr (Or.inl ⟨e, he, hc, hd⟩)
      · exact Or.inr (Or.inr h)
    · rintro (h | ⟨e, he, hc, hd⟩ | h)
      · exact Or.inl (Or.inl h)
      · exact Or.inl (Or.inr ⟨e, ⟨he, hc⟩, hd⟩)
      · exact Or.inr h

theorem Query.sorted_children_aux (m : Mem) (ec : EdgeCondition) (nodes : NodeSet)
    (init : NodeSet) (h : init.Sorted (· < ·)) :
    (nodes.foldl (fun result node =>
        (Query.filterEdges (toSet (m.outEdges node)) ec).foldl
          (fun r e => setInsert (m.dest e) r) result) init).Sorted (· < ·) := by
  induction nodes generalizing init with
  | nil => simpa using h
  | cons b t ih =>
    simp only [List.foldl_cons]
    exact ih _ (sorted_foldl_insert_all _ _ _ h)

theorem Query.mem_children (m : Mem) (nodes : NodeSet) (ec : EdgeCondition) (x : NodeRef) :
    x ∈ Query.children m nodes ec ↔
      ∃ n ∈ nodes, ∃ e ∈ m.outEdges n, ec e = true ∧ m.dest e = x := by
  simp [Query.children, Query.mem_children_aux]

theorem Query.sorted_children (m : Mem) (nodes : NodeSet) (ec : EdgeCondition) :
    (Query.children m nodes ec).Sorted (· < ·) :=
  Query.sorted_children_aux m ec nodes [] List.sorted_nil

theorem Query.mem_parents_aux (m : Mem) (ec : EdgeCondition) (nodes : NodeSet)
    (init : NodeSet) (x : NodeRef) :
    x ∈ nodes.foldl (fun result node =>
        (Query.filterEdges (toSet (m.inEdges node)) ec).foldl
          (fun r e => setInsert (m.src e) r) result) init ↔
      x ∈ init ∨ ∃ n ∈ nodes, ∃ e ∈ m.inEdges n, ec e = true ∧ m.src e = x := by
  induction nodes generalizing init with
  | nil => simp
  | cons b t ih =>
    simp only [List.foldl_cons, ih, mem_foldl_insert_all, Query.mem_filterEdges, mem_toSet,
      List.mem_cons, exists_eq_or_imp]
    constructor
    · rintro ((h | ⟨e, ⟨he, hc⟩, hd⟩) | h)
      · exact Or.inl h
      · exact Or.inr (Or.inl ⟨e, he, hc, hd⟩)
      · exact Or.inr (Or.inr h)
    · rintro (h | ⟨e, he, hc, hd⟩ | h)
      · exact Or.inl (Or.inl h)
      · exact Or.inl (Or.inr ⟨e, ⟨he, hc⟩, hd⟩)
      · exact Or.inr h

theorem Query.mem_parents (m : Mem) (nodes : NodeSet) (ec : EdgeCondition) (x : NodeRef) :
    x ∈ Query.parents m nodes ec ↔
      ∃ n ∈ nodes, ∃ e ∈ m.inEdges n, ec e = true ∧ m.src e = x := by
  simp [Query.parents, Query.mem_parents_aux]

/-- C7. A node is in `children(S, c)` exactly when some node of `S` has an
outgoing edge that satisfies `c` and ends at it; the children of the empty
set are empty; the children of a union are the union of the children. -/
theorem children_characterised (m : Mem) (c : EdgeCondition) :
    (∀ (S : NodeSet) (x : NodeRef), x ∈ Query.children m S c ↔
      ∃ n ∈ S, ∃ e ∈ m.outEdges n, c e = true ∧ m.dest e = x) ∧
    Query.children m [] c = [] ∧
    (∀ A B : NodeSet, Query.children m (setUnion A B) c
      = setUnion (Query.children m A c) (Query.children m B c)) := by
  refine ⟨fun S x => Query.mem_children m S c x, rfl, fun A B => ?_⟩
  apply sorted_ext _ _ (Query.sorted_children m _ c)
    (sorted_setUnion _ _ (Query.sorted_children m A c))
  intro x
  simp only [Query.mem_children, mem_setUnion]
  constructor
  · rintro ⟨n, hn | hn, h⟩
    · exact Or.inl ⟨n, hn, h⟩
    · exact Or.inr ⟨n, hn, h⟩
  · rintro (⟨n, hn, h⟩ | ⟨n, hn, h⟩)
    · exact ⟨n, Or.inl hn, h⟩
    · exact ⟨n, Or.inr hn, h⟩

/-- C8. In a graph built by the constructors, `a` is a parent of `b` under `c`
exactly when `b` is a child of `a` under `c`, and a node with an incoming
edge that satisfies `c` is among the children of its own parents. -/
theorem parents_children_inverse (ops : List Op) (s : State)
    (hbuilt : State.init.run ops = some s) (c : EdgeCondition) (a b : NodeRef) :
    (a ∈ Query.parents s.mem [b] c ↔ b ∈ Query.children s.mem [a] c) ∧
    ((∃ e, e < s.mem.edges.length ∧ s.mem.dest e = b ∧ c e = true) →
      b ∈ Query.children s.mem (Query.parents s.mem [b] c) c) := by
  have hwf := State.wf_of_run_init ops s hbuilt
  obtain ⟨h1, h2, h3⟩ := hwf
  constructor
  · simp only [Query.mem_parents, Query.mem_children, List.mem_singleton, exists_eq_left]
    constructor
    · rintro ⟨e, he, hc, hs⟩
      have hin := h2 b (Mem.mem_inEdges_lt s.mem b e he) e he
      have hout := (h3 e hin.1).2.2.1
      rw [hs] at hout
      exact ⟨e, hout, hc, hin.2⟩
    · rintro ⟨e, he, hc, hd⟩
      have hout := h1 a (Mem.mem_outEdges_lt s.mem a e he) e he
      have hin := (h3 e hout.1).2.2.2
      rw [hd] at hin
      exact ⟨e, hin, hc, hout.2⟩
  · rintro ⟨e, he, hd, hc⟩
    obtain ⟨_, _, hout, hin⟩ := h3 e he
    rw [hd] at hin
    rw [Query.mem_children]
    refine ⟨s.mem.src e, ?_, e, hout, hc, hd⟩
    rw [Query.mem_parents]
    exact ⟨b, List.mem_singleton.mpr rfl, e, hin, hc, rfl⟩

/-- Witness of C8: the sample graph, the nodes 2 and 3, every edge accepted. -/
theorem parents_children_inverse_witness :
    State.init.run sampleOps = some sampleState ∧
    (2 ∈ Query.parents sampleState.mem [3] Query.ALL_EDGES ↔
      3 ∈ Query.children sampleState.mem [2] Query.ALL_EDGES) ∧
    ((∃ e, e < sampleState.mem.edges.length ∧ sampleState.mem.dest e = 3 ∧
        Query.ALL_EDGES e = true) →
      3 ∈ Query.children sampleState.mem
        (Query.parents sampleState.mem [3] Query.ALL_EDGES) Query.ALL_EDGES) :=
  ⟨by decide, parents_children_inverse sampleOps sampleState (by decide) Query.ALL_EDGES 2 3⟩

/-! ## Edge creation and the store -/

/-- C9. Creating an edge appends the new edge at the end of the out-edges of
its source and at the end of the in-edges of its destination and changes no
other adjacency vector; a second creation with the same source, destination
and kind appends a second entry to each of the two vectors. -/
theorem newEdge_appends_to_both_ends (m : Mem) (s d : NodeRef) (t : EdgeType)
    (hs : s < m.nodes.length) (hd : d < m.nodes.length) :
    ∃ m1, m.newEdge (some s) (some d) t = some (m1, m.edges.length) ∧
      m1.edges = m.edges ++ [{ src := s, dest := d, type := t }] ∧
      m1.outEdges s = m.outEdges s ++ [m.edges.length] ∧
      m1.inEdges d = m.inEdges d ++ [m.edges.length] ∧
      (∀ n, n ≠ s → m1.outEdges n = m.outEdges n) ∧
      (∀ n, n ≠ d → m1.inEdges n = m.inEdges n) ∧
      ∃ m2, m1.newEdge (some s) (some d) t = some (m2, m.edges.length + 1) ∧
        m2.edges = m.edges ++
          [{ src := s, dest := d, type := t }, { src := s, dest := d, type := t }] ∧
        m2.outEdges s = m.outEdges s ++ [m.edges.length, m.edges.length + 1] ∧
        m2.inEdges d = m.inEdges d ++ [m.edges.length, m.edges.length + 1] := by
  obtain ⟨m1, hm1, hedges, hlen, _, hout, hin⟩ := Mem.newEdge_spec m s d t hs hd
  obtain ⟨m2, hm2, hedges2, _, _, hout2, hin2⟩ :=
    Mem.newEdge_spec m1 s d t (by rw [hlen]; exact hs) (by rw [hlen]; exact hd)
  have hE : m1.edges.length = m.edges.length + 1 := by simp [hedges]
  refine ⟨m1, hm1, hedges, ?_, ?_, ?_, ?_, m2, ?_, ?_, ?_, ?_⟩
  · simp [hout]
  · simp [hin]
  · intro n hn; simp [hout, hn]
  · intro n hn; simp [hin, hn]
  · rw [hm2, hE]
  · simp [hedges2, hedges]
  · simp [hout2, hout, hE]
  · simp [hin2, hin, hE]

/-- Witness of C9: one more edge from node 3 to node 2 of the sample graph. -/
theorem newEdge_appends_to_both_ends_witness :
    3 < sampleState.mem.nodes.length ∧ 2 < sampleState.mem.nodes.length ∧
    ∃ m1, sampleState.mem.newEdge (some 3) (some 2) EdgeType.CFG
        = some (m1, sampleState.mem.edges.length) ∧
      m1.edges = sampleState.mem.edges ++ [{ src := 3, dest := 2, type := EdgeType.CFG }] ∧
      m1.outEdges 3 = sampleState.mem.outEdges 3 ++ [sampleState.mem.edges.length] ∧
      m1.inEdges 2 = sampleState.mem.inEdges 2 ++ [sampleState.mem.edges.length] ∧
      (∀ n, n ≠ 3 → m1.outEdges n = sampleState.mem.outEdges n) ∧
      (∀ n, n ≠ 2 → m1.inEdges n = sampleState.mem.inEdges n) ∧
      ∃ m2, m1.newEdge (some 3) (some 2) EdgeType.CFG
          = some (m2, sampleState.mem.edges.length + 1) ∧
        m2.edges = sampleState.mem.edges ++
          [{ src := 3, dest := 2, type := EdgeType.CFG },
           { src := 3, dest := 2, type := EdgeType.CFG }] ∧
        m2.outEdges 3 = sampleState.mem.outEdges 3 ++
          [sampleState.mem.edges.length, sampleState.mem.edges.length + 1] ∧
        m2.inEdges 2 = sampleState.mem.inEdges 2 ++
          [sampleState.mem.edges.length, sampleState.mem.edges.length + 1] :=
  ⟨by decide, by decide,
   newEdge_appends_to_both_ends sampleState.mem 3 2 EdgeType.CFG (by decide) (by decide)⟩

theorem State.endpointsResident_step (s s1 : State) (op : Op) (hinv : s.EndpointsResident)
    (h : s.step op = some s1) (hop : s.edgesWithinStore [op] = true) :
    s1.EndpointsResident := by
  cases op with
  | newNode t =>
    simp only [State.step, Option.some.injEq] at h
    subst h
    exact hinv
  | insertNode node =>
    simp only [State.step] at h
    split_ifs at h
    simp only [Option.some.injEq] at h
    subst h
    intro e he
    have := hinv e he
    simp only [Graph.insertNode, List.mem_append]
    exact ⟨Or.inl this.1, Or.inl this.2⟩
  | newEdge src dest t =>
    simp only [State.step] at h
    cases hr : s.mem.newEdge src dest t with
    | none => simp [hr] at h
    | some r =>
      simp only [hr, Option.some.injEq] at h
      subst h
      obtain ⟨a, b, rfl, rfl, ha, hb⟩ := Mem.newEdge_some _ _ _ _ _ hr
      obtain ⟨m1, hm1, hedges, _⟩ := Mem.newEdge_spec s.mem a b t ha hb
      rw [hm1] at hr
      simp only [Option.some.injEq] at hr
      subst hr
      simp only [State.edgesWithinStore, Bool.and_eq_true, decide_eq_true_eq] at hop
      intro e he
      simp only [hedges, List.mem_append, List.mem_singleton] at he
      rcases he with he | he
      · exact hinv e he
      · subst he
        exact hop.1
  | getTrap =>
    simp only [State.step, Option.some.injEq] at h
    subst h
    unfold State.getTrap
    cases s.graph.trap with
    | none =>
      intro e he
      simp only [Mem.newNode] at he
      have := hinv e he
      simp only [Graph.insertNode, List.mem_append]
      exact ⟨Or.inl this.1, Or.inl this.2⟩
    | some t => exact hinv
  | getStart =>
    simp only [State.step, Option.some.injEq] at h
    subst h
    unfold State.getStart
    cases s.graph.start with
    | none =>
      intro e he
      simp only [Mem.newNode] at he
      have := hinv e he
      simp only [Graph.insertNode, List.mem_append]
      exact ⟨Or.inl this.1, Or.inl this.2⟩
    | some t => exact hinv
  | setModule module =>
    simp only [State.step] at h
    split_ifs at h
    cases module with
    | none => simp [State.setModule] at h
    | some r =>
      simp only [State.setModule, Option.some.injEq] at h
      subst h
      exact hinv
  | getModule =>
    simp only [State.step] at h
    cases hm : s.getModule with
    | none => simp [hm] at h
    | some r =>
      simp only [hm, Option.some.injEq] at h
      subst h
      exact hinv

theorem State.endpointsResident_run (ops : List Op) : ∀ (s s1 : State),
    s.EndpointsResident → s.run ops = some s1 → s.edgesWithinStore ops = true →
    s1.EndpointsResident := by
  induction ops with
  | nil =>
    intro s s1 hinv h _
    simp only [State.run, Option.some.injEq] at h
    subst h
    exact hinv
  | cons op ops ih =>
    intro s s1 hinv h hd
    simp only [State.run] at h
    cases hs : s.step op with
    | none => simp [hs] at h
    | some s2 =>
      simp only [hs] at h
      simp only [State.edgesWithinStore, hs, Bool.and_eq_true] at hd
      refine ih s2 s1 (State.endpointsResident_step s s2 op hinv hs ?_) h hd.2
      simp only [State.edgesWithinStore, hs, Bool.and_eq_true, and_true]
      exact hd.1

theorem Mem.newEdge_isSome_iff (m : Mem) (src dest : Option NodeRef) (t : EdgeType)
    (hsrc : m.validPtr src = true) (hdest : m.validPtr dest = true) :
    (m.newEdge src dest t).isSome = true ↔ (src.isSome = true ∧ dest.isSome = true) := by
  cases src with
  | none => simp [Mem.newEdge]
  | some a =>
    cases dest with
    | none => simp [Mem.newEdge]
    | some b =>
      simp only [Mem.validPtr, decide_eq_true_eq] at hsrc hdest
      simp [Mem.newEdge, hsrc, hdest]

/-- C10, as stated, fails: an edge is created from a node that was never
inserted into the store; the creation succeeds and the source of the edge is
not in the node list. -/
theorem edge_from_node_outside_store :
    State.init.run strayEdgeOps = some strayEdgeState ∧
    ¬ strayEdgeState.EndpointsResident := by
  decide

/-- C10, amended. The edge constructor rejects exactly the null endpoints and
does not consult the store.  In a state reached by operations whose edge
creations are all given nodes that are in the node list of the store, both
ends of every edge are in the node list. -/
theorem endpoints_resident_when_edges_within_store (ops : List Op) (s : State)
    (hrun : State.init.run ops = some s)
    (hwithin : State.init.edgesWithinStore ops = true) :
    s.EndpointsResident ∧
    ∀ (src dest : Option NodeRef) (t : EdgeType),
      s.mem.validPtr src = true → s.mem.validPtr dest = true →
      ((s.mem.newEdge src dest t).isSome = true ↔ (src.isSome = true ∧ dest.isSome = true)) := by
  refine ⟨State.endpointsResident_run ops State.init s ?_ hrun hwithin, ?_⟩
  · intro e he
    simp [State.init, Mem.empty] at he
  · intro src dest t hsrc hdest
    exact Mem.newEdge_isSome_iff s.mem src dest t hsrc hdest

/-- Witness of C10 amended: the operations that build the sample graph. -/
theorem endpoints_resident_when_edges_within_store_witness :
    State.init.run sampleOps = some sampleState ∧
    State.init.edgesWithinStore sampleOps = true ∧
    sampleState.EndpointsResident ∧
    ∀ (src dest : Option NodeRef) (t : EdgeType),
      sampleState.mem.validPtr src = true → sampleState.mem.validPtr dest = true →
      ((sampleState.mem.newEdge src dest t).isSome = true ↔
        (src.isSome = true ∧ dest.isSome = true)) :=
  ⟨by decide, by decide,
   endpoints_resident_when_edges_within_store sampleOps sampleState (by decide) (by decide)⟩

/-! ## The AST projection and edge creation -/

theorem Mem.astChild_iff (m : Mem) (u v : NodeRef) :
    m.AstChild u v ↔
      ∃ e, e < m.edges.length ∧ m.edgeType e = some EdgeType.AST ∧ m.src e = u ∧ m.dest e = v := by
  simp [Mem.AstChild, Mem.Follows, Query.AST_EDGES]

theorem Mem.edgeType_of_edges_append (m m1 : Mem) (x : Edge) (h : m1.edges = m.edges ++ [x])
    (e : Nat) :
    m1.edgeType e = if e < m.edges.length then m.edgeType e
      else if e = m.edges.length then some x.type else none := by
  simp only [Mem.edgeType, h]
  rcases Nat.lt_trichotomy e m.edges.length with he | he | he
  · rw [List.getElem?_append_left he]; simp [he]
  · subst he; simp
  · rw [List.getElem?_eq_none (by simp; omega)]
    have h1 : ¬ e < m.edges.length := by omega
    have h2 : ¬ e = m.edges.length := by omega
    simp [h1, h2]

theorem Mem.astChild_of_edges_eq (m m1 : Mem) (h : m1.edges = m.edges) (u v : NodeRef) :
    m1.AstChild u v ↔ m.AstChild u v := by
  simp only [Mem.astChild_iff, Mem.edgeType, Mem.src, Mem.dest, h]

theorem Mem.astChild_of_edges_append (m m1 : Mem) (x : Edge) (h : m1.edges = m.edges ++ [x])
    (u v : NodeRef) :
    m1.AstChild u v ↔
      m.AstChild u v ∨ (x.type = EdgeType.AST ∧ x.src = u ∧ x.dest = v) := by
  simp only [Mem.astChild_iff]
  have hE : m1.edges.length = m.edges.length + 1 := by simp [h]
  constructor
  · rintro ⟨e, he, ht, hs, hd⟩
    rw [Mem.edgeType_of_edges_append m m1 x h] at ht
    rw [Mem.src_of_edges_append m m1 x h] at hs
    rw [Mem.dest_of_edges_append m m1 x h] at hd
    by_cases hlt : e < m.edges.length
    · simp only [hlt, if_true] at ht hs hd
      exact Or.inl ⟨e, hlt, ht, hs, hd⟩
    · have he1 : e = m.edges.length := by omega
      simp only [hlt, he1, if_false, if_true, Option.some.injEq] at ht hs hd
      simp only [lt_self_iff_false, if_false, Option.some.injEq] at ht hs hd
      exact Or.inr ⟨ht, hs, hd⟩
  · rintro (⟨e, he, ht, hs, hd⟩ | ⟨ht, hs, hd⟩)
    · refine ⟨e, by omega, ?_, ?_, ?_⟩
      · rw [Mem.edgeType_of_edges_append m m1 x h]; simp [he, ht]
      · rw [Mem.src_of_edges_append m m1 x h]; simp [he, hs]
      · rw [Mem.dest_of_edges_append m m1 x h]; simp [he, hd]
    · refine ⟨m.edges.length, by omega, ?_, ?_, ?_⟩
      · rw [Mem.edgeType_of_edges_append m m1 x h]; simp [ht]
      · rw [Mem.src_of_edges_append m m1 x h]; simp [hs]
      · rw [Mem.dest_of_edges_append m m1 x h]; simp [hd]

/-- A path in a relation extended by one pair either avoids the pair or
passes through it. -/
theorem transGen_of_insert {α : Type} (R R1 : α → α → Prop) (s d : α)
    (h : ∀ a b, R1 a b → R a b ∨ (a = s ∧ b = d)) (a b : α)
    (hab : Relation.TransGen R1 a b) :
    Relation.TransGen R a b ∨
      (Relation.ReflTransGen R a s ∧ Relation.ReflTransGen R d b) := by
  induction hab with
  | single hst =>
    rcases h _ _ hst with h1 | ⟨rfl, rfl⟩
    · exact Or.inl (Relation.TransGen.single h1)
    · exact Or.inr ⟨Relation.ReflTransGen.refl, Relation.ReflTransGen.refl⟩
  | tail _ hst ih =>
    rcases h _ _ hst with h1 | ⟨rfl, rfl⟩
    · rcases ih with ih | ⟨ih1, ih2⟩
      · exact Or.inl (Relation.TransGen.tail ih h1)
      · exact Or.inr ⟨ih1, Relation.ReflTransGen.tail ih2 h1⟩
    · rcases ih with ih | ⟨ih1, _⟩
      · exact Or.inr ⟨ih.to_reflTransGen, Relation.ReflTransGen.refl⟩
      · exact Or.inr ⟨ih1, Relation.ReflTransGen.refl⟩

theorem Mem.astAcyclic_of_edges_eq (m m1 : Mem) (h : m1.edges = m.edges) :
    m1.AstAcyclic ↔ m.AstAcyclic := by
  have hrel : m1.AstChild = m.AstChild := by
    funext u v
    exact propext (Mem.astChild_of_edges_eq m m1 h u v)
  simp only [Mem.AstAcyclic, hrel]

theorem Mem.astAcyclic_of_no_edges (m : Mem) (h : m.edges = []) : m.AstAcyclic := by
  intro x hx
  have : ∀ a b, ¬ m.AstChild a b := by
    intro a b hab
    obtain ⟨e, he, _⟩ := (Mem.astChild_iff m a b).mp hab
    simp [h] at he
  cases hx with
  | single hst => exact this _ _ hst
  | tail _ hst => exact this _ _ hst

/-- Acyclicity after the creation of an edge. -/
theorem Mem.astAcyclic_newEdge (m m1 : Mem) (a b : NodeRef) (t : EdgeType)
    (hedges : m1.edges = m.edges ++ [{ src := a, dest := b, type := t }])
    (hacyc : m.AstAcyclic) :
    m1.AstAcyclic ↔ (t = EdgeType.AST → ¬ Relation.ReflTransGen m.AstChild b a) := by
  have hrel := Mem.astChild_of_edges_append m m1 _ hedges
  constructor
  · intro h1 ht hba
    have hmono : ∀ u v, Relation.ReflTransGen m.AstChild u v →
        Relation.ReflTransGen m1.AstChild u v :=
      fun u v => Relation.ReflTransGen.mono fun x y hxy => (hrel x y).mpr (Or.inl hxy)
    have hnew : m1.AstChild a b := (hrel a b).mpr (Or.inr ⟨ht, rfl, rfl⟩)
    exact h1 a (Relation.TransGen.head' hnew (hmono b a hba))
  · intro h1 x hx
    have hsplit := transGen_of_insert m.AstChild m1.AstChild a b
      (fun u v huv => by
        rcases (hrel u v).mp huv with h2 | ⟨_, h3, h4⟩
        · exact Or.inl h2
        · exact Or.inr ⟨h3.symm, h4.symm⟩) x x hx
    rcases hsplit with h2 | ⟨h2, h3⟩
    · exact hacyc x h2
    · by_cases ht : t = EdgeType.AST
      · exact h1 ht (h3.trans h2)
      · have hsame : ∀ u v, m1.AstChild u v → m.AstChild u v := by
          intro u v huv
          rcases (hrel u v).mp huv with h4 | ⟨h4, _⟩
          · exact h4
          · exact absurd h4 ht
        exact hacyc x (Relation.TransGen.mono hsame hx)

/-- What one operation does to the edges: an edge creation appends the new
edge, every other operation leaves the edges as they are. -/
theorem State.edges_step (s s1 : State) (op : Op) (h : s.step op = some s1) :
    (∃ a b t, op = Op.newEdge (some a) (some b) t ∧
      s1.mem.edges = s.mem.edges ++ [{ src := a, dest := b, type := t }]) ∨
    ((∀ a b t, op ≠ Op.newEdge a b t) ∧ s1.mem.edges = s.mem.edges) := by
  cases op with
  | newNode t =>
    simp only [State.step, Option.some.injEq] at h
    subst h
    exact Or.inr ⟨fun _ _ _ hne => (by cases hne), rfl⟩
  | insertNode node =>
    simp only [State.step] at h
    split_ifs at h
    simp only [Option.some.injEq] at h
    subst h
    exact Or.inr ⟨fun _ _ _ hne => (by cases hne), rfl⟩
  | newEdge src dest t =>
    simp only [State.step] at h
    cases hr : s.mem.newEdge src dest t with
    | none => simp [hr] at h
    | some r =>
      simp only [hr, Option.some.injEq] at h
      subst h
      obtain ⟨a, b, rfl, rfl, ha, hb⟩ := Mem.newEdge_some _ _ _ _ _ hr
      obtain ⟨m1, hm1, hedges, _⟩ := Mem.newEdge_spec s.mem a b t ha hb
      rw [hm1] at hr
      simp only [Option.some.injEq] at hr
      subst hr
      exact Or.inl ⟨a, b, t, rfl, hedges⟩
  | getTrap =>
    simp only [State.step, Option.some.injEq] at h
    subst h
    refine Or.inr ⟨fun _ _ _ hne => (by cases hne), ?_⟩
    unfold State.getTrap
    cases s.graph.trap <;> rfl
  | getStart =>
    simp only [State.step, Option.some.injEq] at h
    subst h
    refine Or.inr ⟨fun _ _ _ hne => (by cases hne), ?_⟩
    unfold State.getStart
    cases s.graph.start <;> rfl
  | setModule module =>
    simp only [State.step] at h
    split_ifs at h
    cases module with
    | none => simp [State.setModule] at h
    | some r =>
      simp only [State.setModule, Option.some.injEq] at h
      subst h
      exact Or.inr ⟨fun _ _ _ hne => (by cases hne), rfl⟩
  | getModule =>
    simp only [State.step] at h
    cases hm : s.getModule with
    | none => simp [hm] at h
    | some r =>
      simp only [hm, Option.some.injEq] at h
      subst h
      exact Or.inr ⟨fun _ _ _ hne => (by cases hne), rfl⟩

/-- C11, as stated, fails: an AST edge from a node to itself is created
without an assertion failure, and the AST projection of the state reached
has a cycle. -/
theorem ast_self_loop_is_created :
    State.init.run astLoopOps = some astLoopState ∧
    Relation.TransGen astLoopState.mem.AstChild 0 0 :=
  ⟨by decide,
   Relation.TransGen.single
     ((Mem.astChild_iff astLoopState.mem 0 0).mpr ⟨0, by decide, by decide, by decide, by decide⟩)⟩

/-- C11, amended. The creation of an AST edge between two allocated nodes is
never rejected, also when it closes a cycle.  From a state with an acyclic
AST projection, the projection after an operation is acyclic exactly when
the operation is not the creation of an AST edge whose source is reached
from its destination along zero or more AST edges. -/
theorem ast_acyclic_after_step (s s1 : State) (op : Op) (hstep : s.step op = some s1)
    (hacyc : s.mem.AstAcyclic) :
    (s1.mem.AstAcyclic ↔
      ∀ a b, op = Op.newEdge (some a) (some b) EdgeType.AST →
        ¬ Relation.ReflTransGen s.mem.AstChild b a) ∧
    (∀ a b, a < s.mem.nodes.length → b < s.mem.nodes.length →
      (s.step (Op.newEdge (some a) (some b) EdgeType.AST)).isSome = true) := by
  constructor
  · rcases State.edges_step s s1 op hstep with ⟨a, b, t, rfl, hedges⟩ | ⟨hne, hedges⟩
    · rw [Mem.astAcyclic_newEdge s.mem s1.mem a b t hedges hacyc]
      constructor
      · intro h a1 b1 hop
        simp only [Op.newEdge.injEq, Option.some.injEq] at hop
        obtain ⟨rfl, rfl, rfl⟩ := hop
        exact h rfl
      · intro h ht
        subst ht
        exact h a b rfl
    · rw [Mem.astAcyclic_of_edges_eq s.mem s1.mem hedges]
      exact ⟨fun _ a b hop => absurd hop (hne _ _ _), fun _ => hacyc⟩
  · intro a b ha hb
    obtain ⟨m1, hm1, _⟩ := Mem.newEdge_spec s.mem a b EdgeType.AST ha hb
    simp [State.step, hm1]

/-- Witness of C11 amended: an AST edge from node 0 to node 1 of a state with
two nodes and no edge. -/
theorem ast_acyclic_after_step_witness :
    twoNodesState.step (Op.newEdge (some 0) (some 1) EdgeType.AST) = some twoNodesLinked ∧
    twoNodesState.mem.AstAcyclic ∧
    ((twoNodesLinked.mem.AstAcyclic ↔
      ∀ a b, Op.newEdge (some 0) (some 1) EdgeType.AST
          = Op.newEdge (some a) (some b) EdgeType.AST →
        ¬ Relation.ReflTransGen twoNodesState.mem.AstChild b a) ∧
    (∀ a b, a < twoNodesState.mem.nodes.length → b < twoNodesState.mem.nodes.length →
      (twoNodesState.step (Op.newEdge (some a) (some b) EdgeType.AST)).isSome = true)) :=
  ⟨by decide, Mem.astAcyclic_of_no_edges _ rfl,
   ast_acyclic_after_step twoNodesState twoNodesLinked
     (Op.newEdge (some 0) (some 1) EdgeType.AST) (by decide)
     (Mem.astAcyclic_of_no_edges _ rfl)⟩

/-! ## Node identities -/

theorem Mem.getId_addOutEdge (m : Mem) (s e n : Nat) :
    (m.addOutEdge s e).getId n = m.getId n := by
  simp only [Mem.addOutEdge, Mem.getId, List.getElem?_modify]
  cases h : m.nodes[n]? <;> by_cases hn : s = n <;> simp [hn]

theorem Mem.getId_addInEdge (m : Mem) (d e n : Nat) :
    (m.addInEdge d e).getId n = m.getId n := by
  simp only [Mem.addInEdge, Mem.getId, List.getElem?_modify]
  cases h : m.nodes[n]? <;> by_cases hn : d = n <;> simp [hn]

theorem Mem.getId_newEdge (m : Mem) (src dest : Option NodeRef) (t : EdgeType)
    (r : Mem × EdgeRef) (h : m.newEdge src dest t = some r) (n : Nat) :
    r.1.getId n = m.getId n ∧ r.1.idCount = m.idCount ∧ r.1.nodes.length = m.nodes.length := by
  obtain ⟨s, d, rfl, rfl, hs, hd⟩ := Mem.newEdge_some m src dest t r h
  simp only [Mem.newEdge, hs, hd, and_self, if_true, Option.some.injEq] at h
  subst h
  refine ⟨?_, ?_, ?_⟩
  · rw [Mem.getId_addInEdge, Mem.getId_addOutEdge]
    rfl
  · simp [Mem.addInEdge, Mem.addOutEdge]
  · simp [Mem.addInEdge, Mem.addOutEdge]

theorem Mem.getId_newNode (m : Mem) (t : NodeType) (n : Nat) :
    (m.newNode t).1.getId n =
      if n < m.nodes.length then m.getId n
      else if n = m.nodes.length then some m.idCount else none := by
  simp only [Mem.newNode, Mem.getId]
  rcases Nat.lt_trichotomy n m.nodes.length with h | h | h
  · rw [List.getElem?_append_left h]; simp [h]
  · subst h; simp
  · rw [List.getElem?_eq_none (by simp; omega)]
    have h1 : ¬ n < m.nodes.length := by omega
    have h2 : ¬ n = m.nodes.length := by omega
    simp [h1, h2]

theorem Mem.idsInOrder_newNode (m : Mem) (t : NodeType) (h : m.IdsInOrder) :
    (m.newNode t).1.IdsInOrder := by
  obtain ⟨h1, h2⟩ := h
  constructor
  · simp only [Mem.newNode, List.length_append, List.length_singleton]
    rw [h1]
    exact Nat.mod_add_mod _ _ _
  · intro i hi
    rw [Mem.getId_newNode]
    simp only [Mem.newNode, List.length_append, List.length_singleton] at hi
    by_cases hlt : i < m.nodes.length
    · simp only [hlt, if_true]
      exact h2 i hlt
    · have he : i = m.nodes.length := by omega
      simp only [hlt, he, if_false, if_true]
      simp [h1]

theorem State.idsInOrder_step (s s1 : State) (op : Op) (hinv : s.mem.IdsInOrder)
    (h : s.step op = some s1) :
    s1.mem.IdsInOrder ∧ s.mem.nodes.length ≤ s1.mem.nodes.length ∧
      ∀ n, n < s.mem.nodes.length → s1.mem.getId n = s.mem.getId n := by
  have hnew : ∀ t, (s.mem.newNode t).1.IdsInOrder ∧
      s.mem.nodes.length ≤ (s.mem.newNode t).1.nodes.length ∧
      ∀ n, n < s.mem.nodes.length → (s.mem.newNode t).1.getId n = s.mem.getId n := by
    intro t
    refine ⟨Mem.idsInOrder_newNode _ t hinv, by simp [Mem.newNode], ?_⟩
    intro n hn
    rw [Mem.getId_newNode]
    simp [hn]
  cases op with
  | newNode t =>
    simp only [State.step, Option.some.injEq] at h
    subst h
    exact hnew t
  | insertNode node =>
    simp only [State.step] at h
    split_ifs at h
    simp only [Option.some.injEq] at h
    subst h
    exact ⟨hinv, le_refl _, fun _ _ => rfl⟩
  | newEdge src dest t =>
    simp only [State.step] at h
    cases hr : s.mem.newEdge src dest t with
    | none => simp [hr] at h
    | some r =>
      simp only [hr, Option.some.injEq] at h
      subst h
      have hid := Mem.getId_newEdge s.mem src dest t r hr
      refine ⟨⟨?_, ?_⟩, ?_, fun n _ => (hid n).1⟩
      · rw [(hid 0).2.1, (hid 0).2.2]; exact hinv.1
      · intro i hi
        rw [(hid 0).2.2] at hi
        rw [(hid i).1]
        exact hinv.2 i hi
      · rw [(hid 0).2.2]
  | getTrap =>
    simp only [State.step, Option.some.injEq] at h
    subst h
    unfold State.getTrap
    cases s.graph.trap with
    | none => exact hnew NodeType.Trap
    | some t => exact ⟨hinv, le_refl _, fun _ _ => rfl⟩
  | getStart =>
    simp only [State.step, Option.some.injEq] at h
    subst h
    unfold State.getStart
    cases s.graph.start with
    | none => exact hnew NodeType.Start
    | some t => exact ⟨hinv, le_refl _, fun _ _ => rfl⟩
  | setModule module =>
    simp only [State.step] at h
    split_ifs at h
    cases module with
    | none => simp [State.setModule] at h
    | some r =>
      simp only [State.setModule, Option.some.injEq] at h
      subst h
      exact ⟨hinv, le_refl _, fun _ _ => rfl⟩
  | getModule =>
    simp only [State.step] at h
    cases hm : s.getModule with
    | none => simp [hm] at h
    | some r =>
      simp only [hm, Option.some.injEq] at h
      subst h
      exact ⟨hinv, le_refl _, fun _ _ => rfl⟩

theorem State.idsInOrder_run (ops : List Op) : ∀ (s s1 : State), s.mem.IdsInOrder →
    s.run ops = some s1 →
    s1.mem.IdsInOrder ∧ s.mem.nodes.length ≤ s1.mem.nodes.length ∧
      ∀ n, n < s.mem.nodes.length → s1.mem.getId n = s.mem.getId n := by
  induction ops with
  | nil =>
    intro s s1 hinv h
    simp only [State.run, Option.some.injEq] at h
    subst h
    exact ⟨hinv, le_refl _, fun _ _ => rfl⟩
  | cons op ops ih =>
    intro s s1 hinv h
    simp only [State.run] at h
    cases hs : s.step op with
    | none => simp [hs] at h
    | some s2 =>
      simp only [hs] at h
      obtain ⟨h1, h2, h3⟩ := State.idsInOrder_step s s2 op hinv hs
      obtain ⟨h4, h5, h6⟩ := ih s2 s1 h1 h
      exact ⟨h4, le_trans h2 h5, fun n hn => (h6 n (lt_of_lt_of_le hn h2)).trans (h3 n hn)⟩

theorem Mem.lt_length_of_getId (m : Mem) (n a : Nat) (h : m.getId n = some a) :
    n < m.nodes.length := by
  by_contra hn
  simp [Mem.getId, List.getElem?_eq_none (Nat.le_of_not_lt hn)] at h

/-- C12. In a state reached from the empty store in which at most `2 ^ 32`
nodes have been created, the id of a node is its rank in the order of
creation: a node created later has a strictly greater id, the id of the next
node is the previous id plus 1, two distinct nodes have distinct ids; and no
later operation changes the id of a node. -/
theorem node_ids_fresh_and_monotonic (ops : List Op) (s : State)
    (hrun : State.init.run ops = some s) (hfew : s.mem.nodes.length ≤ 2 ^ 32) :
    (∀ i j a b : Nat, i < j → s.mem.getId i = some a → s.mem.getId j = some b → a < b) ∧
    (∀ i a b : Nat, s.mem.getId i = some a → s.mem.getId (i + 1) = some b → b = a + 1) ∧
    (∀ i j a : Nat, i ≠ j → s.mem.getId i = some a → s.mem.getId j ≠ some a) ∧
    (∀ later s1, s.run later = some s1 →
      ∀ n, n < s.mem.nodes.length → s1.mem.getId n = s.mem.getId n) := by
  have hinit : State.init.mem.IdsInOrder := by
    constructor
    · rfl
    · intro i hi
      simp [State.init, Mem.empty] at hi
  obtain ⟨hinv, _, _⟩ := State.idsInOrder_run ops State.init s hinit hrun
  have hid : ∀ i a, s.mem.getId i = some a → i < s.mem.nodes.length ∧ a = i := by
    intro i a h
    have hi := Mem.lt_length_of_getId s.mem i a h
    rw [hinv.2 i hi, Nat.mod_eq_of_lt (by omega)] at h
    simp only [Option.some.injEq] at h
    exact ⟨hi, h.symm⟩
  refine ⟨?_, ?_, ?_, ?_⟩
  · intro i j a b hij ha hb
    have h1 := (hid i a ha).2
    have h2 := (hid j b hb).2
    omega
  · intro i a b ha hb
    have h1 := (hid i a ha).2
    have h2 := (hid (i + 1) b hb).2
    omega
  · intro i j a hij ha hb
    have h1 := (hid i a ha).2
    have h2 := (hid j a hb).2
    omega
  · intro later s1 hlater
    exact (State.idsInOrder_run later s s1 hinv hlater).2.2

/-- Witness of C12: the state that `sampleOps` builds. -/
theorem node_ids_fresh_and_monotonic_witness :
    State.init.run sampleOps = some sampleState ∧ sampleState.mem.nodes.length ≤ 2 ^ 32 ∧
    (∀ i j a b : Nat, i < j → sampleState.mem.getId i = some a → sampleState.mem.getId j = some b →
      a < b) ∧
    (∀ i a b : Nat, sampleState.mem.getId i = some a → sampleState.mem.getId (i + 1) = some b →
      b = a + 1) ∧
    (∀ i j a : Nat, i ≠ j → sampleState.mem.getId i = some a → sampleState.mem.getId j ≠ some a) ∧
    (∀ later s1, sampleState.run later = some s1 →
      ∀ n, n < sampleState.mem.nodes.length → s1.mem.getId n = sampleState.mem.getId n) :=
  ⟨by decide, by decide,
   node_ids_fresh_and_monotonic sampleOps sampleState (by decide) (by decide)⟩

/-! ## The store: node list, singletons, module -/

/-- C13. Every operation leaves the node list of the store as a leading part
of the node list afterwards, and `insertNode(n)` turns the list `L` into `L`
followed by `n`. -/
theorem node_list_only_grows (s s1 : State) (op : Op) (hstep : s.step op = some s1) :
    (∃ t, s1.graph.nodes = s.graph.nodes ++ t) ∧
    (∀ node, op = Op.insertNode node → s1.graph.nodes = s.graph.nodes ++ [node]) ∧
    (∀ node, (s.graph.insertNode node).nodes = s.graph.nodes ++ [node]) := by
  refine ⟨?_, ?_, fun _ => rfl⟩
  · cases op with
    | newNode t =>
      simp only [State.step, Option.some.injEq] at hstep
      subst hstep
      exact ⟨[], by simp⟩
    | insertNode node =>
      simp only [State.step] at hstep
      split_ifs at hstep
      simp only [Option.some.injEq] at hstep
      subst hstep
      exact ⟨[node], rfl⟩
    | newEdge src dest t =>
      simp only [State.step] at hstep
      cases hr : s.mem.newEdge src dest t with
      | none => simp [hr] at hstep
      | some r =>
        simp only [hr, Option.some.injEq] at hstep
        subst hstep
        exact ⟨[], by simp⟩
    | getTrap =>
      simp only [State.step, Option.some.injEq] at hstep
      subst hstep
      unfold State.getTrap
      cases s.graph.trap with
      | none => exact ⟨[some s.mem.nodes.length], rfl⟩
      | some t => exact ⟨[], by simp⟩
    | getStart =>
      simp only [State.step, Option.some.injEq] at hstep
      subst hstep
      unfold State.getStart
      cases s.graph.start with
      | none => exact ⟨[some s.mem.nodes.length], rfl⟩
      | some t => exact ⟨[], by simp⟩
    | setModule module =>
      simp only [State.step] at hstep
      split_ifs at hstep
      cases module with
      | none => simp [State.setModule] at hstep
      | some r =>
        simp only [State.setModule, Option.some.injEq] at hstep
        subst hstep
        exact ⟨[], by simp⟩
    | getModule =>
      simp only [State.step] at hstep
      cases hm : s.getModule with
      | none => simp [hm] at hstep
      | some r =>
        simp only [hm, Option.some.injEq] at hstep
        subst hstep
        exact ⟨[], by simp⟩
  · intro node hop
    subst hop
    simp only [State.step] at hstep
    split_ifs at hstep
    simp only [Option.some.injEq] at hstep
    subst hstep
    rfl

/-- Witness of C13: the Trap singleton is requested in the sample state. -/
theorem node_list_only_grows_witness :
    sampleState.step Op.getTrap = some sampleState.getTrap.1 ∧
    (∃ t, sampleState.getTrap.1.graph.nodes = sampleState.graph.nodes ++ t) ∧
    (∀ node, Op.getTrap = Op.insertNode node →
      sampleState.getTrap.1.graph.nodes = sampleState.graph.nodes ++ [node]) ∧
    (∀ node, (sampleState.graph.insertNode node).nodes = sampleState.graph.nodes ++ [node]) :=
  ⟨by decide, node_list_only_grows sampleState sampleState.getTrap.1 Op.getTrap (by decide)⟩

theorem State.singletons_step (s s1 : State) (op : Op) (h : s.step op = some s1) :
    (∀ t, s.graph.trap = some t → s1.graph.trap = some t) ∧
    (∀ t, s.graph.start = some t → s1.graph.start = some t) := by
  cases op with
  | newNode t =>
    simp only [State.step, Option.some.injEq] at h
    subst h
    exact ⟨fun _ h => h, fun _ h => h⟩
  | insertNode node =>
    simp only [State.step] at h
    split_ifs at h
    simp only [Option.some.injEq] at h
    subst h
    exact ⟨fun _ h => h, fun _ h => h⟩
  | newEdge src dest t =>
    simp only [State.step] at h
    cases hr : s.mem.newEdge src dest t with
    | none => simp [hr] at h
    | some r =>
      simp only [hr, Option.some.injEq] at h
      subst h
      exact ⟨fun _ h => h, fun _ h => h⟩
  | getTrap =>
    simp only [State.step, Option.some.injEq] at h
    subst h
    unfold State.getTrap
    cases ht : s.graph.trap with
    | none => exact ⟨fun _ h => by simp at h, fun _ h => h⟩
    | some t => exact ⟨fun _ h => by rw [ht]; exact h, fun _ h => h⟩
  | getStart =>
    simp only [State.step, Option.some.injEq] at h
    subst h
    unfold State.getStart
    cases ht : s.graph.start with
    | none => exact ⟨fun _ h => h, fun _ h => by simp at h⟩
    | some t => exact ⟨fun _ h => h, fun _ h => by rw [ht]; exact h⟩
  | setModule module =>
    simp only [State.step] at h
    split_ifs at h
    cases module with
    | none => simp [State.setModule] at h
    | some r =>
      simp only [State.setModule, Option.some.injEq] at h
      subst h
      exact ⟨fun _ h => h, fun _ h => h⟩
  | getModule =>
    simp only [State.step] at h
    cases hm : s.getModule with
    | none => simp [hm] at h
    | some r =>
      simp only [hm, Option.some.injEq] at h
      subst h
      exact ⟨fun _ h => h, fun _ h => h⟩

theorem State.singletons_run (ops : List Op) : ∀ (s s1 : State), s.run ops = some s1 →
    (∀ t, s.graph.trap = some t → s1.graph.trap = some t) ∧
    (∀ t, s.graph.start = some t → s1.graph.start = some t) := by
  induction ops with
  | nil =>
    intro s s1 h
    simp only [State.run, Option.some.injEq] at h
    subst h
    exact ⟨fun _ h => h, fun _ h => h⟩
  | cons op ops ih =>
    intro s s1 h
    simp only [State.run] at h
    cases hs : s.step op with
    | none => simp [hs] at h
    | some s2 =>
      simp only [hs] at h
      have h1 := State.singletons_step s s2 op hs
      have h2 := ih s2 s1 h
      exact ⟨fun t ht => h2.1 t (h1.1 t ht), fun t ht => h2.2 t (h1.2 t ht)⟩

theorem State.getTrap_of_some (s : State) (t : NodeRef) (h : s.graph.trap = some t) :
    s.getTrap = (s, some t) := by
  simp [State.getTrap, h]

theorem State.getStart_of_some (s : State) (t : NodeRef) (h : s.graph.start = some t) :
    s.getStart = (s, some t) := by
  simp [State.getStart, h]

/-- C14. On a store without a Trap, `getTrap` creates one node of kind Trap,
appends it to the node list and returns it, and leaves the Start singleton
as it is; every later `getTrap` returns the same node and changes nothing.
The same holds for `getStart`, with the kinds exchanged. -/
theorem trap_and_start_are_singletons (s : State) :
    (s.graph.trap = none →
      ∃ t, s.getTrap.2 = some t ∧
        s.getTrap.1.graph.nodes = s.graph.nodes ++ [some t] ∧
        s.getTrap.1.mem.nodes = s.mem.nodes ++
          [{ id := s.mem.idCount, type := NodeType.Trap, inEdges := [], outEdges := [] }] ∧
        s.getTrap.1.mem.nodeType t = some NodeType.Trap ∧
        s.getTrap.1.graph.start = s.graph.start ∧
        ∀ later s2, s.getTrap.1.run later = some s2 → s2.getTrap = (s2, some t)) ∧
    (s.graph.start = none →
      ∃ t, s.getStart.2 = some t ∧
        s.getStart.1.graph.nodes = s.graph.nodes ++ [some t] ∧
        s.getStart.1.mem.nodes = s.mem.nodes ++
          [{ id := s.mem.idCount, type := NodeType.Start, inEdges := [], outEdges := [] }] ∧
        s.getStart.1.mem.nodeType t = some NodeType.Start ∧
        s.getStart.1.graph.trap = s.graph.trap ∧
        ∀ later s2, s.getStart.1.run later = some s2 → s2.getStart = (s2, some t)) := by
  constructor
  · intro h
    refine ⟨s.mem.nodes.length, ?_, ?_, ?_, ?_, ?_, ?_⟩
    · simp [State.getTrap, h, Mem.newNode]
    · simp [State.getTrap, h, Mem.newNode, Graph.insertNode]
    · simp [State.getTrap, h, Mem.newNode]
    · simp [State.getTrap, h, Mem.newNode, Mem.nodeType]
    · simp [State.getTrap, h, Graph.insertNode]
    · intro later s2 hrun
      apply State.getTrap_of_some
      refine (State.singletons_run later _ s2 hrun).1 _ ?_
      simp [State.getTrap, h, Mem.newNode, Graph.insertNode]
  · intro h
    refine ⟨s.mem.nodes.length, ?_, ?_, ?_, ?_, ?_, ?_⟩
    · simp [State.getStart, h, Mem.newNode]
    · simp [State.getStart, h, Mem.newNode, Graph.insertNode]
    · simp [State.getStart, h, Mem.newNode]
    · simp [State.getStart, h, Mem.newNode, Mem.nodeType]
    · simp [State.getStart, h, Graph.insertNode]
    · intro later s2 hrun
      apply State.getStart_of_some
      refine (State.singletons_run later _ s2 hrun).2 _ ?_
      simp [State.getStart, h, Mem.newNode, Graph.insertNode]

/-- Witness of C14: in the sample state neither singleton exists yet, and
the first `getTrap` returns the new node 4. -/
theorem trap_and_start_are_singletons_witness :
    sampleState.graph.trap = none ∧ sampleState.graph.start = none ∧
    sampleState.getTrap.2 = some 4 ∧
    (sampleState.graph.trap = none →
      ∃ t, sampleState.getTrap.2 = some t ∧
        sampleState.getTrap.1.graph.nodes = sampleState.graph.nodes ++ [some t] ∧
        sampleState.getTrap.1.mem.nodes = sampleState.mem.nodes ++
          [{ id := sampleState.mem.idCount, type := NodeType.Trap, inEdges := [],
             outEdges := [] }] ∧
        sampleState.getTrap.1.mem.nodeType t = some NodeType.Trap ∧
        sampleState.getTrap.1.graph.start = sampleState.graph.start ∧
        ∀ later s2, sampleState.getTrap.1.run later = some s2 → s2.getTrap = (s2, some t)) :=
  ⟨by decide, by decide, by decide, (trap_and_start_are_singletons sampleState).1⟩

/-- C15. The Module lookup fails when no Module is registered; after
`setModule(m)` with a non-null `m` it returns `m`; `setModule` with a null
argument is rejected; `Query::module` fails when no graph is bound or no
Module is registered, and otherwise returns the set whose one element is the
registered Module. -/
theorem module_lookup (s : State) (g : Graph) (r : NodeRef) :
    (s.graph.module = none → s.getModule = none ∧ s.step Op.getModule = none) ∧
    (∃ s1, s.setModule (some r) = some s1 ∧ s1.getModule = some r ∧
      s1.mem = s.mem ∧ s1.graph.nodes = s.graph.nodes) ∧
    s.setModule none = none ∧
    Query.module none = none ∧
    (g.module = none → Query.module (some g) = none) ∧
    (g.module = some r → Query.module (some g) = some [r]) := by
  refine ⟨?_, ?_, rfl, rfl, ?_, ?_⟩
  · intro h
    simp [State.getModule, State.step, h]
  · exact ⟨_, rfl, rfl, rfl, rfl⟩
  · intro h
    simp [Query.module, Graph.getModule, h]
  · intro h
    simp [Query.module, Graph.getModule, h]

/-- Witness of C15: the sample state has no Module, the example module store
has node 0 registered. -/
theorem module_lookup_witness :
    sampleState.graph.module = none ∧ moduleGraph.module = some 0 ∧
    sampleState.getModule = none ∧
    Query.module (some moduleGraph) = some [0] :=
  ⟨by decide, by decide,
   ((module_lookup sampleState moduleGraph 0).1 (by decide)).1,
   (module_lookup sampleState moduleGraph 0).2.2.2.2.2 (by decide)⟩

/-- C16. The lookup `getInEdge(i, k)` succeeds exactly when `i` is less than
the number of in-edges of kind `k`, and then returns the element at position
`i` of the in-edges of kind `k` in insertion order, edges of other kinds left
out; for every other `i` it fails. -/
theorem getInEdge_positional (m : Mem) (n : NodeRef) (i : Nat) (k : EdgeType) :
    ((m.getInEdge n i k).isSome = true ↔
      i < ((m.inEdges n).filter (fun e => m.edgeType e == some k)).length) ∧
    m.getInEdge n i k = ((m.inEdges n).filter (fun e => m.edgeType e == some k))[i]? ∧
    (((m.inEdges n).filter (fun e => m.edgeType e == some k)).length ≤ i →
      m.getInEdge n i k = none) := by
  have key : m.getInEdge n i k
      = ((m.inEdges n).filter (fun e => m.edgeType e == some k))[i]? := by
    unfold Mem.getInEdge Mem.inEdgesOfType
    by_cases h : i < ((m.inEdges n).filter (fun e => m.edgeType e == some k)).length
    · simp only [h, if_true, List.getD_eq_getElem?_getD]
      rw [List.getElem?_eq_getElem h]
      simp
    · simp only [h, if_false]
      rw [List.getElem?_eq_none (Nat.le_of_not_lt h)]
  refine ⟨?_, key, ?_⟩
  · rw [key]
    constructor
    · intro h
      by_contra hlt
      rw [List.getElem?_eq_none (Nat.le_of_not_lt hlt)] at h
      simp at h
    · intro h
      rw [List.getElem?_eq_getElem h]
      rfl
  · intro h
    rw [key]
    exact List.getElem?_eq_none h

/-! ## The convenience traversals -/

theorem Query.BFS_sorted (m : Mem) (nodes : NodeSet) (pred : NodeCondition)
    (ec : EdgeCondition) (limit : Nat) (reverse : Bool) (r : NodeSet)
    (h : Query.BFS m nodes pred ec limit reverse = some r) : r.Sorted (· < ·) := by
  rcases Query.BFS_cases m nodes pred ec limit reverse r h with ⟨_, rfl⟩ | ⟨_, fuel, hr⟩
  · exact List.sorted_nil
  · refine Query.bfsLoop_inv m pred ec limit reverse (fun _ _ r => r.Sorted (· < ·))
      (fun r => r.Sorted (· < ·)) ?_ ?_ ?_ fuel _ [] [] r List.sorted_nil hr
    · intro v r h; exact h
    · intro node q v r h _; exact h
    · intro node q v r h _
      have hs : (if pred node = true then setInsert node r else r).Sorted (· < ·) := by
        split_ifs
        · exact sorted_setInsert node r h
        · exact h
      exact ⟨fun _ => hs, fun _ => hs⟩

/-- BFS on a well-formed graph with a limit above the number of nodes: the
set returned and its elements. -/
theorem Query.BFS_mem_iff (m : Mem) (hwf : m.wf) (seeds : NodeSet) (pred : NodeCondition)
    (ec : EdgeCondition) (limit : Nat) (reverse : Bool) (hlim : m.nodes.length < limit) :
    ∃ r, Query.BFS m seeds pred ec limit reverse = some r ∧ r.Sorted (· < ·) ∧
      ∀ n, n ∈ r ↔
        (pred n = true ∧ ∃ s ∈ seeds, Relation.TransGen (m.Follows ec reverse) s n) := by
  obtain ⟨r, hr⟩ := Query.BFS_total m seeds pred ec limit reverse
  refine ⟨r, hr, Query.BFS_sorted m seeds pred ec limit reverse r hr, fun n => ⟨?_, ?_⟩⟩
  · intro hn
    obtain ⟨hp, s, hs, hpath⟩ := Query.BFS_sound m seeds pred ec limit reverse r hr n hn
    exact ⟨hp, s, hs, (Mem.transGen_step_iff m hwf ec reverse s n).mp hpath⟩
  · rintro ⟨hp, s, hs, hpath⟩
    refine Query.BFS_complete m seeds pred ec limit reverse r ?_ hlim hr n hp
      ⟨s, hs, (Mem.transGen_step_iff m hwf ec reverse s n).mpr hpath⟩
    intro u v huv
    exact Mem.follows_lt m hwf ec reverse u v ((Mem.step_iff_follows m hwf ec reverse u v).mp huv)

theorem Query.mem_children_single (m : Mem) (u x : NodeRef) (ec : EdgeCondition) :
    x ∈ Query.children m [u] ec ↔ m.Step ec false u x := by
  simp [Query.mem_children, Mem.Step]

/-- On a well-formed graph the AST children that the queries read from the
adjacency vector are the destinations of the AST edges of the node. -/
theorem Query.mem_children_ast (m : Mem) (hwf : m.wf) (u x : NodeRef) :
    x ∈ Query.children m [u] (Query.AST_EDGES m) ↔ m.AstChild u x := by
  rw [Query.mem_children_single, Mem.step_iff_follows m hwf]
  rfl

theorem Mem.astChild_iff_mem_outEdgesOfType (m : Mem) (hwf : m.wf) (u x : NodeRef) :
    m.AstChild u x ↔ x ∈ (m.outEdgesOfType u EdgeType.AST).map m.dest := by
  rw [← Query.mem_children_ast m hwf, Query.mem_children_single]
  simp only [Mem.Step, Bool.false_eq_true, if_false, Mem.outEdgesOfType, List.mem_map,
    List.mem_filter, Query.AST_EDGES]
  constructor
  · rintro ⟨e, he, hc, hd⟩; exact ⟨e, ⟨he, hc⟩, hd⟩
  · rintro ⟨e, ⟨he, hc⟩, hd⟩; exact ⟨e, he, hc, hd⟩

/-- C20. With a Module registered, `functions(pred)` returns a set, and a
node is in it exactly when it satisfies `pred` and is the destination of an
AST edge whose source is the Module; every such node is returned under the
always-true condition, and a node without an AST edge from the Module is not
returned. -/
theorem functions_are_ast_children_of_module (g : Graph) (m : Mem) (hwf : m.wf)
    (pred : NodeCondition) (mod : NodeRef) (hmod : g.module = some mod) :
    (∃ r, Query.functions (some g) m pred = some r ∧
      (∀ x, x ∈ r ↔ (m.AstChild mod x ∧ pred x = true)) ∧
      (∀ x, ¬ m.AstChild mod x → x ∉ r)) ∧
    (∃ r, Query.functions (some g) m Query.ALL_NODES = some r ∧
      ∀ f, m.AstChild mod f → f ∈ r) := by
  have hfun : ∀ p : NodeCondition, Query.functions (some g) m p
      = some (Query.filter (Query.children m [mod] (Query.AST_EDGES m)) p) := by
    intro p
    simp [Query.functions, Query.module, Graph.getModule, hmod]
  constructor
  · refine ⟨_, hfun pred, ?_, ?_⟩
    · intro x
      rw [Query.mem_filter, Query.mem_children_ast m hwf]
    · intro x hx hmem
      rw [Query.mem_filter, Query.mem_children_ast m hwf] at hmem
      exact hx hmem.1
  · refine ⟨_, hfun Query.ALL_NODES, ?_⟩
    intro f hf
    rw [Query.mem_filter, Query.mem_children_ast m hwf]
    exact ⟨hf, rfl⟩

/-- Witness of C20: the example module, whose functions are the nodes 1 and 9. -/
theorem functions_are_ast_children_of_module_witness :
    moduleMem.wf ∧ moduleGraph.module = some 0 ∧
    Query.functions (some moduleGraph) moduleMem Query.ALL_NODES = some [1, 9] ∧
    ((∃ r, Query.functions (some moduleGraph) moduleMem Query.ALL_NODES = some r ∧
      (∀ x, x ∈ r ↔ (moduleMem.AstChild 0 x ∧ Query.ALL_NODES x = true)) ∧
      (∀ x, ¬ moduleMem.AstChild 0 x → x ∉ r)) ∧
    (∃ r, Query.functions (some moduleGraph) moduleMem Query.ALL_NODES = some r ∧
      ∀ f, moduleMem.AstChild 0 f → f ∈ r)) :=
  ⟨by decide, by decide, by decide,
   functions_are_ast_children_of_module moduleGraph moduleMem (by decide) Query.ALL_NODES 0
     (by decide)⟩

theorem length_le_one_of_sorted_unique (l : List Nat) (hs : l.Sorted (· < ·))
    (hu : ∀ a ∈ l, ∀ b ∈ l, a = b) : l.length ≤ 1 := by
  cases l with
  | nil => simp
  | cons a t =>
    cases t with
    | nil => simp
    | cons b t =>
      have h1 : a < b := List.rel_of_sorted_cons hs b (List.mem_cons_self _ _)
      have h2 : a = b :=
        hu a (List.mem_cons_self _ _) b (List.mem_cons_of_mem _ (List.mem_cons_self _ _))
      omega

/-- The Parameters nodes among the AST children of a signature, as
`Query::parameters` computes them. -/
theorem Query.mem_paramsNode (m : Mem) (hwf : m.wf) (sig p : NodeRef) :
    p ∈ Query.filter (Query.children m [sig] (Query.AST_EDGES m))
        (fun n => m.nodeType n == some NodeType.Parameters) ↔
      m.AstChild sig p ∧ m.nodeType p = some NodeType.Parameters := by
  rw [Query.mem_filter, Query.mem_children_ast m hwf]
  simp

theorem Query.parametersLoop_spec (m : Mem) (hwf : m.wf) (nodes : NodeSet) :
    ∀ params : NodeSet,
    (∀ f ∈ nodes, m.nodeType f = some NodeType.Function) →
    (∀ f ∈ nodes, ∃ sig, m.getChild f 0 EdgeType.AST = some sig) →
    (∀ f ∈ nodes, ∀ sig, m.getChild f 0 EdgeType.AST = some sig → ∀ p q,
      m.AstChild sig p → m.nodeType p = some NodeType.Parameters →
      m.AstChild sig q → m.nodeType q = some NodeType.Parameters → p = q) →
    ∃ r, Query.parametersLoop m nodes params = some r ∧
      ∀ x, x ∈ r ↔ x ∈ params ∨ ∃ f ∈ nodes, ∃ sig p,
        m.getChild f 0 EdgeType.AST = some sig ∧ m.AstChild sig p ∧
        m.nodeType p = some NodeType.Parameters ∧ m.AstChild p x := by
  induction nodes with
  | nil =>
    intro params _ _ _
    exact ⟨params, rfl, by simp⟩
  | cons f rest ih =>
    intro params hfun hsig hone
    have hf := hfun f (List.mem_cons_self _ _)
    obtain ⟨sig, hs⟩ := hsig f (List.mem_cons_self _ _)
    have hlen : (Query.filter (Query.children m [sig] (Query.AST_EDGES m))
        (fun n => m.nodeType n == some NodeType.Parameters)).length ≤ 1 := by
      apply length_le_one_of_sorted_unique _ (Query.sorted_filter _ _)
      intro a ha b hb
      rw [Query.mem_paramsNode m hwf] at ha hb
      exact hone f (List.mem_cons_self _ _) sig hs a b ha.1 ha.2 hb.1 hb.2
    have hrest1 : ∀ g ∈ rest, m.nodeType g = some NodeType.Function :=
      fun g hg => hfun g (List.mem_cons_of_mem _ hg)
    have hrest2 : ∀ g ∈ rest, ∃ sig, m.getChild g 0 EdgeType.AST = some sig :=
      fun g hg => hsig g (List.mem_cons_of_mem _ hg)
    have hrest3 : ∀ g ∈ rest, ∀ sig, m.getChild g 0 EdgeType.AST = some sig → ∀ p q,
        m.AstChild sig p → m.nodeType p = some NodeType.Parameters →
        m.AstChild sig q → m.nodeType q = some NodeType.Parameters → p = q :=
      fun g hg => hone g (List.mem_cons_of_mem _ hg)
    have hhere : ∀ x, (∃ p ∈ Query.filter (Query.children m [sig] (Query.AST_EDGES m))
          (fun n => m.nodeType n == some NodeType.Parameters), m.AstChild p x) ↔
        ∃ sig1 p, m.getChild f 0 EdgeType.AST = some sig1 ∧ m.AstChild sig1 p ∧
          m.nodeType p = some NodeType.Parameters ∧ m.AstChild p x := by
      intro x
      constructor
      · rintro ⟨p, hp, hx⟩
        rw [Query.mem_paramsNode m hwf] at hp
        exact ⟨sig, p, hs, hp.1, hp.2, hx⟩
      · rintro ⟨sig1, p, hs1, hp1, hp2, hx⟩
        rw [hs] at hs1
        simp only [Option.some.injEq] at hs1
        subst hs1
        exact ⟨p, (Query.mem_paramsNode m hwf sig p).mpr ⟨hp1, hp2⟩, hx⟩
    simp only [Query.parametersLoop, hf, if_true, hs, hlen]
    by_cases h1 : (Query.filter (Query.children m [sig] (Query.AST_EDGES m))
        (fun n => m.nodeType n == some NodeType.Parameters)).length = 1
    · simp only [h1, beq_self_eq_true, if_true]
      obtain ⟨r, hr, hmem⟩ := ih (setUnion params (Query.children m
        (Query.filter (Query.children m [sig] (Query.AST_EDGES m))
          (fun n => m.nodeType n == some NodeType.Parameters)) (Query.AST_EDGES m)))
        hrest1 hrest2 hrest3
      refine ⟨r, hr, fun x => ?_⟩
      rw [hmem, mem_setUnion]
      have hch : x ∈ Query.children m
          (Query.filter (Query.children m [sig] (Query.AST_EDGES m))
            (fun n => m.nodeType n == some NodeType.Parameters)) (Query.AST_EDGES m) ↔
          ∃ p ∈ Query.filter (Query.children m [sig] (Query.AST_EDGES m))
            (fun n => m.nodeType n == some NodeType.Parameters), m.AstChild p x := by
        rw [Query.mem_children]
        constructor
        · rintro ⟨p, hp, e, he, hc, hd⟩
          exact ⟨p, hp, (Query.mem_children_ast m hwf p x).mp
            ((Query.mem_children_single m p x _).mpr ⟨e, he, hc, hd⟩)⟩
        · rintro ⟨p, hp, hx⟩
          obtain ⟨e, he, hc, hd⟩ := (Query.mem_children_single m p x _).mp
            ((Query.mem_children_ast m hwf p x).mpr hx)
          exact ⟨p, hp, e, he, hc, hd⟩
      rw [hch, hhere]
      simp only [List.mem_cons, exists_eq_or_imp]
      constructor
      · rintro ((h | h) | h)
        · exact Or.inl h
        · exact Or.inr (Or.inl h)
        · exact Or.inr (Or.inr h)
      · rintro (h | h | h)
        · exact Or.inl (Or.inl h)
        · exact Or.inl (Or.inr h)
        · exact Or.inr h
    · have h0 : (Query.filter (Query.children m [sig] (Query.AST_EDGES m))
          (fun n => m.nodeType n == some NodeType.Parameters)) = [] := by
        apply List.eq_nil_of_length_eq_zero
        omega
      have hb : ((Query.filter (Query.children m [sig] (Query.AST_EDGES m))
          (fun n => m.nodeType n == some NodeType.Parameters)).length == 1) = false := by
        simpa using h1
      simp only [hb]
      obtain ⟨r, hr, hmem⟩ := ih params hrest1 hrest2 hrest3
      refine ⟨r, by simpa using hr, fun x => ?_⟩
      rw [hmem]
      have hnone : ¬ ∃ sig1 p, m.getChild f 0 EdgeType.AST = some sig1 ∧ m.AstChild sig1 p ∧
          m.nodeType p = some NodeType.Parameters ∧ m.AstChild p x := by
        rw [← hhere, h0]
        simp
      simp only [List.mem_cons, exists_eq_or_imp]
      constructor
      · rintro (h | h)
        · exact Or.inl h
        · exact Or.inr (Or.inr h)
      · rintro (h | h | h)
        · exact Or.inl h
        · exact absurd h hnone
        · exact Or.inr h

/-- C18. For function nodes that have a first AST child with at most one
Parameters node under it, `parameters(funcs)` returns a set, and a node is in
it exactly when it is an AST child of the Parameters node under the first AST
child of one of the functions; a node none of whose AST parents is a
Parameters node (a local, a result) is not returned. -/
theorem parameters_are_children_of_Parameters (m : Mem) (hwf : m.wf) (funcs : NodeSet)
    (pred : NodeCondition)
    (hfun : ∀ f ∈ funcs, m.nodeType f = some NodeType.Function)
    (hsig : ∀ f ∈ funcs, ∃ sig, m.getChild f 0 EdgeType.AST = some sig)
    (hone : ∀ f ∈ funcs, ∀ sig, m.getChild f 0 EdgeType.AST = some sig → ∀ p q,
      m.AstChild sig p → m.nodeType p = some NodeType.Parameters →
      m.AstChild sig q → m.nodeType q = some NodeType.Parameters → p = q) :
    ∃ r, Query.parameters m funcs pred = some r ∧
      (∀ x, x ∈ r ↔ ∃ f ∈ funcs, ∃ sig p,
        m.getChild f 0 EdgeType.AST = some sig ∧ m.AstChild sig p ∧
        m.nodeType p = some NodeType.Parameters ∧ m.AstChild p x) ∧
      (∀ x, (∀ p, m.AstChild p x → m.nodeType p ≠ some NodeType.Parameters) → x ∉ r) := by
  obtain ⟨r, hr, hmem⟩ := Query.parametersLoop_spec m hwf funcs [] hfun hsig hone
  refine ⟨r, hr, ?_, ?_⟩
  · intro x
    rw [hmem]
    simp
  · intro x hx hxr
    rw [hmem] at hxr
    rcases hxr with h | ⟨f, _, sig, p, _, _, hp, hpx⟩
    · simp at h
    · exact hx p hpx hp

theorem Mem.lt_length_of_nodeType (m : Mem) (n : Nat) (t : NodeType)
    (h : m.nodeType n = some t) : n < m.nodes.length := by
  by_contra hn
  simp [Mem.nodeType, List.getElem?_eq_none (Nat.le_of_not_lt hn)] at h

theorem moduleMem_first_child (f : Nat) (hf : f ∈ [1, 9]) :
    ∃ sig, moduleMem.getChild f 0 EdgeType.AST = some sig := by
  simp only [List.mem_cons, List.mem_singleton, List.not_mem_nil, or_false] at hf
  rcases hf with rfl | rfl
  · exact ⟨2, by decide⟩
  · exact ⟨10, by decide⟩

theorem moduleMem_one_Parameters (p q : Nat)
    (hp : moduleMem.nodeType p = some NodeType.Parameters)
    (hq : moduleMem.nodeType q = some NodeType.Parameters) : p = q := by
  have key : ∀ n : Nat, n < 12 → moduleMem.nodeType n = some NodeType.Parameters → n = 4 := by
    decide
  have h1 := key p (Mem.lt_length_of_nodeType moduleMem p _ hp) hp
  have h2 := key q (Mem.lt_length_of_nodeType moduleMem q _ hq) hq
  omega

/-- Witness of C18: the example module; the parameter is node 5, the local
(node 7) is not returned. -/
theorem parameters_are_children_of_Parameters_witness :
    moduleMem.wf ∧
    Query.parameters moduleMem [1, 9] Query.ALL_NODES = some [5] ∧
    ∃ r, Query.parameters moduleMem [1, 9] Query.ALL_NODES = some r ∧
      (∀ x, x ∈ r ↔ ∃ f ∈ [1, 9], ∃ sig p,
        moduleMem.getChild f 0 EdgeType.AST = some sig ∧ moduleMem.AstChild sig p ∧
        moduleMem.nodeType p = some NodeType.Parameters ∧ moduleMem.AstChild p x) ∧
      (∀ x, (∀ p, moduleMem.AstChild p x → moduleMem.nodeType p ≠ some NodeType.Parameters) →
        x ∉ r) :=
  ⟨by decide, by decide,
   parameters_are_children_of_Parameters moduleMem (by decide) [1, 9] Query.ALL_NODES
     (by decide) moduleMem_first_child
     (fun _ _ _ _ p q _ hp _ hq => moduleMem_one_Parameters p q hp hq)⟩

/-- C19 fails on the code: `parameters` never evaluates its node condition.
With the condition that rejects every node it still returns the parameter
(node 5) of the example module. -/
theorem parameters_ignores_condition :
    Query.parameters moduleMem [1, 9] (fun _ => false) = some [5] ∧
    (fun _ => false : NodeCondition) 5 = false ∧
    ∀ (m : Mem) (funcs : NodeSet) (p q : NodeCondition),
      Query.parameters m funcs p = Query.parameters m funcs q :=
  ⟨by decide, rfl, fun _ _ _ _ => rfl⟩

theorem Mem.isImport_of_function (m : Mem) (f : NodeRef)
    (h : m.nodeType f = some NodeType.Function) : ∃ b, m.isImport f = some b := by
  unfold Mem.nodeType at h
  unfold Mem.isImport
  cases hx : m.nodes[f]? with
  | none => simp [hx] at h
  | some x =>
    simp only [hx, Option.some.injEq] at h
    exact ⟨x.isImport, by simp [h]⟩

/-- The second AST child, read off the list of the AST children. -/
theorem Mem.getChild_one_of_children (m : Mem) (f sig insts : NodeRef)
    (h : (m.outEdgesOfType f EdgeType.AST).map m.dest = [sig, insts]) :
    m.getChild f 1 EdgeType.AST = some insts := by
  unfold Mem.getChild Mem.getOutEdge
  cases hl : m.outEdgesOfType f EdgeType.AST with
  | nil => simp [hl] at h
  | cons e0 t =>
    cases t with
    | nil => simp [hl] at h
    | cons e1 t =>
      simp only [hl, List.map_cons, List.cons.injEq] at h
      simp [h.2.1]

theorem Query.funcInstsNode_spec (m : Mem) (nodes : NodeSet) :
    ∀ acc : NodeSet,
    (∀ f ∈ nodes, m.nodeType f = some NodeType.Function) →
    (∀ f ∈ nodes, ∃ c, m.getChild f 1 EdgeType.AST = some c) →
    ∃ seeds, Query.funcInstsNode m nodes acc = some seeds ∧
      ∀ c, c ∈ seeds ↔ c ∈ acc ∨
        ∃ f ∈ nodes, m.isImport f = some false ∧ m.getChild f 1 EdgeType.AST = some c := by
  induction nodes with
  | nil =>
    intro acc _ _
    exact ⟨acc, rfl, by simp⟩
  | cons f rest ih =>
    intro acc hfun hkid
    have hf := hfun f (List.mem_cons_self _ _)
    obtain ⟨c0, hc0⟩ := hkid f (List.mem_cons_self _ _)
    obtain ⟨b, hb⟩ := Mem.isImport_of_function m f hf
    have hrest1 : ∀ g ∈ rest, m.nodeType g = some NodeType.Function :=
      fun g hg => hfun g (List.mem_cons_of_mem _ hg)
    have hrest2 : ∀ g ∈ rest, ∃ c, m.getChild g 1 EdgeType.AST = some c :=
      fun g hg => hkid g (List.mem_cons_of_mem _ hg)
    cases b with
    | true =>
      obtain ⟨seeds, hs, hmem⟩ := ih acc hrest1 hrest2
      refine ⟨seeds, by simp only [Query.funcInstsNode, hf, if_true, hb, hs], fun c => ?_⟩
      rw [hmem]
      simp only [List.mem_cons, exists_eq_or_imp, hb, Option.some.injEq, Bool.true_eq_false,
        false_and, false_or]
    | false =>
      obtain ⟨seeds, hs, hmem⟩ := ih (setInsert c0 acc) hrest1 hrest2
      refine ⟨seeds, by simp only [Query.funcInstsNode, hf, if_true, hb, hc0, hs], fun c => ?_⟩
      rw [hmem, mem_setInsert]
      simp only [List.mem_cons, exists_eq_or_imp, hb, hc0, Option.some.injEq, true_and]
      constructor
      · rintro ((h | h) | h)
        · exact Or.inr (Or.inl h.symm)
        · exact Or.inl h
        · exact Or.inr (Or.inr h)
      · rintro (h | h | h)
        · exact Or.inl (Or.inr h)
        · exact Or.inl (Or.inl h.symm)
        · exact Or.inr h

/-- C17. On a well-formed graph, for function nodes whose AST children are,
in order, a FunctionSignature and an Instructions container, with no
Instruction node below a FunctionSignature or below an imported function,
and with a default limit above the number of nodes:
`BFS(funcs, is_instruction, AST_EDGES)` and `instructions(funcs)` return the
same set. -/
theorem instructions_equals_BFS_from_functions (m : Mem) (hwf : m.wf) (funcs : NodeSet)
    (limit : Nat) (hlim : m.nodes.length < limit)
    (hfun : ∀ f ∈ funcs, m.nodeType f = some NodeType.Function)
    (hkids : ∀ f ∈ funcs, ∃ sig insts,
      (m.outEdgesOfType f EdgeType.AST).map m.dest = [sig, insts] ∧
      m.nodeType sig = some NodeType.FunctionSignature ∧
      m.nodeType insts = some NodeType.Instructions)
    (hsig : ∀ s x, m.nodeType s = some NodeType.FunctionSignature →
      Relation.TransGen m.AstChild s x → m.nodeType x ≠ some NodeType.Instruction)
    (himp : ∀ f x, m.isImport f = some true →
      Relation.TransGen m.AstChild f x → m.nodeType x ≠ some NodeType.Instruction) :
    ∃ r, Query.BFS m funcs (Query.ALL_INSTS m) (Query.AST_EDGES m) limit false = some r ∧
      Query.instructions m funcs Query.ALL_NODES limit = some r := by
  have hrel : m.AstChild = m.Follows (Query.AST_EDGES m) false := rfl
  obtain ⟨r1, hr1, hs1, hm1⟩ := Query.BFS_mem_iff m hwf funcs (Query.ALL_INSTS m)
    (Query.AST_EDGES m) limit false hlim
  have hkid1 : ∀ f ∈ funcs, ∃ c, m.getChild f 1 EdgeType.AST = some c := by
    intro f hf
    obtain ⟨sig, insts, hk, _, _⟩ := hkids f hf
    exact ⟨insts, Mem.getChild_one_of_children m f sig insts hk⟩
  obtain ⟨seeds, hseeds, hmseeds⟩ := Query.funcInstsNode_spec m funcs [] hfun hkid1
  obtain ⟨r2, hr2, hs2, hm2⟩ := Query.BFS_mem_iff m hwf seeds
    (fun node => m.nodeType node == some NodeType.Instruction && Query.ALL_NODES node)
    (Query.AST_EDGES m) limit false hlim
  have heq : r1 = r2 := by
    apply sorted_ext r1 r2 hs1 hs2
    intro x
    rw [hm1, hm2, ← hrel]
    simp only [Query.ALL_INSTS, Query.ALL_NODES, Bool.and_true, beq_iff_eq]
    constructor
    · rintro ⟨hx, f, hf, hpath⟩
      refine ⟨hx, ?_⟩
      obtain ⟨sig, insts, hk, hts, hti⟩ := hkids f hf
      obtain ⟨y, hfy, hyx⟩ := Relation.TransGen.head'_iff.mp hpath
      rw [Mem.astChild_iff_mem_outEdgesOfType m hwf, hk] at hfy
      simp only [List.mem_cons, List.mem_singleton, List.not_mem_nil, or_false] at hfy
      rcases Relation.reflTransGen_iff_eq_or_transGen.mp hyx with hyx | hyx
      · subst hyx
        rcases hfy with rfl | rfl
        · rw [hts] at hx; simp at hx
        · rw [hti] at hx; simp at hx
      · rcases hfy with rfl | rfl
        · exact absurd hx (hsig y x hts hyx)
        · obtain ⟨b, hb⟩ := Mem.isImport_of_function m f (hfun f hf)
          cases b with
          | true => exact absurd hx (himp f x hb hpath)
          | false =>
            refine ⟨y, (hmseeds y).mpr (Or.inr ⟨f, hf, hb, ?_⟩), hyx⟩
            exact Mem.getChild_one_of_children m f sig y hk
    · rintro ⟨hx, c, hc, hpath⟩
      refine ⟨hx, ?_⟩
      rcases (hmseeds c).mp hc with h | ⟨f, hf, _, hch⟩
      · simp at h
      · obtain ⟨sig, insts, hk, _, _⟩ := hkids f hf
        have hci := Mem.getChild_one_of_children m f sig insts hk
        rw [hch] at hci
        simp only [Option.some.injEq] at hci
        subst hci
        have hfc : m.AstChild f c := by
          rw [Mem.astChild_iff_mem_outEdgesOfType m hwf, hk]
          simp
        exact ⟨f, hf, Relation.TransGen.head hfc hpath⟩
  refine ⟨r1, hr1, ?_⟩
  simp only [Query.instructions, hseeds, hr2, heq]

/-- A set of nodes that no AST edge leaves contains everything its members
reach along AST edges. -/
theorem Mem.transGen_astChild_closed (m : Mem) (S : List Nat)
    (hclosed : ∀ e : Nat, e < m.edges.length → m.edgeType e = some EdgeType.AST →
      m.src e ∈ S → m.dest e ∈ S)
    (a x : Nat) (ha : a ∈ S) (h : Relation.TransGen m.AstChild a x) : x ∈ S := by
  induction h with
  | single hst =>
    obtain ⟨e, he, ht, hs, hd⟩ := (Mem.astChild_iff m _ _).mp hst
    rw [← hd]
    exact hclosed e he ht (by rw [hs]; exact ha)
  | tail _ hst ih =>
    obtain ⟨e, he, ht, hs, hd⟩ := (Mem.astChild_iff m _ _).mp hst
    rw [← hd]
    exact hclosed e he ht (by rw [hs]; exact ih)

theorem moduleMem_children (f : Nat) (hf : f ∈ [1, 9]) :
    ∃ sig insts, (moduleMem.outEdgesOfType f EdgeType.AST).map moduleMem.dest = [sig, insts] ∧
      moduleMem.nodeType sig = some NodeType.FunctionSignature ∧
      moduleMem.nodeType insts = some NodeType.Instructions := by
  simp only [List.mem_cons, List.mem_singleton, List.not_mem_nil, or_false] at hf
  rcases hf with rfl | rfl
  · exact ⟨2, 3, by decide, by decide, by decide⟩
  · exact ⟨10, 11, by decide, by decide, by decide⟩

theorem moduleMem_signatures (s x : Nat)
    (hs : moduleMem.nodeType s = some NodeType.FunctionSignature)
    (hpath : Relation.TransGen moduleMem.AstChild s x) :
    moduleMem.nodeType x ≠ some NodeType.Instruction := by
  have key : ∀ n : Nat, n < 12 → moduleMem.nodeType n = some NodeType.FunctionSignature →
      n ∈ [2, 4, 5, 6, 7, 10] := by decide
  have hsS := key s (Mem.lt_length_of_nodeType moduleMem s _ hs) hs
  have hxS := Mem.transGen_astChild_closed moduleMem [2, 4, 5, 6, 7, 10] (by decide) s x hsS hpath
  have hno : ∀ n ∈ [2, 4, 5, 6, 7, 10], moduleMem.nodeType n ≠ some NodeType.Instruction := by
    decide
  exact hno x hxS

theorem Mem.lt_length_of_isImport (m : Mem) (n : Nat) (b : Bool)
    (h : m.isImport n = some b) : n < m.nodes.length := by
  by_contra hn
  simp [Mem.isImport, List.getElem?_eq_none (Nat.le_of_not_lt hn)] at h

theorem moduleMem_imports (f x : Nat) (hf : moduleMem.isImport f = some true)
    (hpath : Relation.TransGen moduleMem.AstChild f x) :
    moduleMem.nodeType x ≠ some NodeType.Instruction := by
  have key : ∀ n : Nat, n < 12 → moduleMem.isImport n = some true → n ∈ [9, 10, 11] := by
    decide
  have hfS := key f (Mem.lt_length_of_isImport moduleMem f _ hf) hf
  have hxS := Mem.transGen_astChild_closed moduleMem [9, 10, 11] (by decide) f x hfS hpath
  have hno : ∀ n ∈ [9, 10, 11], moduleMem.nodeType n ≠ some NodeType.Instruction := by
    decide
  exact hno x hxS

/-- Witness of C17: the example module and its two functions, the nodes 1 and
9, with limit 100; both queries return the `nop`, node 8. -/
theorem instructions_equals_BFS_from_functions_witness :
    moduleMem.wf ∧ moduleMem.nodes.length < 100 ∧
    Query.functions (some moduleGraph) moduleMem Query.ALL_NODES = some [1, 9] ∧
    Query.instructions moduleMem [1, 9] Query.ALL_NODES 100 = some [8] ∧
    ∃ r, Query.BFS moduleMem [1, 9] (Query.ALL_INSTS moduleMem) (Query.AST_EDGES moduleMem)
        100 false = some r ∧
      Query.instructions moduleMem [1, 9] Query.ALL_NODES 100 = some r :=
  ⟨by decide, by decide, by decide, by decide,
   instructions_equals_BFS_from_functions moduleMem (by decide) [1, 9] 100 (by decide)
     (by decide) moduleMem_children moduleMem_signatures moduleMem_imports⟩

/-! ## The node classes -/

/-- C21, as stated, fails: a BeginBlock node has no result count; its
`nresults()` is the `assert(false)` inherited from `Node`. -/
theorem beginBlock_has_no_result_count :
    (BeginBlockInst.ofLabel "L" (some 0) {}).nresults = none ∧
    (BeginBlockInst.ofExpr { loc := {}, varName := "L" } (some 0)).nresults = none :=
  ⟨rfl, rfl⟩

/-- C21, amended. A Block and a Loop node return the label and the result
count they were constructed with; a BeginBlock node returns the label and
the Block it was constructed with, and its `nresults()` fails. -/
theorem block_loop_beginBlock_accessors (expr : BlockExprBase) (blk : Block) (e : ExprType)
    (v : VarExpr) (label : String) (block : Option NodeRef) (loc : Location) :
    (BlockInst.ofExpr expr).label = some expr.block.label ∧
    (BlockInst.ofExpr expr).nresults = some expr.block.decl.GetNumResults ∧
    (LoopInst.ofExpr expr).label = some expr.block.label ∧
    (LoopInst.ofExpr expr).nresults = some expr.block.decl.GetNumResults ∧
    (BlockBase.ofBlock e blk).label = some blk.label ∧
    (BlockBase.ofBlock e blk).nresults = some blk.decl.GetNumResults ∧
    (BeginBlockInst.ofExpr v block).label = some v.varName ∧
    (BeginBlockInst.ofExpr v block).block = some block ∧
    (BeginBlockInst.ofExpr v block).nresults = none ∧
    (BeginBlockInst.ofLabel label block loc).label = some label ∧
    (BeginBlockInst.ofLabel label block loc).block = some block ∧
    (BeginBlockInst.ofLabel label block loc).nresults = none :=
  ⟨rfl, rfl, rfl, rfl, rfl, rfl, rfl, rfl, rfl, rfl, rfl, rfl⟩

/-- C22. The If node built from an if expression has `hasElse` false when
the false branch of the expression is empty and true otherwise, and its
result count is the number of results that the true branch declares. -/
theorem ifInst_flags (expr : IfExpr) :
    (expr.false_ = [] → (IfInst.ofExpr expr).hasElse = some false) ∧
    (expr.false_ ≠ [] → (IfInst.ofExpr expr).hasElse = some true) ∧
    (IfInst.ofExpr expr).nresults = some expr.true_.decl.resultTypes.length := by
  refine ⟨?_, ?_, rfl⟩
  · intro h
    simp [IfInst.ofExpr, NodeClass.hasElse, h]
  · intro h
    cases hf : expr.false_ with
    | nil => exact absurd hf h
    | cons a t => simp [IfInst.ofExpr, NodeClass.hasElse, hf]

/-- Witness of C22: an if without else that declares one result, and the
same if with one expression in the else branch. -/
theorem ifInst_flags_witness :
    ifWithoutElse.false_ = [] ∧ ifWithElse.false_ ≠ [] ∧
    (IfInst.ofExpr ifWithoutElse).hasElse = some false ∧
    (IfInst.ofExpr ifWithElse).hasElse = some true ∧
    (IfInst.ofExpr ifWithoutElse).nresults = some 1 :=
  ⟨rfl, by simp [ifWithElse], (ifInst_flags ifWithoutElse).1 rfl,
   (ifInst_flags ifWithElse).2.1 (by simp [ifWithElse]), (ifInst_flags ifWithoutElse).2.2⟩

/-- C29. A BeginBlock node has node kind Instruction and expression kind
Block, however it was constructed; the Block kind test holds for every
BeginBlock node and for every Block node, the Loop kind test for neither. -/
theorem beginBlock_is_tagged_as_block (expr : BlockExprBase) (v : VarExpr) (label : String)
    (block : Option NodeRef) (loc : Location) :
    (BeginBlockInst.ofExpr v block).type = NodeType.Instruction ∧
    (BeginBlockInst.ofExpr v block).instType = some ExprType.Block ∧
    (BeginBlockInst.ofLabel label block loc).type = NodeType.Instruction ∧
    (BeginBlockInst.ofLabel label block loc).instType = some ExprType.Block ∧
    (BeginBlockInst.ofExpr v block).classofInst ExprType.Block = some true ∧
    (BeginBlockInst.ofLabel label block loc).classofInst ExprType.Block = some true ∧
    (BlockInst.ofExpr expr).classofInst ExprType.Block = some true ∧
    (BeginBlockInst.ofExpr v block).classofInst ExprType.Loop = some false ∧
    (BeginBlockInst.ofLabel label block loc).classofInst ExprType.Loop = some false ∧
    (BlockInst.ofExpr expr).classofInst ExprType.Loop = some false :=
  ⟨rfl, rfl, rfl, rfl, rfl, rfl, rfl, rfl, rfl, rfl⟩

/-- With a predicate that never fails, the loop with a fallible predicate
is the loop of BFS. -/
theorem Query.bfsLoopEval_of_total (m : Mem) (pred : NodeCondition) (ec : EdgeCondition)
    (limit : Nat) (reverse : Bool) :
    ∀ fuel q v r, Query.bfsLoopEval m (fun n => some (pred n)) ec limit reverse fuel q v r =
      match Query.bfsLoop m pred ec limit reverse fuel q v r with
      | some out => Outcome.done out
      | none => Outcome.outOfFuel := by
  intro fuel
  induction fuel with
  | zero => intro q v r; rfl
  | succ fuel ih =>
    intro q v r
    cases q with
    | nil => rfl
    | cons node q =>
      simp only [Query.bfsLoopEval, Query.bfsLoop]
      split_ifs <;> first | rfl | exact ih _ _ _

theorem Query.BFSeval_of_total (m : Mem) (nodes : NodeSet) (pred : NodeCondition)
    (ec : EdgeCondition) (limit : Nat) (reverse : Bool) :
    Query.BFSeval m nodes (fun n => some (pred n)) ec limit reverse =
      match Query.BFS m nodes pred ec limit reverse with
      | some out => Outcome.done out
      | none => Outcome.outOfFuel := by
  unfold Query.BFSeval Query.BFS
  split_ifs with h
  · rfl
  · exact Query.bfsLoopEval_of_total m pred ec limit reverse _ _ _ _

theorem NodeClass.instType_isSome_iff (c : NodeClass) :
    c.instType.isSome = true ↔ c.type = NodeType.Instruction := by
  cases c with
  | SimpleNode k => cases k <;> simp [NodeClass.instType, NodeClass.type, SimpleKind.type]
  | _ => simp [NodeClass.instType, NodeClass.type]

/-- C30. The accessor `instType()` succeeds exactly on the nodes of kind
Instruction and returns the expression kind of the class; on a node of any
other kind it is an assertion failure, in memory as well; and a BFS whose
node predicate reads `instType()` fails as soon as it evaluates the
predicate on such a node, as on the Trap node that a control-flow edge
reaches. -/
theorem instType_only_on_instructions :
    (∀ c : NodeClass, c.instType.isSome = true ↔ c.type = NodeType.Instruction) ∧
    (∀ c : NodeClass, c.type ∈ [NodeType.Module, NodeType.Function, NodeType.VarNode,
        NodeType.FunctionSignature, NodeType.Parameters, NodeType.Locals, NodeType.Results,
        NodeType.Instructions, NodeType.Else, NodeType.Trap, NodeType.Start] →
      c.instType = none) ∧
    (∀ (e : ExprType) (loc : Location) (label : String) (n : Nat),
      (NodeClass.BaseInstruction e loc).instType = some e ∧
      (NodeClass.LabeledInst e loc label).instType = some e ∧
      (NodeClass.BlockBase e loc label n).instType = some e) ∧
    (∀ (m : Mem) (c : NodeClass),
      (m.newObject c).1.instType (m.newObject c).2 = c.instType) ∧
    (∀ (m : Mem) (n : NodeRef),
      (m.instType n).isSome = true ↔ m.nodeType n = some NodeType.Instruction) ∧
    (∀ (m : Mem) (g : ExprType → NodeRef → Option Bool) (ec : EdgeCondition)
        (limit fuel : Nat) (reverse : Bool) (node : NodeRef) (q : List NodeRef)
        (v r : NodeSet),
      node ∉ v → m.instType node = none →
      Query.bfsLoopEval m (fun n => (m.instType n).bind (fun e => g e n)) ec limit reverse
        (fuel + 1) (node :: q) v r = Outcome.assertFailed) ∧
    Query.BFSeval trapMem [0]
      (fun n => (trapMem.instType n).bind (fun e => some (e == ExprType.Block)))
      (Query.CFG_EDGES trapMem) 10 false = Outcome.assertFailed := by
  refine ⟨NodeClass.instType_isSome_iff, ?_, fun _ _ _ _ => ⟨rfl, rfl, rfl⟩, ?_, ?_, ?_, ?_⟩
  · intro c hc
    cases hi : c.instType with
    | none => rfl
    | some e =>
      have h1 : c.type = NodeType.Instruction :=
        (NodeClass.instType_isSome_iff c).mp (by simp [hi])
      rw [h1] at hc
      simp at hc
  · intro m c
    have h := NodeClass.instType_isSome_iff c
    simp only [Mem.newObject, Mem.instType, List.getElem?_concat_length]
    by_cases ht : c.type = NodeType.Instruction
    · simp only [ht, if_true]
      cases hi : c.instType with
      | none => rw [hi] at h; simp [ht] at h
      | some e => rfl
    · simp only [ht, if_false]
      cases hi : c.instType with
      | none => rfl
      | some e => rw [hi] at h; simp [ht] at h
  · intro m n
    unfold Mem.instType Mem.nodeType
    cases hx : m.nodes[n]? with
    | none => simp
    | some x =>
      by_cases ht : x.type = NodeType.Instruction <;> simp [ht]
  · intro m g ec limit fuel reverse node q v r hv hi
    simp [Query.bfsLoopEval, setCount, hv, hi]
  · decide

/-! ## BFS under a limit -/

/-- The set that BFS returns has `limit` elements or holds every node that
satisfies the predicate and is reached from a seed. -/
theorem Query.BFS_complete_or_limit (m : Mem) (nodes : NodeSet) (pred : NodeCondition)
    (ec : EdgeCondition) (limit : Nat) (reverse : Bool) (r : NodeSet)
    (h : Query.BFS m nodes pred ec limit reverse = some r) :
    r.length = limit ∨
      ∀ x, pred x = true →
        (∃ s ∈ nodes, Relation.TransGen (m.Step ec reverse) s x) → x ∈ r := by
  rcases Query.BFS_cases m nodes pred ec limit reverse r h with ⟨h1, hr⟩ | ⟨_, fuel, hr⟩
  · subst hr
    rcases h1 with h1 | h1
    · subst h1
      right
      simp
    · left
      simp [h1]
  · refine Query.bfsLoop_inv m pred ec limit reverse
      (fun q v r =>
        (∀ x, x ∈ r ↔ x ∈ v ∧ pred x = true) ∧
        (∀ s ∈ nodes, ∀ y, m.Step ec reverse s y → y ∈ v ∨ y ∈ q) ∧
        (∀ x ∈ v, ∀ y, m.Step ec reverse x y → y ∈ v ∨ y ∈ q))
      (fun r => r.length = limit ∨ ∀ x, pred x = true →
        (∃ s ∈ nodes, Relation.TransGen (m.Step ec reverse) s x) → x ∈ r)
      ?_ ?_ ?_ fuel _ [] [] r ?_ hr
    · rintro v r ⟨h1, h4, h5⟩
      right
      rintro x hp ⟨s, hs, hpath⟩
      have key : ∀ y, Relation.TransGen (m.Step ec reverse) s y → y ∈ v := by
        intro y hy
        induction hy with
        | single hst => simpa using h4 s hs _ hst
        | tail _ hst ih => simpa using h5 _ ih _ hst
      exact (h1 x).mpr ⟨key x hpath, hp⟩
    · rintro node q v r ⟨h1, h4, h5⟩ hv
      refine ⟨h1, ?_, ?_⟩
      · intro s hs y hst
        rcases h4 s hs y hst with h | h
        · exact Or.inl h
        · rcases List.mem_cons.mp h with rfl | h
          · exact Or.inl hv
          · exact Or.inr h
      · intro x hx y hst
        rcases h5 x hx y hst with h | h
        · exact Or.inl h
        · rcases List.mem_cons.mp h with rfl | h
          · exact Or.inl hv
          · exact Or.inr h
    · rintro node q v r ⟨h1, h4, h5⟩ hv
      have hr1 : ∀ x, x ∈ (if pred node = true then setInsert node r else r) ↔
          x ∈ setInsert node v ∧ pred x = true := by
        intro x
        by_cases hp : pred node = true
        · rw [if_pos hp]
          simp only [mem_setInsert, h1]
          constructor
          · rintro (rfl | ⟨hx, hpx⟩)
            · exact ⟨Or.inl rfl, hp⟩
            · exact ⟨Or.inr hx, hpx⟩
          · rintro ⟨rfl | hx, hpx⟩
            · exact Or.inl rfl
            · exact Or.inr ⟨hx, hpx⟩
        · rw [if_neg hp]
          simp only [mem_setInsert, h1]
          constructor
          · rintro ⟨hx, hpx⟩; exact ⟨Or.inr hx, hpx⟩
          · rintro ⟨rfl | hx, hpx⟩
            · exact absurd hpx hp
            · exact ⟨hx, hpx⟩
      constructor
      · intro hlen
        exact Or.inl hlen
      · intro _
        refine ⟨hr1, ?_, ?_⟩
        · intro s hs y hst
          rcases h4 s hs y hst with h | h
          · exact Or.inl ((mem_setInsert node y v).mpr (Or.inr h))
          · rcases List.mem_cons.mp h with rfl | h
            · exact Or.inl ((mem_setInsert y y v).mpr (Or.inl rfl))
            · exact Or.inr (List.mem_append_left _ h)
        · intro x hx y hst
          rcases (mem_setInsert node x v).mp hx with rfl | hx
          · exact Or.inr (List.mem_append_right _ ((Query.mem_mapFunction m ec reverse x y).mpr hst))
          · rcases h5 x hx y hst with h | h
            · exact Or.inl ((mem_setInsert node y v).mpr (Or.inr h))
            · rcases List.mem_cons.mp h with rfl | h
              · exact Or.inl ((mem_setInsert y y v).mpr (Or.inl rfl))
              · exact Or.inr (List.mem_append_left _ h)
    · refine ⟨by simp, ?_, by simp⟩
      intro s hs y hst
      exact Or.inr ((Query.mem_mapNodes _ _ _).mpr
        ⟨s, hs, (Query.mem_mapFunction m ec reverse s y).mpr hst⟩)

/-- Followed against their direction, the AST edges lead from a node to its
AST ancestors. -/
theorem Mem.transGen_follows_reverse_ast (m : Mem) (u v : NodeRef) :
    Relation.TransGen (m.Follows (Query.AST_EDGES m) true) u v ↔
      Relation.TransGen m.AstChild v u := by
  have hrel : m.Follows (Query.AST_EDGES m) true = Function.swap m.AstChild := by
    funext a b
    apply propext
    simp only [Function.swap, Mem.astChild_iff, Mem.Follows, Query.AST_EDGES, if_true,
      beq_iff_eq]
    constructor
    · rintro ⟨e, he, ht, hd, hs⟩; exact ⟨e, he, ht, hs, hd⟩
    · rintro ⟨e, he, ht, hs, hd⟩; exact ⟨e, he, ht, hd, hs⟩
  rw [hrel]
  exact Relation.transGen_swap

/-- C27. `function(node)` fails on a Module node and returns the node itself
when it is a Function; for a node of another kind that has a Function among
its AST ancestors it returns a Function from which the node is reached along
AST edges, the enclosing Function when there is only one. -/
theorem function_returns_enclosing_Function (m : Mem) (hwf : m.wf) (node : NodeRef) :
    (m.nodeType node = some NodeType.Module → Query.function m node = none) ∧
    (m.nodeType node = some NodeType.Function → Query.function m node = some node) ∧
    (∀ t, m.nodeType node = some t → t ≠ NodeType.Module → t ≠ NodeType.Function →
      (∃ g, m.nodeType g = some NodeType.Function ∧ Relation.TransGen m.AstChild g node) →
      ∃ f, Query.function m node = some f ∧ m.nodeType f = some NodeType.Function ∧
        Relation.TransGen m.AstChild f node ∧
        ∀ g, (∀ h, m.nodeType h = some NodeType.Function →
          Relation.TransGen m.AstChild h node → h = g) → f = g) := by
  refine ⟨?_, ?_, ?_⟩
  · intro h
    simp [Query.function, h]
  · intro h
    have hf : Query.filter [node] (fun n => m.nodeType n == some NodeType.Function) = [node] := by
      simp [Query.filter, h, setInsert]
    simp [Query.function, h, Query.BFSincludes, hf, toSet, setUnion, setInsert]
  · intro t ht hmod hfun ⟨g, hg, hpath⟩
    have hf : Query.filter [node] (fun n => m.nodeType n == some NodeType.Function) = [] := by
      simp [Query.filter, ht, hfun]
    obtain ⟨r, hr⟩ := Query.BFS_total m [node]
      (fun n => m.nodeType n == some NodeType.Function) (Query.AST_EDGES m) 1 true
    have hfn : Query.function m node = r.head? := by
      simp [Query.function, ht, hmod, Query.BFSincludes, hf, hr, setUnion]
    have hsound := Query.BFS_sound m [node] _ (Query.AST_EDGES m) 1 true r hr
    have hanc : ∀ f ∈ r, m.nodeType f = some NodeType.Function ∧
        Relation.TransGen m.AstChild f node := by
      intro f hfr
      obtain ⟨hp, s, hs, hsf⟩ := hsound f hfr
      simp only [List.mem_singleton] at hs
      subst hs
      refine ⟨by simpa using hp, ?_⟩
      rw [← Mem.transGen_follows_reverse_ast]
      exact (Mem.transGen_step_iff m hwf _ true s f).mp hsf
    have hne : r ≠ [] := by
      intro hnil
      rcases Query.BFS_complete_or_limit m [node] _ (Query.AST_EDGES m) 1 true r hr with h1 | h1
      · simp [hnil] at h1
      · have hgr : g ∈ r := by
          apply h1 g (by simpa using hg)
          refine ⟨node, List.mem_singleton.mpr rfl, ?_⟩
          rw [Mem.transGen_step_iff m hwf, Mem.transGen_follows_reverse_ast]
          exact hpath
        simp [hnil] at hgr
    cases r with
    | nil => exact absurd rfl hne
    | cons f rest =>
      have hff := hanc f (List.mem_cons_self _ _)
      refine ⟨f, by simp [hfn], hff.1, hff.2, ?_⟩
      intro g1 huniq
      exact huniq f hff.1 hff.2

theorem moduleMem_nop_under_function : Relation.TransGen moduleMem.AstChild 1 8 :=
  Relation.TransGen.tail
    (Relation.TransGen.single
      ((Mem.astChild_iff moduleMem 1 3).mpr ⟨2, by decide, by decide, by decide, by decide⟩))
    ((Mem.astChild_iff moduleMem 3 8).mpr ⟨7, by decide, by decide, by decide, by decide⟩)

/-- Witness of C27: in the example module the `nop` (node 8) lies in the
function node 1. -/
theorem function_returns_enclosing_Function_witness :
    moduleMem.wf ∧ Query.function moduleMem 8 = some 1 ∧
    (moduleMem.nodeType 0 = some NodeType.Module → Query.function moduleMem 0 = none) ∧
    (moduleMem.nodeType 1 = some NodeType.Function → Query.function moduleMem 1 = some 1) ∧
    ∃ f, Query.function moduleMem 8 = some f ∧ moduleMem.nodeType f = some NodeType.Function ∧
      Relation.TransGen moduleMem.AstChild f 8 ∧
      ∀ g, (∀ h, moduleMem.nodeType h = some NodeType.Function →
        Relation.TransGen moduleMem.AstChild h 8 → h = g) → f = g :=
  ⟨by decide, by decide,
   (function_returns_enclosing_Function moduleMem (by decide) 0).1,
   (function_returns_enclosing_Function moduleMem (by decide) 1).2.1,
   (function_returns_enclosing_Function moduleMem (by decide) 8).2.2 NodeType.Instruction
     (by decide) (by decide) (by decide) ⟨1, by decide, moduleMem_nop_under_function⟩⟩

theorem Query.funcInstsNode_fails (m : Mem) (nodes : NodeSet) :
    ∀ acc : NodeSet, (∃ f ∈ nodes, m.nodeType f ≠ some NodeType.Function) →
      Query.funcInstsNode m nodes acc = none := by
  induction nodes with
  | nil => intro acc h; simp at h
  | cons f rest ih =>
    intro acc h
    by_cases hf : m.nodeType f = some NodeType.Function
    · have hrest : ∃ g ∈ rest, m.nodeType g ≠ some NodeType.Function := by
        obtain ⟨g, hg, hgt⟩ := h
        rcases List.mem_cons.mp hg with rfl | hg
        · exact absurd hf hgt
        · exact ⟨g, hg, hgt⟩
      simp only [Query.funcInstsNode, hf, if_true]
      cases hi : m.isImport f with
      | none => rfl
      | some b =>
        cases b with
        | true => exact ih acc hrest
        | false =>
          cases hc : m.getChild f 1 EdgeType.AST with
          | none => rfl
          | some c => exact ih _ hrest
    · simp [Query.funcInstsNode, hf]

/-- The seeds of `instructions`: imported functions are skipped before their
children are looked up. -/
theorem Query.funcInstsNode_spec_imports (m : Mem) (nodes : NodeSet) :
    ∀ acc : NodeSet,
    (∀ f ∈ nodes, m.nodeType f = some NodeType.Function) →
    (∀ f ∈ nodes, m.isImport f = some false → ∃ c, m.getChild f 1 EdgeType.AST = some c) →
    ∃ seeds, Query.funcInstsNode m nodes acc = some seeds ∧
      ∀ c, c ∈ seeds ↔ c ∈ acc ∨
        ∃ f ∈ nodes, m.isImport f = some false ∧ m.getChild f 1 EdgeType.AST = some c := by
  induction nodes with
  | nil =>
    intro acc _ _
    exact ⟨acc, rfl, by simp⟩
  | cons f rest ih =>
    intro acc hfun hkid
    have hf := hfun f (List.mem_cons_self _ _)
    obtain ⟨b, hb⟩ := Mem.isImport_of_function m f hf
    have hrest1 : ∀ g ∈ rest, m.nodeType g = some NodeType.Function :=
      fun g hg => hfun g (List.mem_cons_of_mem _ hg)
    have hrest2 : ∀ g ∈ rest, m.isImport g = some false →
        ∃ c, m.getChild g 1 EdgeType.AST = some c :=
      fun g hg => hkid g (List.mem_cons_of_mem _ hg)
    cases b with
    | true =>
      obtain ⟨seeds, hs, hmem⟩ := ih acc hrest1 hrest2
      refine ⟨seeds, by simp only [Query.funcInstsNode, hf, if_true, hb, hs], fun c => ?_⟩
      rw [hmem]
      simp only [List.mem_cons, exists_eq_or_imp, hb, Option.some.injEq, Bool.true_eq_false,
        false_and, false_or]
    | false =>
      obtain ⟨c0, hc0⟩ := hkid f (List.mem_cons_self _ _) hb
      obtain ⟨seeds, hs, hmem⟩ := ih (setInsert c0 acc) hrest1 hrest2
      refine ⟨seeds, by simp only [Query.funcInstsNode, hf, if_true, hb, hc0, hs], fun c => ?_⟩
      rw [hmem, mem_setInsert]
      simp only [List.mem_cons, exists_eq_or_imp, hb, hc0, Option.some.injEq, true_and]
      constructor
      · rintro ((h | h) | h)
        · exact Or.inr (Or.inl h.symm)
        · exact Or.inl h
        · exact Or.inr (Or.inr h)
      · rintro (h | h | h)
        · exact Or.inl (Or.inr h)
        · exact Or.inl (Or.inl h.symm)
        · exact Or.inr h

/-- C28. With a default limit above the number of nodes, `instructions(funcs,
cond)` fails when `funcs` holds a node that is not a Function; otherwise it
returns exactly the Instruction nodes that satisfy `cond` and are reached
along one or more AST edges from AST child 1 of a function of `funcs` that is
not imported; the children of an imported function are not looked up, and
the result does not depend on `cond` outside the Instruction nodes. -/
theorem instructions_characterised (m : Mem) (hwf : m.wf) (funcs : NodeSet)
    (cond : NodeCondition) (limit : Nat) (hlim : m.nodes.length < limit) :
    ((∃ f ∈ funcs, m.nodeType f ≠ some NodeType.Function) →
      Query.instructions m funcs cond limit = none) ∧
    ((∀ f ∈ funcs, m.nodeType f = some NodeType.Function) →
      (∀ f ∈ funcs, m.isImport f = some false →
        ∃ c, m.getChild f 1 EdgeType.AST = some c) →
      ∃ r, Query.instructions m funcs cond limit = some r ∧
        ∀ x, x ∈ r ↔
          (m.nodeType x = some NodeType.Instruction ∧ cond x = true ∧
            ∃ f ∈ funcs, m.isImport f = some false ∧
              ∃ c, m.getChild f 1 EdgeType.AST = some c ∧
                Relation.TransGen m.AstChild c x)) ∧
    (∀ cond1 : NodeCondition,
      (∀ n, m.nodeType n = some NodeType.Instruction → cond n = cond1 n) →
      Query.instructions m funcs cond limit = Query.instructions m funcs cond1 limit) := by
  refine ⟨?_, ?_, ?_⟩
  · intro h
    simp [Query.instructions, Query.funcInstsNode_fails m funcs [] h]
  · intro hfun hkid
    obtain ⟨seeds, hseeds, hmseeds⟩ := Query.funcInstsNode_spec_imports m funcs [] hfun hkid
    obtain ⟨r, hr, _, hm⟩ := Query.BFS_mem_iff m hwf seeds
      (fun node => m.nodeType node == some NodeType.Instruction && cond node)
      (Query.AST_EDGES m) limit false hlim
    refine ⟨r, by simp only [Query.instructions, hseeds, hr], fun x => ?_⟩
    rw [hm]
    have hrel : m.AstChild = m.Follows (Query.AST_EDGES m) false := rfl
    rw [← hrel]
    simp only [Bool.and_eq_true, beq_iff_eq]
    constructor
    · rintro ⟨⟨ht, hc⟩, c, hcs, hpath⟩
      rcases (hmseeds c).mp hcs with h | ⟨f, hf, hi, hch⟩
      · simp at h
      · exact ⟨ht, hc, f, hf, hi, c, hch, hpath⟩
    · rintro ⟨ht, hc, f, hf, hi, c, hch, hpath⟩
      exact ⟨⟨ht, hc⟩, c, (hmseeds c).mpr (Or.inr ⟨f, hf, hi, hch⟩), hpath⟩
  · intro cond1 hcond
    have hp : (fun node => m.nodeType node == some NodeType.Instruction && cond node)
        = (fun node => m.nodeType node == some NodeType.Instruction && cond1 node) := by
      funext node
      by_cases ht : m.nodeType node = some NodeType.Instruction
      · rw [hcond node ht]
      · have hb : (m.nodeType node == some NodeType.Instruction) = false :=
          beq_eq_false_iff_ne.mpr ht
        rw [hb]
        rfl
    simp only [Query.instructions, hp]

theorem moduleMem_second_child (f : Nat) (hf : f ∈ [1, 9])
    (hi : moduleMem.isImport f = some false) :
    ∃ c, moduleMem.getChild f 1 EdgeType.AST = some c := by
  simp only [List.mem_cons, List.mem_singleton, List.not_mem_nil, or_false] at hf
  rcases hf with rfl | rfl
  · exact ⟨3, by decide⟩
  · exact absurd hi (by decide)

/-- Witness of C28: the two functions of the example module and limit 100;
the imported function (node 9) adds nothing, and a set that holds the `nop`
(node 8) makes the call fail. -/
theorem instructions_characterised_witness :
    moduleMem.wf ∧ moduleMem.nodes.length < 100 ∧
    Query.instructions moduleMem [1, 9] Query.ALL_NODES 100 = some [8] ∧
    Query.instructions moduleMem [1, 8] Query.ALL_NODES 100 = none ∧
    ((∃ f ∈ [1, 8], moduleMem.nodeType f ≠ some NodeType.Function) →
      Query.instructions moduleMem [1, 8] Query.ALL_NODES 100 = none) ∧
    ∃ r, Query.instructions moduleMem [1, 9] Query.ALL_NODES 100 = some r ∧
      ∀ x, x ∈ r ↔
        (moduleMem.nodeType x = some NodeType.Instruction ∧ Query.ALL_NODES x = true ∧
          ∃ f ∈ [1, 9], moduleMem.isImport f = some false ∧
            ∃ c, moduleMem.getChild f 1 EdgeType.AST = some c ∧
              Relation.TransGen moduleMem.AstChild c x) :=
  ⟨by decide, by decide, by decide, by decide,
   (instructions_characterised moduleMem (by decide) [1, 8] Query.ALL_NODES 100 (by decide)).1,
   (instructions_characterised moduleMem (by decide) [1, 9] Query.ALL_NODES 100
     (by decide)).2.1 (by decide) moduleMem_second_child⟩

/-! ## The visiting order and the limit -/

theorem setUnion_cons (s : List Nat) (a : Nat) (l : List Nat) :
    setUnion s (a :: l) = setUnion (setInsert a s) l := rfl

theorem setUnion_nil (s : List Nat) : setUnion s [] = s := rfl

/-- Under a limit, the loop of BFS returns the earlier result together with
the first nodes of the visiting order that satisfy the predicate, as many as
the limit still allows. -/
theorem Query.bfsLoop_eq_take (m : Mem) (pred : NodeCondition) (ec : EdgeCondition)
    (limit : Nat) (reverse : Bool) :
    ∀ (fuel : Nat) (q : List (NodeRef × Nat)) (v r out : NodeSet),
      (∀ x ∈ r, x ∈ v) → r.length < limit →
      Query.bfsLoop m pred ec limit reverse fuel (q.map Prod.fst) v r = some out →
      out = setUnion r
        ((((Query.levelOrder m ec reverse fuel q v).map Prod.fst).filter pred).take
          (limit - r.length)) := by
  intro fuel
  induction fuel with
  | zero => intro q v r out _ _ h; simp [Query.bfsLoop] at h
  | succ fuel ih =>
    intro q v r out hrv hlen h
    cases q with
    | nil =>
      simp only [List.map_nil, Query.bfsLoop, Option.some.injEq] at h
      subst h
      simp [Query.levelOrder, setUnion_nil]
    | cons e q =>
      obtain ⟨node, l⟩ := e
      simp only [List.map_cons, Query.bfsLoop, setCount, Query.mapNodes_single] at h
      by_cases hv : node ∈ v
      · simp only [hv, if_true, beq_self_eq_true] at h
        simp only [Query.levelOrder, hv, if_true]
        exact ih q v r out hrv hlen h
      · simp only [hv, if_false] at h
        simp only [Nat.reduceEqDiff, Nat.zero_ne_one, beq_iff_eq, if_false] at h
        simp only [Query.levelOrder, hv, if_false, List.map_cons, List.filter_cons]
        have hq : q.map Prod.fst ++ Query.mapFunction m ec reverse node
            = (q ++ (Query.mapFunction m ec reverse node).map (fun x => (x, l + 1))).map
                Prod.fst := by
          simp [List.map_append, List.map_map, Function.comp_def]
        rw [hq] at h
        have hnr : node ∉ r := fun hn => hv (hrv node hn)
        by_cases hp : pred node = true
        · simp only [hp, if_true] at h ⊢
          have hl1 : (setInsert node r).length = r.length + 1 :=
            length_setInsert_of_not_mem node r hnr
          have hsub : ∀ x ∈ setInsert node r, x ∈ setInsert node v := by
            intro x hx
            rcases (mem_setInsert node x r).mp hx with rfl | hx
            · exact (mem_setInsert x x v).mpr (Or.inl rfl)
            · exact (mem_setInsert node x v).mpr (Or.inr (hrv x hx))
          by_cases hlim : (setInsert node r).length = limit
          · simp only [hlim, if_true, Option.some.injEq] at h
            subst h
            have h1 : limit - r.length = 1 := by omega
            rw [h1]
            simp [setUnion_cons, setUnion_nil]
          · simp only [hlim, if_false] at h
            have := ih _ _ _ out hsub (by omega) h
            rw [this]
            have h2 : limit - r.length = (limit - (setInsert node r).length) + 1 := by omega
            rw [h2, List.take_succ_cons, setUnion_cons]
        · simp only [hp, if_false] at h ⊢
          have hlim : ¬ r.length = limit := by omega
          simp only [Bool.false_eq_true, if_false, hlim] at h ⊢
          have hsub : ∀ x ∈ r, x ∈ setInsert node v :=
            fun x hx => (mem_setInsert node x v).mpr (Or.inr (hrv x hx))
          exact ih _ _ _ out hsub hlen h

/-- BFS with limit `k` returns the first `k` nodes of the visiting order that
satisfy the predicate. -/
theorem Query.BFS_eq_take (m : Mem) (nodes : NodeSet) (pred : NodeCondition)
    (ec : EdgeCondition) (k : Nat) (reverse : Bool) :
    Query.BFS m nodes pred ec k reverse =
      some (toSet ((((Query.visitOrder m nodes ec reverse).map Prod.fst).filter pred).take k)) := by
  obtain ⟨r, hr⟩ := Query.BFS_total m nodes pred ec k reverse
  rw [hr]
  congr 1
  unfold Query.BFS at hr
  by_cases h0 : k = 0
  · subst h0
    simp only [beq_self_eq_true, Bool.or_true, if_true, Option.some.injEq] at hr
    subst hr
    simp [toSet, setUnion]
  · by_cases hn : nodes = []
    · subst hn
      simp only [List.length_nil, beq_self_eq_true, Bool.true_or, if_true,
        Option.some.injEq] at hr
      subst hr
      simp [Query.visitOrder, Query.mapNodes, Query.levelOrder, toSet, setUnion]
    · have hcond : (nodes.length == 0 || k == 0) = false := by
        simp [hn, h0]
      simp only [hcond, Bool.false_eq_true, if_false] at hr
      have hq : Query.mapNodes nodes (Query.mapFunction m ec reverse)
          = ((Query.mapNodes nodes (Query.mapFunction m ec reverse)).map
              (fun x => (x, 1))).map Prod.fst := by
        simp [List.map_map, Function.comp_def]
      have hr1 : Query.bfsLoop m pred ec k reverse
          ((Query.mapNodes nodes (Query.mapFunction m ec reverse)).length
            + Query.pending m ec reverse [] + 1)
          (((Query.mapNodes nodes (Query.mapFunction m ec reverse)).map
              (fun x => (x, 1))).map Prod.fst) [] [] = some r := by
        rw [← hq]; exact hr
      have := Query.bfsLoop_eq_take m pred ec k reverse _ _ [] [] r (by simp)
        (by simp; omega) hr1
      rw [this]
      simp [toSet, Query.visitOrder]

/-- No node occurs twice in the visiting order, and none that was visited
before. -/
theorem Query.levelOrder_nodup (m : Mem) (ec : EdgeCondition) (reverse : Bool) :
    ∀ (fuel : Nat) (q : List (NodeRef × Nat)) (v : NodeSet),
      ((Query.levelOrder m ec reverse fuel q v).map Prod.fst).Nodup ∧
      ∀ x ∈ (Query.levelOrder m ec reverse fuel q v).map Prod.fst, x ∉ v := by
  intro fuel
  induction fuel with
  | zero => intro q v; simp [Query.levelOrder]
  | succ fuel ih =>
    intro q v
    cases q with
    | nil => simp [Query.levelOrder]
    | cons e q =>
      obtain ⟨node, l⟩ := e
      by_cases hv : node ∈ v
      · simp only [Query.levelOrder, hv, if_true]
        exact ih q v
      · simp only [Query.levelOrder, hv, if_false, List.map_cons]
        obtain ⟨h1, h2⟩ := ih
          (q ++ (Query.mapFunction m ec reverse node).map (fun x => (x, l + 1)))
          (setInsert node v)
        constructor
        · refine List.nodup_cons.mpr ⟨?_, h1⟩
          intro hmem
          exact h2 node hmem ((mem_setInsert node node v).mpr (Or.inl rfl))
        · intro x hx
          rcases List.mem_cons.mp hx with rfl | hx
          · exact hv
          · intro hxv
            exact h2 x hx ((mem_setInsert node x v).mpr (Or.inr hxv))

/-- A property of the queue entries that expansion keeps holds of every
entry of the visiting order. -/
theorem Query.levelOrder_forall (m : Mem) (ec : EdgeCondition) (reverse : Bool)
    (P : NodeRef × Nat → Prop)
    (hexp : ∀ node l, P (node, l) →
      ∀ y ∈ Query.mapFunction m ec reverse node, P (y, l + 1)) :
    ∀ (fuel : Nat) (q : List (NodeRef × Nat)) (v : NodeSet),
      (∀ e ∈ q, P e) → ∀ e ∈ Query.levelOrder m ec reverse fuel q v, P e := by
  intro fuel
  induction fuel with
  | zero => intro q v _ e he; simp [Query.levelOrder] at he
  | succ fuel ih =>
    intro q v hq e he
    cases q with
    | nil => simp [Query.levelOrder] at he
    | cons e0 q =>
      obtain ⟨node, l⟩ := e0
      have hq1 : ∀ e ∈ q, P e := fun e he => hq e (List.mem_cons_of_mem _ he)
      have h0 : P (node, l) := hq _ (List.mem_cons_self _ _)
      by_cases hv : node ∈ v
      · simp only [Query.levelOrder, hv, if_true] at he
        exact ih q v hq1 e he
      · simp only [Query.levelOrder, hv, if_false] at he
        rcases List.mem_cons.mp he with rfl | he
        · exact h0
        · refine ih _ _ ?_ e he
          intro e1 he1
          rcases List.mem_append.mp he1 with h | h
          · exact hq1 e1 h
          · obtain ⟨y, hy, rfl⟩ := List.mem_map.mp h
            exact hexp node l h0 y hy

theorem length_setUnion_of_nodup (l : List Nat) : ∀ s : List Nat, l.Nodup →
    (∀ x ∈ l, x ∉ s) → (setUnion s l).length = s.length + l.length := by
  induction l with
  | nil => intro s _ _; rfl
  | cons a t ih =>
    intro s hnd hdis
    rw [setUnion_cons]
    have ha : a ∉ s := hdis a (List.mem_cons_self _ _)
    have hnd1 := List.nodup_cons.mp hnd
    rw [ih (setInsert a s) hnd1.2]
    · rw [length_setInsert_of_not_mem a s ha]
      simp only [List.length_cons]
      omega
    · intro x hx hxs
      rcases (mem_setInsert a x s).mp hxs with rfl | hxs
      · exact hnd1.1 hx
      · exact hdis x (List.mem_cons_of_mem _ hx) hxs

theorem length_toSet_of_nodup (l : List Nat) (h : l.Nodup) : (toSet l).length = l.length := by
  have := length_setUnion_of_nodup l [] h (by simp)
  simpa [toSet] using this

theorem length_le_of_nodup_lt (l : List Nat) (N : Nat) (hs : l.Nodup)
    (hb : ∀ x ∈ l, x < N) : l.length ≤ N := by
  have h1 : l ⊆ List.range N := fun x hx => List.mem_range.mpr (hb x hx)
  have := (List.subperm_of_subset hs h1).length_le
  simpa using this

/-! ## The nodes that are expanded -/

/-- The instrumented loop returns the set that the loop of BFS returns. -/
theorem Query.bfsLoopLog_fst (m : Mem) (pred : NodeCondition) (ec : EdgeCondition)
    (limit : Nat) (reverse : Bool) :
    ∀ (fuel : Nat) (q : List NodeRef) (v r : NodeSet) (log : List NodeRef),
      (Query.bfsLoopLog m pred ec limit reverse fuel q v r log).map Prod.fst
        = Query.bfsLoop m pred ec limit reverse fuel q v r := by
  intro fuel
  induction fuel with
  | zero => intro q v r log; rfl
  | succ fuel ih =>
    intro q v r log
    cases q with
    | nil => rfl
    | cons node q =>
      simp only [Query.bfsLoopLog, Query.bfsLoop]
      split_ifs <;> first | rfl | exact ih _ _ _ _

/-- The instrumented BFS returns the set that BFS returns. -/
theorem Query.BFSlog_fst (m : Mem) (nodes : NodeSet) (pred : NodeCondition)
    (ec : EdgeCondition) (limit : Nat) (reverse : Bool) :
    (Query.BFSlog m nodes pred ec limit reverse).map Prod.fst
      = Query.BFS m nodes pred ec limit reverse := by
  unfold Query.BFSlog Query.BFS
  split_ifs with h
  · rfl
  · simp only
    rw [← Query.bfsLoopLog_fst m pred ec limit reverse _ _ [] [] []]
    cases Query.bfsLoopLog m pred ec limit reverse
      ((Query.mapNodes nodes (Query.mapFunction m ec reverse)).length
        + Query.pending m ec reverse [] + 1)
      (Query.mapNodes nodes (Query.mapFunction m ec reverse)) [] [] [] with
    | none => rfl
    | some p => rfl

/-- The loop appends a node to the log of expansions only when it marks the
node visited: the log has no node twice, and a property that expansion keeps
holds of every logged node. -/
theorem Query.bfsLoopLog_log (m : Mem) (pred : NodeCondition) (ec : EdgeCondition)
    (limit : Nat) (reverse : Bool) (P : NodeRef → Prop)
    (hP : ∀ u w, P u → w ∈ Query.mapFunction m ec reverse u → P w) :
    ∀ (fuel : Nat) (q : List NodeRef) (v r : NodeSet) (log : List NodeRef)
      (out : NodeSet × List NodeRef),
      Query.bfsLoopLog m pred ec limit reverse fuel q v r log = some out →
      log.Nodup → (∀ x ∈ log, x ∈ v) → (∀ x ∈ q, P x) → (∀ x ∈ log, P x) →
      out.2.Nodup ∧ ∀ x ∈ out.2, P x := by
  intro fuel
  induction fuel with
  | zero => intro q v r log out h; simp [Query.bfsLoopLog] at h
  | succ fuel ih =>
    intro q v r log out h hnd hv hq hl
    cases q with
    | nil =>
      simp only [Query.bfsLoopLog, Option.some.injEq] at h
      subst h
      exact ⟨hnd, hl⟩
    | cons node q =>
      have hq1 : ∀ x ∈ q, P x := fun x hx => hq x (List.mem_cons_of_mem _ hx)
      have hnode : P node := hq node (List.mem_cons_self _ _)
      simp only [Query.bfsLoopLog, setCount, Query.mapNodes_single] at h
      by_cases hvis : node ∈ v
      · simp only [hvis, if_true, beq_self_eq_true] at h
        exact ih q v r log out h hnd hv hq1 hl
      · simp only [hvis, if_false] at h
        simp only [Nat.reduceEqDiff, Nat.zero_ne_one, beq_iff_eq, if_false] at h
        split_ifs at h with h1 h2 h3
        · simp only [Option.some.injEq] at h; subst h; exact ⟨hnd, hl⟩
        · refine ih _ _ _ _ out h ?_ ?_ ?_ ?_
          · refine List.nodup_append.mpr ⟨hnd, List.nodup_singleton _, ?_⟩
            intro x hx hx1
            rw [List.mem_singleton] at hx1
            subst hx1
            exact hvis (hv x hx)
          · intro x hx
            rcases List.mem_append.mp hx with hx | hx
            · exact (mem_setInsert node x v).mpr (Or.inr (hv x hx))
            · rw [List.mem_singleton] at hx
              exact (mem_setInsert node x v).mpr (Or.inl hx)
          · intro x hx
            rcases List.mem_append.mp hx with hx | hx
            · exact hq1 x hx
            · exact hP node x hnode hx
          · intro x hx
            rcases List.mem_append.mp hx with hx | hx
            · exact hl x hx
            · rw [List.mem_singleton] at hx
              subst hx; exact hnode
        · simp only [Option.some.injEq] at h; subst h; exact ⟨hnd, hl⟩
        · refine ih _ _ _ _ out h ?_ ?_ ?_ ?_
          · refine List.nodup_append.mpr ⟨hnd, List.nodup_singleton _, ?_⟩
            intro x hx hx1
            rw [List.mem_singleton] at hx1
            subst hx1
            exact hvis (hv x hx)
          · intro x hx
            rcases List.mem_append.mp hx with hx | hx
            · exact (mem_setInsert node x v).mpr (Or.inr (hv x hx))
            · rw [List.mem_singleton] at hx
              exact (mem_setInsert node x v).mpr (Or.inl hx)
          · intro x hx
            rcases List.mem_append.mp hx with hx | hx
            · exact hq1 x hx
            · exact hP node x hnode hx
          · intro x hx
            rcases List.mem_append.mp hx with hx | hx
            · exact hl x hx
            · rw [List.mem_singleton] at hx
              subst hx; exact hnode

/-- C23, as stated, fails: on the graph of one instruction with an edge to
itself, BFS from that instruction enqueues the neighbours of the instruction
twice, once as a seed before the loop and once when the loop visits it: two
expansions on a graph of one node. -/
theorem BFS_expands_seed_twice :
    State.init.run selfLoopOps = some selfLoopState ∧
    selfLoopState.mem.nodes.length = 1 ∧
    Query.BFSlog selfLoopState.mem [0] (fun _ => true) Query.ALL_EDGES 10 false
      = some ([0], [0], [0]) := by
  decide

/-- C23, amended. BFS returns a set on every graph. The nodes whose
neighbours are enqueued are the seeds, once each before the loop, and the
nodes the loop visits without reaching the limit, once each: no node is
expanded twice by the loop, and on a well-formed graph the loop expands at
most as many nodes as the graph has. -/
theorem BFS_terminates_and_loop_expands_once (m : Mem) (seeds : NodeSet)
    (pred : NodeCondition) (ec : EdgeCondition) (limit : Nat) (reverse : Bool) :
    ∃ r first log,
      Query.BFS m seeds pred ec limit reverse = some r ∧
      Query.BFSlog m seeds pred ec limit reverse = some (r, first, log) ∧
      first.length ≤ seeds.length ∧ log.Nodup ∧
      (m.wf → log.length ≤ m.nodes.length ∧
        first.length + log.length ≤ seeds.length + m.nodes.length) := by
  obtain ⟨r, hr⟩ := Query.BFS_total m seeds pred ec limit reverse
  have hfst := Query.BFSlog_fst m seeds pred ec limit reverse
  rw [hr] at hfst
  by_cases h0 : (seeds.length == 0 || limit == 0) = true
  · have hlog : Query.BFSlog m seeds pred ec limit reverse = some ([], [], []) := by
      unfold Query.BFSlog; rw [if_pos h0]
    rw [hlog] at hfst
    simp only [Option.map_some', Option.some.injEq] at hfst
    subst hfst
    exact ⟨[], [], [], hr, hlog, by simp, List.nodup_nil, fun _ => by simp⟩
  · have hlog0 : Query.BFSlog m seeds pred ec limit reverse =
        match Query.bfsLoopLog m pred ec limit reverse
          ((Query.mapNodes seeds (Query.mapFunction m ec reverse)).length
            + Query.pending m ec reverse [] + 1)
          (Query.mapNodes seeds (Query.mapFunction m ec reverse)) [] [] [] with
        | some (r, log) => some (r, seeds, log)
        | none => none := by
      unfold Query.BFSlog; rw [if_neg h0]
    cases hloop : Query.bfsLoopLog m pred ec limit reverse
          ((Query.mapNodes seeds (Query.mapFunction m ec reverse)).length
            + Query.pending m ec reverse [] + 1)
          (Query.mapNodes seeds (Query.mapFunction m ec reverse)) [] [] [] with
    | none =>
      rw [hloop] at hlog0
      rw [hlog0] at hfst
      simp at hfst
    | some out =>
      obtain ⟨r1, log⟩ := out
      rw [hloop] at hlog0
      simp only at hlog0
      rw [hlog0] at hfst
      simp only [Option.map_some', Option.some.injEq] at hfst
      subst hfst
      have hnd := (Query.bfsLoopLog_log m pred ec limit reverse (fun _ => True)
        (fun _ _ _ _ => trivial) _ _ _ _ _ _ hloop List.nodup_nil (by simp)
        (fun _ _ => trivial) (fun _ _ => trivial)).1
      refine ⟨r1, seeds, log, hr, hlog0, le_refl _, hnd, fun hwf => ?_⟩
      have hstep : ∀ u w, w ∈ Query.mapFunction m ec reverse u → w < m.nodes.length := by
        intro u w hw
        exact Mem.follows_lt m hwf ec reverse u w
          ((Mem.step_iff_follows m hwf ec reverse u w).mp
            ((Query.mem_mapFunction m ec reverse u w).mp hw))
      have hb := (Query.bfsLoopLog_log m pred ec limit reverse (fun x => x < m.nodes.length)
        (fun u w _ hw => hstep u w hw) _ _ _ _ _ _ hloop List.nodup_nil (by simp)
        (by
          intro x hx
          obtain ⟨n, _, hxn⟩ := (Query.mem_mapNodes _ seeds x).mp hx
          exact hstep n x hxn)
        (by simp)).2
      have hlen : log.length ≤ m.nodes.length :=
        length_le_of_nodup_lt log m.nodes.length hnd hb
      exact ⟨hlen, Nat.add_le_add_left hlen _⟩

/-- Witness of C23 amended: the sample graph, seed 0, every node and every
edge accepted, limit 5. -/
theorem BFS_terminates_and_loop_expands_once_witness :
    sampleState.mem.wf ∧
    ∃ r first log,
      Query.BFS sampleState.mem [0] (fun _ => true) Query.ALL_EDGES 5 false = some r ∧
      Query.BFSlog sampleState.mem [0] (fun _ => true) Query.ALL_EDGES 5 false
        = some (r, first, log) ∧
      first.length ≤ ([0] : NodeSet).length ∧ log.Nodup ∧
      log.length ≤ sampleState.mem.nodes.length ∧
      first.length + log.length ≤ ([0] : NodeSet).length + sampleState.mem.nodes.length :=
  ⟨by decide,
   match BFS_terminates_and_loop_expands_once sampleState.mem [0] (fun _ => true)
       Query.ALL_EDGES 5 false with
   | ⟨r, first, log, h1, h2, h3, h4, h5⟩ =>
     ⟨r, first, log, h1, h2, h3, h4, (h5 (by decide)).1, (h5 (by decide)).2⟩⟩

/-- C25 fails on the graph of three instructions with control-flow edges
from the first to itself, from the first to the second and from the second
to the third: with the first as the only seed, every node accepted and
limit 3, `BFSincludes` returns two nodes, the seed and the second
instruction, although the third is reached by two edges. The inner BFS is
given the limit 2 and spends it on the seed and the second instruction, in
whichever order the two are dequeued. -/
theorem BFSincludes_stops_below_limit :
    State.init.run loopAndExitOps = some loopAndExitState ∧
    Query.filter [0] (fun _ => true) = [0] ∧
    Query.BFS loopAndExitState.mem [0] (fun _ => true) Query.ALL_EDGES 2 false = some [0, 1] ∧
    Query.BFSincludes loopAndExitState.mem [0] (fun _ => true) Query.ALL_EDGES 3 false
      = some [0, 1] ∧
    Query.BFS loopAndExitState.mem [0] (fun _ => true) Query.ALL_EDGES 3 false
      = some [0, 1, 2] ∧
    loopAndExitState.mem.Follows Query.ALL_EDGES false 0 1 ∧
    loopAndExitState.mem.Follows Query.ALL_EDGES false 1 2 :=
  ⟨by decide, by decide, by decide, by decide, by decide, ⟨1, by decide, rfl, by decide⟩,
   ⟨2, by decide, rfl, by decide⟩⟩

/-! ## The limit is the only reason to stop early -/

/-- The nodes of the visiting order that satisfy the predicate: no node
twice, and on a well-formed graph every one is a node of the graph. -/
theorem Query.visitOrder_filter (m : Mem) (nodes : NodeSet) (pred : NodeCondition)
    (ec : EdgeCondition) (reverse : Bool) :
    (((Query.visitOrder m nodes ec reverse).map Prod.fst).filter pred).Nodup ∧
    (m.wf → (((Query.visitOrder m nodes ec reverse).map Prod.fst).filter pred).length
      ≤ m.nodes.length) := by
  have hnd : (((Query.visitOrder m nodes ec reverse).map Prod.fst).filter pred).Nodup :=
    List.Nodup.filter _ (Query.levelOrder_nodup m ec reverse _ _ _).1
  refine ⟨hnd, fun hwf => length_le_of_nodup_lt _ _ hnd ?_⟩
  intro x hx
  have hr := Query.BFS_eq_take m nodes pred ec
    (((Query.visitOrder m nodes ec reverse).map Prod.fst).filter pred).length reverse
  rw [List.take_length] at hr
  obtain ⟨_, s, _, hpath⟩ := Query.BFS_sound m nodes pred ec _ reverse _ hr x
    ((mem_toSet _ x).mpr hx)
  obtain ⟨u, _, hux⟩ := Relation.TransGen.tail'_iff.mp hpath
  exact Mem.follows_lt m hwf ec reverse u x ((Mem.step_iff_follows m hwf ec reverse u x).mp hux)

/-- C24. On a well-formed graph, for every limit `k`, BFS with limit `k`
returns a subset of what BFS returns with a limit `K` above the number of
nodes (a limit that cannot be reached), and as many nodes as the smaller of
`k` and the size of that unbounded result; a result with fewer than `k`
nodes contains every node that satisfies the predicate and is reached from a
seed by one or more followed edges; and BFS with limit `k` returns a subset
of what it returns with limit `k + 1`. -/
theorem BFS_stops_early_only_at_limit (m : Mem) (hwf : m.wf) (seeds : NodeSet)
    (pred : NodeCondition) (ec : EdgeCondition) (k K : Nat) (reverse : Bool)
    (hK : m.nodes.length < K) :
    ∃ rk rK rk1,
      Query.BFS m seeds pred ec k reverse = some rk ∧
      Query.BFS m seeds pred ec K reverse = some rK ∧
      Query.BFS m seeds pred ec (k + 1) reverse = some rk1 ∧
      (∀ x ∈ rk, x ∈ rK) ∧
      rk.length = min k rK.length ∧
      (rk.length < k → ∀ n, pred n = true →
        (∃ s ∈ seeds, Relation.TransGen (m.Follows ec reverse) s n) → n ∈ rk) ∧
      (∀ x ∈ rk, x ∈ rk1) := by
  obtain ⟨hnd, hlen⟩ := Query.visitOrder_filter m seeds pred ec reverse
  have hlen := hlen hwf
  have hndk : ∀ j, ((((Query.visitOrder m seeds ec reverse).map Prod.fst).filter pred).take
      j).Nodup := fun j => List.Nodup.sublist (List.take_sublist _ _) hnd
  have hfull : (((Query.visitOrder m seeds ec reverse).map Prod.fst).filter pred).take K
      = ((Query.visitOrder m seeds ec reverse).map Prod.fst).filter pred :=
    List.take_of_length_le (by omega)
  have hKlen : (toSet
      ((((Query.visitOrder m seeds ec reverse).map Prod.fst).filter pred).take K)).length
      = (((Query.visitOrder m seeds ec reverse).map Prod.fst).filter pred).length := by
    rw [hfull]; exact length_toSet_of_nodup _ hnd
  have hklen : (toSet
      ((((Query.visitOrder m seeds ec reverse).map Prod.fst).filter pred).take k)).length
      = min k (((Query.visitOrder m seeds ec reverse).map Prod.fst).filter pred).length := by
    rw [length_toSet_of_nodup _ (hndk k), List.length_take]
  refine ⟨_, _, _, Query.BFS_eq_take m seeds pred ec k reverse,
    Query.BFS_eq_take m seeds pred ec K reverse,
    Query.BFS_eq_take m seeds pred ec (k + 1) reverse, ?_, ?_, ?_, ?_⟩
  · intro x hx
    rw [hfull]
    exact (mem_toSet _ x).mpr (List.mem_of_mem_take ((mem_toSet _ x).mp hx))
  · rw [hklen, hKlen]
  · intro hlt n hp hreach
    rw [hklen] at hlt
    have hall : (((Query.visitOrder m seeds ec reverse).map Prod.fst).filter pred).take k
        = ((Query.visitOrder m seeds ec reverse).map Prod.fst).filter pred :=
      List.take_of_length_le (by omega)
    rw [hall]
    obtain ⟨r, hr, _, hmem⟩ := Query.BFS_mem_iff m hwf seeds pred ec K reverse hK
    rw [Query.BFS_eq_take m seeds pred ec K reverse, hfull] at hr
    have hrr := Option.some.inj hr
    rw [hrr]
    exact (hmem n).mpr ⟨hp, hreach⟩
  · intro x hx
    have hx1 := (mem_toSet _ x).mp hx
    have htt : (((Query.visitOrder m seeds ec reverse).map Prod.fst).filter pred).take k
        = (((((Query.visitOrder m seeds ec reverse).map Prod.fst).filter pred).take
            (k + 1)).take k) := by
      rw [List.take_take, Nat.min_eq_left (Nat.le_succ k)]
    rw [htt] at hx1
    exact (mem_toSet _ x).mpr (List.mem_of_mem_take hx1)

/-- Witness of C24: the sample graph, seed 0, every node and every edge
accepted, limits 2 and 5. -/
theorem BFS_stops_early_only_at_limit_witness :
    sampleState.mem.wf ∧ sampleState.mem.nodes.length < 5 ∧
    ∃ rk rK rk1,
      Query.BFS sampleState.mem [0] (fun _ => true) Query.ALL_EDGES 2 false = some rk ∧
      Query.BFS sampleState.mem [0] (fun _ => true) Query.ALL_EDGES 5 false = some rK ∧
      Query.BFS sampleState.mem [0] (fun _ => true) Query.ALL_EDGES (2 + 1) false = some rk1 ∧
      (∀ x ∈ rk, x ∈ rK) ∧
      rk.length = min 2 rK.length ∧
      (rk.length < 2 → ∀ n, (fun _ => true) n = true →
        (∃ s ∈ [0], Relation.TransGen (sampleState.mem.Follows Query.ALL_EDGES false) s n) →
        n ∈ rk) ∧
      (∀ x ∈ rk, x ∈ rk1) :=
  ⟨by decide, by decide,
   BFS_stops_early_only_at_limit sampleState.mem (by decide) [0] (fun _ => true)
     Query.ALL_EDGES 2 5 false (by decide)⟩

/-! ## Nearest first -/

theorem ReachedIn.mono (R R1 : NodeRef → NodeRef → Prop) (h : ∀ a b, R a b → R1 a b)
    (seeds : NodeSet) : ∀ (n : Nat) (x : NodeRef), ReachedIn R seeds n x → ReachedIn R1 seeds n x := by
  intro n
  induction n with
  | zero => intro x hx; exact hx
  | succ n ih =>
    rintro x ⟨p, hp, hr⟩
    exact ⟨p, ih p hp, h p x hr⟩

theorem ReachedIn.transGen (R : NodeRef → NodeRef → Prop) (seeds : NodeSet) :
    ∀ (n : Nat) (x : NodeRef), ReachedIn R seeds (n + 1) x →
      ∃ s ∈ seeds, Relation.TransGen R s x := by
  intro n
  induction n with
  | zero =>
    rintro x ⟨p, hp, hr⟩
    exact ⟨p, hp, Relation.TransGen.single hr⟩
  | succ n ih =>
    rintro x ⟨p, hp, hr⟩
    obtain ⟨s, hs, hpath⟩ := ih p hp
    exact ⟨s, hs, Relation.TransGen.tail hpath hr⟩

/-- A node reached by a path shorter than every level of the queue has been
visited. -/
theorem Query.LevelInv.frontier {m : Mem} {ec : EdgeCondition} {reverse : Bool}
    {seeds : NodeSet} {q : List (NodeRef × Nat)} {v : NodeSet} {hist : List (NodeRef × Nat)}
    (inv : Query.LevelInv m ec reverse seeds q v hist) :
    ∀ n : Nat, 1 ≤ n → ∀ y, ReachedIn (m.Step ec reverse) seeds n y →
      (∀ c ∈ q, n < c.2) → y ∈ v := by
  intro n
  induction n with
  | zero => intro h; omega
  | succ k ih =>
    rintro _ y ⟨p, hp, hstep⟩ hq
    cases k with
    | zero =>
      rcases inv.fromSeeds p hp y hstep with h | h
      · exact h
      · have := hq _ h
        simp at this
    | succ j =>
      have hpv : p ∈ v := ih (by omega) p hp (fun c hc => by have := hq c hc; omega)
      obtain ⟨l, hl⟩ := inv.seen p hpv
      have hle : l ≤ j + 1 := inv.least _ hl (j + 1) (by omega) hp
      rcases inv.fromSeen _ hl y hstep with h | h
      · exact h
      · have := hq _ h
        simp only at this
        omega

/-- The invariant is kept when the loop dequeues a visited node. -/
theorem Query.LevelInv.skip {m : Mem} {ec : EdgeCondition} {reverse : Bool}
    {seeds : NodeSet} {x : NodeRef} {l : Nat} {q : List (NodeRef × Nat)} {v : NodeSet}
    {hist : List (NodeRef × Nat)}
    (inv : Query.LevelInv m ec reverse seeds ((x, l) :: q) v hist) (hx : x ∈ v) :
    Query.LevelInv m ec reverse seeds q v hist where
  sorted := (List.pairwise_cons.mp inv.sorted).2
  near := fun a ha b hb =>
    inv.near a (List.mem_cons_of_mem _ ha) b (List.mem_cons_of_mem _ hb)
  reached := fun a ha => inv.reached a (List.mem_cons_of_mem _ ha)
  fromSeeds := by
    intro s hs w hw
    rcases inv.fromSeeds s hs w hw with h | h
    · exact Or.inl h
    · rcases List.mem_cons.mp h with h1 | h1
      · have : w = x := congrArg Prod.fst h1
        rw [this]; exact Or.inl hx
      · exact Or.inr h1
  fromSeen := by
    intro a ha w hw
    rcases inv.fromSeen a ha w hw with h | h
    · exact Or.inl h
    · rcases List.mem_cons.mp h with h1 | h1
      · have : w = x := congrArg Prod.fst h1
        rw [this]; exact Or.inl hx
      · exact Or.inr h1
  least := inv.least
  seen := inv.seen

/-- The invariant is kept when the loop visits a node and enqueues its
neighbours. -/
theorem Query.LevelInv.visit {m : Mem} {ec : EdgeCondition} {reverse : Bool}
    {seeds : NodeSet} {x : NodeRef} {l : Nat} {q : List (NodeRef × Nat)} {v : NodeSet}
    {hist : List (NodeRef × Nat)}
    (inv : Query.LevelInv m ec reverse seeds ((x, l) :: q) v hist) (hx : x ∉ v) :
    Query.LevelInv m ec reverse seeds
      (q ++ (Query.mapFunction m ec reverse x).map (fun w => (w, l + 1)))
      (setInsert x v) ((x, l) :: hist) := by
  have hhead : ∀ a ∈ q, l ≤ a.2 := fun a ha => (List.pairwise_cons.mp inv.sorted).1 a ha
  have htop : ∀ a ∈ q, a.2 ≤ l + 1 := fun a ha =>
    inv.near (x, l) (List.mem_cons_self _ _) a (List.mem_cons_of_mem _ ha)
  have hnew : ∀ a ∈ (Query.mapFunction m ec reverse x).map (fun w => (w, l + 1)),
      a.2 = l + 1 ∧ m.Step ec reverse x a.1 := by
    intro a ha
    obtain ⟨w, hw, rfl⟩ := List.mem_map.mp ha
    exact ⟨rfl, (Query.mem_mapFunction m ec reverse x w).mp hw⟩
  have hxr := inv.reached (x, l) (List.mem_cons_self _ _)
  refine ⟨?_, ?_, ?_, ?_, ?_, ?_, ?_⟩
  · refine List.pairwise_append.mpr ⟨(List.pairwise_cons.mp inv.sorted).2, ?_, ?_⟩
    · refine List.Pairwise.imp_mem.mpr (List.pairwise_of_forall ?_)
      intro a b ha hb
      rw [(hnew a ha).1, (hnew b hb).1]
    · intro a ha b hb
      rw [(hnew b hb).1]
      exact htop a ha
  · intro a ha b hb
    rcases List.mem_append.mp ha with ha | ha <;> rcases List.mem_append.mp hb with hb | hb
    · exact inv.near a (List.mem_cons_of_mem _ ha) b (List.mem_cons_of_mem _ hb)
    · rw [(hnew b hb).1]
      have := hhead a ha
      omega
    · rw [(hnew a ha).1]
      have := htop b hb
      omega
    · rw [(hnew a ha).1, (hnew b hb).1]
      omega
  · intro a ha
    rcases List.mem_append.mp ha with ha | ha
    · exact inv.reached a (List.mem_cons_of_mem _ ha)
    · obtain ⟨h1, h2⟩ := hnew a ha
      rw [h1]
      exact ⟨by omega, x, hxr.2, h2⟩
  · intro s hs w hw
    rcases inv.fromSeeds s hs w hw with h | h
    · exact Or.inl ((mem_setInsert x w v).mpr (Or.inr h))
    · rcases List.mem_cons.mp h with h1 | h1
      · have : w = x := congrArg Prod.fst h1
        exact Or.inl ((mem_setInsert x w v).mpr (Or.inl this))
      · exact Or.inr (List.mem_append.mpr (Or.inl h1))
  · intro a ha w hw
    rcases List.mem_cons.mp ha with ha | ha
    · subst ha
      refine Or.inr (List.mem_append.mpr (Or.inr ?_))
      exact List.mem_map.mpr ⟨w, (Query.mem_mapFunction m ec reverse x w).mpr hw, rfl⟩
    · rcases inv.fromSeen a ha w hw with h | h
      · exact Or.inl ((mem_setInsert x w v).mpr (Or.inr h))
      · rcases List.mem_cons.mp h with h1 | h1
        · have : w = x := congrArg Prod.fst h1
          exact Or.inl ((mem_setInsert x w v).mpr (Or.inl this))
        · exact Or.inr (List.mem_append.mpr (Or.inl h1))
  · intro a ha n hn hr
    rcases List.mem_cons.mp ha with ha | ha
    · subst ha
      by_contra hlt
      have hlt1 : n < l := Nat.lt_of_not_le hlt
      refine hx (inv.frontier n hn x hr ?_)
      intro c hc
      rcases List.mem_cons.mp hc with hc | hc
      · subst hc; exact hlt1
      · have := hhead c hc
        omega
    · exact inv.least a ha n hn hr
  · intro y hy
    rcases (mem_setInsert x y v).mp hy with h | h
    · subst h; exact ⟨l, List.mem_cons_self _ _⟩
    · obtain ⟨l1, h1⟩ := inv.seen y h
      exact ⟨l1, List.mem_cons_of_mem _ h1⟩

/-- The invariant holds when the loop starts: the queue holds the neighbours
of the seeds, all at level one, and nothing is visited. -/
theorem Query.LevelInv.init (m : Mem) (ec : EdgeCondition) (reverse : Bool) (seeds : NodeSet) :
    Query.LevelInv m ec reverse seeds
      ((Query.mapNodes seeds (Query.mapFunction m ec reverse)).map (fun x => (x, 1))) [] [] := by
  have hnew : ∀ a ∈ (Query.mapNodes seeds (Query.mapFunction m ec reverse)).map
      (fun x => (x, 1)), a.2 = 1 ∧ ∃ s ∈ seeds, m.Step ec reverse s a.1 := by
    intro a ha
    obtain ⟨w, hw, rfl⟩ := List.mem_map.mp ha
    obtain ⟨s, hs, hsw⟩ := (Query.mem_mapNodes _ seeds w).mp hw
    exact ⟨rfl, s, hs, (Query.mem_mapFunction m ec reverse s w).mp hsw⟩
  refine ⟨?_, ?_, ?_, ?_, ?_, ?_, ?_⟩
  · refine List.Pairwise.imp_mem.mpr (List.pairwise_of_forall ?_)
    intro a b ha hb
    rw [(hnew a ha).1, (hnew b hb).1]
  · intro a ha b hb
    rw [(hnew a ha).1, (hnew b hb).1]
    omega
  · intro a ha
    obtain ⟨h1, s, hs, hstep⟩ := hnew a ha
    rw [h1]
    exact ⟨le_refl 1, s, hs, hstep⟩
  · intro s hs w hw
    refine Or.inr (List.mem_map.mpr ⟨w, ?_, rfl⟩)
    exact (Query.mem_mapNodes _ seeds w).mpr
      ⟨s, hs, (Query.mem_mapFunction m ec reverse s w).mpr hw⟩
  · intro a ha; simp at ha
  · intro a ha; simp at ha
  · intro y hy; simp at hy

/-- Every node of the visiting order is visited at the level that is the
length of a shortest path to it from a seed, and the levels never decrease
along the order. -/
theorem Query.levelOrder_levels (m : Mem) (ec : EdgeCondition) (reverse : Bool)
    (seeds : NodeSet) :
    ∀ (fuel : Nat) (q : List (NodeRef × Nat)) (v : NodeSet) (hist : List (NodeRef × Nat)),
      Query.LevelInv m ec reverse seeds q v hist →
      (∀ a ∈ Query.levelOrder m ec reverse fuel q v,
        1 ≤ a.2 ∧ ReachedIn (m.Step ec reverse) seeds a.2 a.1 ∧
        (∀ n, 1 ≤ n → ReachedIn (m.Step ec reverse) seeds n a.1 → a.2 ≤ n) ∧
        (∀ b : Nat, (∀ c ∈ q, b ≤ c.2) → b ≤ a.2)) ∧
      (Query.levelOrder m ec reverse fuel q v).Pairwise (fun a b => a.2 ≤ b.2) := by
  intro fuel
  induction fuel with
  | zero => intro q v hist _; simp [Query.levelOrder]
  | succ fuel ih =>
    intro q v hist inv
    cases q with
    | nil => simp [Query.levelOrder]
    | cons e q =>
      obtain ⟨x, l⟩ := e
      by_cases hv : x ∈ v
      · simp only [Query.levelOrder, hv, if_true]
        obtain ⟨h1, h2⟩ := ih q v hist (inv.skip hv)
        refine ⟨fun a ha => ?_, h2⟩
        obtain ⟨p1, p2, p3, p4⟩ := h1 a ha
        exact ⟨p1, p2, p3, fun b hb => p4 b (fun c hc => hb c (List.mem_cons_of_mem _ hc))⟩
      · simp only [Query.levelOrder, hv, if_false]
        have inv1 := inv.visit hv
        obtain ⟨h1, h2⟩ := ih _ _ _ inv1
        have hhead : ∀ a ∈ q, l ≤ a.2 := fun a ha => (List.pairwise_cons.mp inv.sorted).1 a ha
        have hlow : ∀ b : Nat, (∀ c ∈ (x, l) :: q, b ≤ c.2) →
            ∀ c ∈ q ++ (Query.mapFunction m ec reverse x).map (fun w => (w, l + 1)),
              b ≤ c.2 := by
          intro b hb c hc
          rcases List.mem_append.mp hc with hc | hc
          · exact hb c (List.mem_cons_of_mem _ hc)
          · obtain ⟨w, _, rfl⟩ := List.mem_map.mp hc
            have := hb (x, l) (List.mem_cons_self _ _)
            simp only at this ⊢
            omega
        constructor
        · intro a ha
          rcases List.mem_cons.mp ha with ha | ha
          · subst ha
            have hr := inv.reached (x, l) (List.mem_cons_self _ _)
            refine ⟨hr.1, hr.2, ?_, fun b hb => hb (x, l) (List.mem_cons_self _ _)⟩
            exact inv1.least (x, l) (List.mem_cons_self _ _)
          · obtain ⟨p1, p2, p3, p4⟩ := h1 a ha
            exact ⟨p1, p2, p3, fun b hb => p4 b (hlow b hb)⟩
        · refine List.pairwise_cons.mpr ⟨?_, h2⟩
          intro a ha
          refine (h1 a ha).2.2.2 l (hlow l ?_)
          intro c hc
          rcases List.mem_cons.mp hc with hc | hc
          · subst hc; exact le_refl _
          · exact hhead c hc

theorem mem_take_of_before (A B : List Nat) (x y k : Nat) (hnd : (A ++ x :: B).Nodup)
    (hx : x ∈ (A ++ x :: B).take k) (hy : y ∈ A) : y ∈ (A ++ x :: B).take k := by
  rw [List.take_append_eq_append_take] at hx ⊢
  have hxA : x ∉ A := by
    intro h
    exact (List.nodup_append.mp hnd).2.2 h (List.mem_cons_self _ _)
  rcases List.mem_append.mp hx with h | h
  · exact absurd (List.mem_of_mem_take h) hxA
  · have hk : A.length ≤ k := by
      by_contra hlt
      have h0 : k - A.length = 0 := by omega
      rw [h0] at h
      simp at h
    rw [List.take_of_length_le hk]
    exact List.mem_append.mpr (Or.inl hy)

/-- C26. On a well-formed graph BFS returns a set, and whenever the set holds
a node at distance `d` from the seeds, it holds every node that satisfies
the predicate and is at a distance below `d`; the distance of a node is the
least number of followed edges, one or more, of a path from a seed to it. -/
theorem BFS_collects_nearest_first (m : Mem) (hwf : m.wf) (seeds : NodeSet)
    (pred : NodeCondition) (ec : EdgeCondition) (limit : Nat) (reverse : Bool) :
    ∃ r, Query.BFS m seeds pred ec limit reverse = some r ∧
      ∀ x d, x ∈ r → m.Distance ec reverse seeds x d →
        ∀ y dy, pred y = true → m.Distance ec reverse seeds y dy → dy < d → y ∈ r := by
  refine ⟨_, Query.BFS_eq_take m seeds pred ec limit reverse, ?_⟩
  intro x d hx hdx y dy hpy hdy hlt
  have hSF : ∀ a b, m.Step ec reverse a b → m.Follows ec reverse a b :=
    fun a b => (Mem.step_iff_follows m hwf ec reverse a b).mp
  have hFS : ∀ a b, m.Follows ec reverse a b → m.Step ec reverse a b :=
    fun a b => (Mem.step_iff_follows m hwf ec reverse a b).mpr
  obtain ⟨hT, hsorted⟩ := Query.levelOrder_levels m ec reverse seeds
    ((Query.mapNodes seeds (Query.mapFunction m ec reverse)).length
      + Query.pending m ec reverse [] + 1) _ [] [] (Query.LevelInv.init m ec reverse seeds)
  have hlevel : ∀ (z : NodeRef) (lz dz : Nat), (z, lz) ∈ Query.visitOrder m seeds ec reverse →
      m.Distance ec reverse seeds z dz → lz = dz := by
    intro z lz dz hz hdz
    obtain ⟨p1, p2, p3, _⟩ := hT (z, lz) hz
    have h1 : lz ≤ dz := p3 dz hdz.1 (ReachedIn.mono _ _ hFS seeds dz z hdz.2.1)
    have h2 : dz ≤ lz := hdz.2.2 lz p1 (ReachedIn.mono _ _ hSF seeds lz z p2)
    omega
  -- the node `x` is in the visiting order
  have hxL := List.mem_of_mem_take ((mem_toSet _ x).mp hx)
  obtain ⟨hxT, hpx⟩ := List.mem_filter.mp hxL
  obtain ⟨ex, hex, hex1⟩ := List.mem_map.mp hxT
  obtain ⟨x1, lx⟩ := ex
  simp only at hex1
  subst hex1
  have hlx : lx = d := hlevel x1 lx d hex hdx
  -- the node `y` is in the visiting order
  have hyL : y ∈ ((Query.visitOrder m seeds ec reverse).map Prod.fst).filter pred := by
    obtain ⟨r, hr, _, hmem⟩ := Query.BFS_mem_iff m hwf seeds pred ec (m.nodes.length + 1)
      reverse (Nat.lt_succ_self _)
    rw [Query.BFS_eq_take m seeds pred ec (m.nodes.length + 1) reverse] at hr
    have hyr : y ∈ r := by
      refine (hmem y).mpr ⟨hpy, ?_⟩
      obtain ⟨j, hj⟩ : ∃ j, dy = j + 1 := ⟨dy - 1, by have := hdy.1; omega⟩
      have h2 := hdy.2.1
      rw [hj] at h2
      exact ReachedIn.transGen _ seeds j y h2
    rw [← Option.some.inj hr] at hyr
    exact List.mem_of_mem_take ((mem_toSet _ y).mp hyr)
  obtain ⟨hyT, _⟩ := List.mem_filter.mp hyL
  obtain ⟨ey, hey, hey1⟩ := List.mem_map.mp hyT
  obtain ⟨y1, ly⟩ := ey
  simp only at hey1
  subst hey1
  have hly : ly = dy := hlevel y1 ly dy hey hdy
  -- `y` comes before `x`
  obtain ⟨A, B, hAB⟩ := List.append_of_mem hex
  have hsorted1 : (A ++ (x1, lx) :: B).Pairwise (fun a b => a.2 ≤ b.2) := by
    rw [← hAB]; exact hsorted
  have hB : ∀ b ∈ B, lx ≤ b.2 :=
    (List.pairwise_cons.mp (List.pairwise_append.mp hsorted1).2.1).1
  have hyA : (y1, ly) ∈ A := by
    have hmem : (y1, ly) ∈ A ++ (x1, lx) :: B := by rw [← hAB]; exact hey
    rcases List.mem_append.mp hmem with h | h
    · exact h
    · rcases List.mem_cons.mp h with h | h
      · have : ly = lx := congrArg Prod.snd h
        omega
      · have := hB _ h
        simp only at this
        omega
  have hnd : (((Query.visitOrder m seeds ec reverse).map Prod.fst).filter pred).Nodup :=
    (Query.visitOrder_filter m seeds pred ec reverse).1
  have hsplit : ((Query.visitOrder m seeds ec reverse).map Prod.fst).filter pred
      = (A.map Prod.fst).filter pred ++ x1 :: (B.map Prod.fst).filter pred := by
    have hAB1 : Query.visitOrder m seeds ec reverse = A ++ (x1, lx) :: B := hAB
    rw [hAB1, List.map_append, List.filter_append, List.map_cons, List.filter_cons]
    simp only [hpx, if_true]
  refine (mem_toSet _ y1).mpr ?_
  have hx2 := (mem_toSet _ x1).mp hx
  rw [hsplit] at hx2 hnd ⊢
  exact mem_take_of_before _ _ x1 y1 limit hnd hx2
    (List.mem_filter.mpr ⟨List.mem_map.mpr ⟨(y1, ly), hyA, rfl⟩, hpy⟩)

/-- Witness of C26: the sample graph, seed 0, every node and every edge
accepted, limit 3; node 3 is at distance 2 and node 1 at distance 1. -/
theorem BFS_collects_nearest_first_witness :
    sampleState.mem.wf ∧
    sampleState.mem.Distance Query.ALL_EDGES false [0] 3 2 ∧
    sampleState.mem.Distance Query.ALL_EDGES false [0] 1 1 ∧
    ∃ r, Query.BFS sampleState.mem [0] (fun _ => true) Query.ALL_EDGES 3 false = some r ∧
      3 ∈ r ∧ 1 ∈ r := by
  have h01 : sampleState.mem.Follows Query.ALL_EDGES false 0 1 := ⟨0, by decide, rfl, by decide⟩
  have h02 : sampleState.mem.Follows Query.ALL_EDGES false 0 2 := ⟨1, by decide, rfl, by decide⟩
  have h23 : sampleState.mem.Follows Query.ALL_EDGES false 2 3 := ⟨2, by decide, rfl, by decide⟩
  have h03 : ¬ sampleState.mem.Follows Query.ALL_EDGES false 0 3 := by
    unfold Mem.Follows
    decide
  have hd3 : sampleState.mem.Distance Query.ALL_EDGES false [0] 3 2 := by
    refine ⟨by decide, ⟨2, ⟨0, List.mem_singleton.mpr rfl, h02⟩, h23⟩, ?_⟩
    intro n hn hr
    by_contra hlt
    have hn1 : n = 1 := by omega
    subst hn1
    obtain ⟨p, hp, hf⟩ := hr
    have hp0 : p = 0 := by simpa [ReachedIn] using hp
    subst hp0
    exact h03 hf
  have hd1 : sampleState.mem.Distance Query.ALL_EDGES false [0] 1 1 :=
    ⟨le_refl 1, ⟨0, List.mem_singleton.mpr rfl, h01⟩, fun n hn _ => hn⟩
  obtain ⟨r, hr, h⟩ := BFS_collects_nearest_first sampleState.mem (by decide) [0]
    (fun _ => true) Query.ALL_EDGES 3 false
  have hr1 : Query.BFS sampleState.mem [0] (fun _ => true) Query.ALL_EDGES 3 false
      = some [1, 2, 3] := by decide
  have h3 : 3 ∈ r := by
    rw [hr] at hr1
    rw [Option.some.inj hr1]
    decide
  exact ⟨by decide, hd3, hd1, r, hr, h3, h 3 2 h3 hd3 1 1 rfl hd1 (by decide)⟩

/-! ## PDG edges that carry a constant -/

/-- The conversion to `int32_t` gives the integer of the signed 32-bit range
that agrees with the pattern modulo `2 ^ 32`. -/
theorem toInt32_spec (u : Nat) :
    -2 ^ 31 ≤ toInt32 u ∧ toInt32 u < 2 ^ 31 ∧ (toInt32 u - (u : Int)) % 2 ^ 32 = 0 := by
  unfold toInt32
  split_ifs with h <;> norm_num at h ⊢ <;> omega

/-- The conversion to `int64_t` gives the integer of the signed 64-bit range
that agrees with the pattern modulo `2 ^ 64`. -/
theorem toInt64_spec (u : Nat) :
    -2 ^ 63 ≤ toInt64 u ∧ toInt64 u < 2 ^ 63 ∧ (toInt64 u - (u : Int)) % 2 ^ 64 = 0 := by
  unfold toInt64
  split_ifs with h <;> norm_num at h ⊢ <;> omega

theorem Const.u32_lt (c : Const) : c.u32 < 2 ^ 32 := Nat.mod_lt _ (by norm_num)

theorem Const.u64_lt (c : Const) : c.u64 < 2 ^ 64 := Nat.mod_lt _ (by norm_num)

/-- The text of `writeConst` for the integer types. -/
theorem ConstInst.writeConst_int (fmt : FloatText) (c : Const) :
    (c.type = ValType.I32 →
      ConstInst.writeConst fmt c = some ("i32.const " ++ toString (toInt32 c.u32))) ∧
    (c.type = ValType.I64 →
      ConstInst.writeConst fmt c = some ("i64.const " ++ toString (toInt64 c.u64))) ∧
    (c.type = ValType.V128 → ConstInst.writeConst fmt c = none) ∧
    (c.type ≠ ValType.V128 → ∃ text, ConstInst.writeConst fmt c = some text) := by
  refine ⟨fun h => ?_, fun h => ?_, fun h => ?_, fun h => ?_⟩
  · simp only [ConstInst.writeConst, h, Opcode.I32Const_Name]
    rw [← String.append_assoc]
    rfl
  · simp only [ConstInst.writeConst, h, Opcode.I64Const_Name]
    rw [← String.append_assoc]
    rfl
  · simp only [ConstInst.writeConst, h]
  · cases hc : c.type with
    | I32 => simp only [ConstInst.writeConst, hc]; exact ⟨_, rfl⟩
    | I64 => simp only [ConstInst.writeConst, hc]; exact ⟨_, rfl⟩
    | F32 => simp only [ConstInst.writeConst, hc]; exact ⟨_, rfl⟩
    | F64 => simp only [ConstInst.writeConst, hc]; exact ⟨_, rfl⟩
    | V128 => exact absurd hc h

/-- C31. A `PDGEdgeConst` built from a constant `c` reports the sub-kind
Const, the value `c` and the label `writeConst(c)`, and it is a PDG edge
between the two nodes given; between two allocated nodes the construction
succeeds for every constant that is not a v128. For an i32 constant the
label is "i32.const " followed by the decimal text of the integer of the
signed 32-bit range that agrees with the pattern modulo 2^32, for an i64
constant "i64.const " followed by the same for 64 bits, and for a v128
constant `writeConst` is an assertion failure, so that no edge is built. The
i32 pattern 4294967295 gives "i32.const -1". -/
theorem pdgEdgeConst_reports_const_value_and_label (fmt : FloatText) (m : Mem)
    (s d : NodeRef) (c : Const) (hs : s < m.nodes.length) (hd : d < m.nodes.length) :
    (∀ src dest m1 e o, m.newPDGEdgeConst fmt src dest c = some (m1, e, o) →
      o.pdgType = some PDGType.Const ∧ o.value = some c ∧
      o.label = ConstInst.writeConst fmt c ∧ o.type = EdgeType.PDG) ∧
    (c.type ≠ ValType.V128 →
      ∃ m1 e o, m.newPDGEdgeConst fmt (some s) (some d) c = some (m1, e, o) ∧
        m1.edgeType e = some EdgeType.PDG ∧ m1.src e = s ∧ m1.dest e = d) ∧
    (c.type = ValType.I32 →
      ∃ i : Int, -2 ^ 31 ≤ i ∧ i < 2 ^ 31 ∧ (i - (c.u32 : Int)) % 2 ^ 32 = 0 ∧
        ConstInst.writeConst fmt c = some ("i32.const " ++ toString i)) ∧
    (c.type = ValType.I64 →
      ∃ i : Int, -2 ^ 63 ≤ i ∧ i < 2 ^ 63 ∧ (i - (c.u64 : Int)) % 2 ^ 64 = 0 ∧
        ConstInst.writeConst fmt c = some ("i64.const " ++ toString i)) ∧
    (c.type = ValType.V128 →
      ConstInst.writeConst fmt c = none ∧
      ∀ src dest, m.newPDGEdgeConst fmt src dest c = none) ∧
    ConstInst.writeConst fmt { type := ValType.I32, bits := 4294967295 }
      = some "i32.const -1" := by
  obtain ⟨h32, h64, h128, hsome⟩ := ConstInst.writeConst_int fmt c
  refine ⟨?_, ?_, ?_, ?_, ?_, rfl⟩
  · intro src dest m1 e o h
    unfold Mem.newPDGEdgeConst at h
    cases hw : ConstInst.writeConst fmt c with
    | none => rw [hw] at h; simp at h
    | some text =>
      rw [hw] at h
      cases hn : m.newEdge src dest EdgeType.PDG with
      | none => rw [hn] at h; simp at h
      | some r =>
        obtain ⟨m2, e2⟩ := r
        rw [hn] at h
        simp only [Option.some.injEq, Prod.mk.injEq] at h
        obtain ⟨_, _, ho⟩ := h
        subst ho
        exact ⟨rfl, rfl, rfl, rfl⟩
  · intro hc
    obtain ⟨text, hw⟩ := hsome hc
    obtain ⟨m1, hn, hedges, _⟩ := Mem.newEdge_spec m s d EdgeType.PDG hs hd
    refine ⟨m1, m.edges.length, EdgeClass.PDGEdgeConst text PDGType.Const c, ?_, ?_, ?_, ?_⟩
    · simp only [Mem.newPDGEdgeConst, hw, hn]
    · rw [Mem.edgeType_of_edges_append m m1 _ hedges]; simp
    · rw [Mem.src_of_edges_append m m1 _ hedges]; simp
    · rw [Mem.dest_of_edges_append m m1 _ hedges]; simp
  · intro hc
    obtain ⟨p1, p2, p3⟩ := toInt32_spec c.u32
    exact ⟨toInt32 c.u32, p1, p2, p3, h32 hc⟩
  · intro hc
    obtain ⟨p1, p2, p3⟩ := toInt64_spec c.u64
    exact ⟨toInt64 c.u64, p1, p2, p3, h64 hc⟩
  · intro hc
    refine ⟨h128 hc, fun src dest => ?_⟩
    simp only [Mem.newPDGEdgeConst, h128 hc]

/-- Witness of C31: a PDG edge between the two nodes of `twoNodesState`,
built from the i32 constant with every bit set, whose label is
"i32.const -1"; the i64 constant with every bit set gives "i64.const -1". -/
theorem pdgEdgeConst_reports_const_value_and_label_witness :
    (0 : Nat) < twoNodesState.mem.nodes.length ∧ (1 : Nat) < twoNodesState.mem.nodes.length ∧
    allOnes32.type = ValType.I32 ∧ allOnes32.u32 = 4294967295 ∧
    ConstInst.writeConst bitsText allOnes32 = some "i32.const -1" ∧
    ConstInst.writeConst bitsText allOnes64 = some "i64.const -1" ∧
    (twoNodesState.mem.newPDGEdgeConst bitsText (some 0) (some 1) allOnes32).map
        (fun r => r.2.2)
      = some (EdgeClass.PDGEdgeConst "i32.const -1" PDGType.Const allOnes32) ∧
    (∃ i : Int, -2 ^ 31 ≤ i ∧ i < 2 ^ 31 ∧ (i - (allOnes32.u32 : Int)) % 2 ^ 32 = 0 ∧
        ConstInst.writeConst bitsText allOnes32 = some ("i32.const " ++ toString i)) :=
  ⟨by decide, by decide, rfl, by decide, by decide, by decide, by decide,
   (pdgEdgeConst_reports_const_value_and_label bitsText twoNodesState.mem 0 1 allOnes32
     (by decide) (by decide)).2.2.1 rfl⟩

end Wasmati
